import Mathlib

/-!
# voxcii: polygon triangulation and the depth-buffered rasterizer

A shallow embedding of `src/vec3.hpp`, `src/model.cpp` (the n-gon triangulator of
`Model::loadFromObj`) and `src/surface.cpp` (`Surface::drawTriangle`).

Conventions of the embedding
* There are two readings of the `float` code. In the exact reading `float` values are
  rationals (`ℚ`) and the operations are exact; it is used for the properties that hold
  up to rounding. In the rounded reading (namespace `Fl`) every operation is followed by
  a rounding `rnd : ℚ → ℚ` and the conversion `(int)` is `toInt32`; with `rnd = id`, and
  floors that fit in `int`, it is the exact reading; with `rnd = round32` and `fsqrt = sqrt32` it is the binary32
  evaluation of the program, which decides the branches `m == 0` of `Vec3::normalize`
  and `normal.z == 0` of `Surface::drawTriangle` and the range of the column scan.
  Infinities and NaN are not values of the embedding: `+infinity` of a pixel depth is
  `none` in `Option ℚ`, and overflow is not represented.
* `std::sqrt` is library code: every definition that reaches it takes it as the
  parameter `fsqrt : ℚ → ℚ`. The closed exact examples pass `Rat.sqrt`, which is the exact
  root on squares of rationals; the binary32 examples pass `sqrt32`, the correctly
  rounded root.
* `std::vector` is `List`; reading past the end yields the default element (the C++
  behaviour there is undefined), writing past the end does nothing.
* The recursion of `triangularizeRecurse` is driven by a fuel argument; the number of
  vertices is always enough fuel.
-/

set_option autoImplicit false

namespace Voxcii

/-! ## `vec3.hpp` -/

/-- Embeds `struct Vec3`: three components, zero by default. -/
structure Vec3 where
  x : ℚ := 0
  y : ℚ := 0
  z : ℚ := 0
deriving DecidableEq

instance : Inhabited Vec3 := ⟨{}⟩

namespace Vec3

/-- Embeds `Vec3::mag`. -/
def mag (fsqrt : ℚ → ℚ) (v : Vec3) : ℚ :=
  fsqrt (v.x * v.x + v.y * v.y + v.z * v.z)

/-- Embeds `Vec3::normalize`, exact reading: here `m == 0` is decided on the exact sum of
squares; the rounded reading is `Fl.normalize`. -/
def normalize (fsqrt : ℚ → ℚ) (v : Vec3) : Vec3 :=
  let m := mag fsqrt v
  if m = 0 then {} else ⟨v.x / m, v.y / m, v.z / m⟩

/-- Embeds `Vec3::dot`. -/
def dot (v o : Vec3) : ℚ := v.x * o.x + v.y * o.y + v.z * o.z

/-- Embeds `Vec3::cross`. -/
def cross (v o : Vec3) : Vec3 :=
  ⟨v.y * o.z - v.z * o.y, v.z * o.x - v.x * o.z, v.x * o.y - v.y * o.x⟩

/-- Embeds `Vec3::operator+`. -/
def add (v o : Vec3) : Vec3 := ⟨v.x + o.x, v.y + o.y, v.z + o.z⟩

/-- Embeds `Vec3::operator-`. -/
def sub (v o : Vec3) : Vec3 := ⟨v.x - o.x, v.y - o.y, v.z - o.z⟩

/-- Embeds `Vec3::operator*` (scalar). -/
def smul (v : Vec3) (s : ℚ) : Vec3 := ⟨v.x * s, v.y * s, v.z * s⟩

end Vec3

/-! ## `model.cpp`: the triangulator -/

/-- Embeds `triArea` of the anonymous namespace: unsigned area of the 2D triangle. -/
def triArea (p1 p2 p3 : Vec3) : ℚ :=
  |p1.x * (p2.y - p3.y) + p2.x * (p3.y - p1.y) + p3.x * (p1.y - p2.y)| / 2

/-- The literal `1.00001f` of `pointInTriangle`. -/
def areaTolerance : ℚ := 100001 / 100000

/-- Embeds `pointInTriangle`: inclusive area test with a relative tolerance. -/
def pointInTriangle (pt v1 v2 v3 : Vec3) : Bool :=
  let total := triArea v1 v2 v3
  let a1 := triArea v1 v2 pt
  let a2 := triArea v2 v3 pt
  let a3 := triArea v3 v1 pt
  decide (a1 + a2 + a3 ≤ total * areaTolerance)

/-- The indices `(i1, i2, i3)` assigned in iteration `t` of the ear search
(`model.cpp` lines 32-34). -/
def earCorner (n t : Nat) : Nat × Nat × Nat :=
  ((n / 2 + t + n - 1) % n, (n / 2 + t) % n, (n / 2 + t + 1) % n)

/-- The `convex` flag computed in iteration `t` of the ear search (lines 36-39). -/
def isConvexAt (vecs : List Vec3) (orient : Bool) (t : Nat) : Bool :=
  let c := earCorner vecs.length t
  let d1 := (vecs.getD c.2.2 default).sub (vecs.getD c.2.1 default)
  let d2 := (vecs.getD c.1 default).sub (vecs.getD c.2.1 default)
  let cp := (d1.cross d2).z
  decide (cp = 0) || (decide (cp > 0) != orient)

/-- The ear search loop (lines 30-41): the first `t < n` whose corner is convex stops
the loop; when none is, the indices of the last iteration `t = n - 1` remain. -/
def findEar (vecs : List Vec3) (orient : Bool) : Nat × Nat × Nat :=
  earCorner vecs.length
    (((List.range vecs.length).find? (isConvexAt vecs orient)).getD (vecs.length - 1))

/-- One iteration of the loop over `k` (lines 52-61); the state is `(max_k, max_dist)`
with `max_k == -1` read as `none`. -/
def insideStep (vecs : List Vec3) (i1 i2 i3 : Nat) (st : Option Nat × ℚ) (k : Nat) :
    Option Nat × ℚ :=
  let v1 := vecs.getD i1 default
  let v2 := vecs.getD i2 default
  let v3 := vecs.getD i3 default
  let a := v1.y - v3.y
  let b := v3.x - v1.x
  let c := (v1.x - v3.x) * v1.y + (v3.y - v1.y) * v1.x
  if k = i1 ∨ k = i2 ∨ k = i3 then st
  else if pointInTriangle (vecs.getD k default) v1 v2 v3 then
    let dist := |a * (vecs.getD k default).x + b * (vecs.getD k default).y + c|
    if st.1 = none ∨ dist > st.2 then (some k, dist) else st
  else st

/-- The loop over `k` (lines 49-61): the vertex inside the candidate ear that the split
will use, `none` when no vertex is inside. -/
def farthestInside (vecs : List Vec3) (i1 i2 i3 : Nat) : Option Nat :=
  ((List.range vecs.length).foldl (insideStep vecs i1 i2 i3) (none, 0)).1

/-- The split loop (lines 73-84) from position `r` on, with the current `side` flag:
returns `(A, B)`. It is run on `vecs` and on `idxs`, which the source walks in step. -/
def splitFrom {α : Type} (i2 max_k : Nat) : Nat → Bool → List α → List α × List α
  | _, _, [] => ([], [])
  | r, side, x :: xs =>
    if r = i2 ∨ r = max_k then
      (x :: (splitFrom i2 max_k (r + 1) (!side) xs).1,
       x :: (splitFrom i2 max_k (r + 1) (!side) xs).2)
    else if side then
      (x :: (splitFrom i2 max_k (r + 1) side xs).1, (splitFrom i2 max_k (r + 1) side xs).2)
    else
      ((splitFrom i2 max_k (r + 1) side xs).1, x :: (splitFrom i2 max_k (r + 1) side xs).2)

/-- The whole split loop: `r` from `0`, `side` initially `false`. -/
def splitPoly {α : Type} (i2 max_k : Nat) (xs : List α) : List α × List α :=
  splitFrom i2 max_k 0 false xs

/-- Embeds `triangularizeRecurse`: the indices appended to `out`, or `none` when the fuel
runs out. -/
def triangularizeRecurse (fuel : Nat) (vecs : List Vec3) (idxs : List Int) (orient : Bool) :
    Option (List Int) :=
  if vecs.length < 3 then some []
  else if vecs.length = 3 then some [idxs.getD 0 0, idxs.getD 1 0, idxs.getD 2 0]
  else
    match fuel with
    | 0 => none
    | fuel + 1 =>
      let e := findEar vecs orient
      match farthestInside vecs e.1 e.2.1 e.2.2 with
      | none =>
        (triangularizeRecurse fuel (vecs.eraseIdx e.2.1) (idxs.eraseIdx e.2.1) orient).map
          (fun rest => [idxs.getD e.1 0, idxs.getD e.2.1 0, idxs.getD e.2.2 0] ++ rest)
      | some k =>
        match triangularizeRecurse fuel (splitPoly e.2.1 k vecs).1 (splitPoly e.2.1 k idxs).1
            orient,
          triangularizeRecurse fuel (splitPoly e.2.1 k vecs).2 (splitPoly e.2.1 k idxs).2
            orient with
        | some outA, some outB => some (outA ++ outB)
        | _, _ => none

/-- Embeds `m.vertices[idx]` for an `int` index. -/
def vertexAt (verts : List Vec3) (idx : Int) : Vec3 := verts.getD idx.toNat default

/-- The projected point that `loadFromObj` (lines 147-157) pushes to `poly_vecs` for
vertex index `idx` of the face `f_idxs`. -/
def projectVertex (fsqrt : ℚ → ℚ) (verts : List Vec3) (f_idxs : List Int) (idx : Int) : Vec3 :=
  let d1 := (vertexAt verts (f_idxs.getD 1 0)).sub (vertexAt verts (f_idxs.getD 0 0))
  let d2 := (vertexAt verts (f_idxs.getD 2 0)).sub (vertexAt verts (f_idxs.getD 1 0))
  let norm := (d1.cross d2).normalize fsqrt
  let perp := (norm.cross d1).normalize fsqrt
  let dir1 := d1.normalize fsqrt
  ⟨dir1.dot (vertexAt verts idx), perp.dot (vertexAt verts idx), 0⟩

/-- The projection `poly_vecs` of a face onto its own plane (lines 154-157). -/
def projectFace (fsqrt : ℚ → ℚ) (verts : List Vec3) (f_idxs : List Int) : List Vec3 :=
  f_idxs.map (projectVertex fsqrt verts f_idxs)

/-- The orientation sum `area` of `loadFromObj` (lines 160-165). -/
def orientationSum (poly : List Vec3) : ℚ :=
  (List.range poly.length).foldl
    (fun area i =>
      area + ((poly.getD ((i + 1) % poly.length) default).x - (poly.getD i default).x)
        * ((poly.getD ((i + 1) % poly.length) default).y + (poly.getD i default).y))
    0

/-- The index triples that `loadFromObj` pushes for one `f` line (lines 132-180),
flattened; the triangulator is started with as much fuel as the face has vertices. -/
def faceTriangles (fsqrt : ℚ → ℚ) (verts : List Vec3) (f_idxs : List Int) :
    Option (List Int) :=
  if f_idxs.length = 3 then some [f_idxs.getD 0 0, f_idxs.getD 1 0, f_idxs.getD 2 0]
  else if f_idxs.length > 3 then
    triangularizeRecurse (projectFace fsqrt verts f_idxs).length
      (projectFace fsqrt verts f_idxs) f_idxs
      (decide (orientationSum (projectFace fsqrt verts f_idxs) ≥ 0))
  else some []

/-- The emitted index list read three at a time (`loadFromObj`, lines 170-179). -/
def triples : List Int → List (Int × Int × Int)
  | a :: b :: c :: rest => (a, b, c) :: triples rest
  | _ => []

/-! ## `surface.hpp`, `surface.cpp`: the frame buffer -/

/-- Embeds `struct Pixel`; the depth `z` starts at `+infinity`, written `none`. -/
structure Pixel where
  z : Option ℚ := none
  c : Char := Char.ofNat 32
  material : Int := -1
deriving DecidableEq

instance : Inhabited Pixel := ⟨{}⟩

/-- Embeds `struct Triangle`. -/
structure Triangle where
  p1 : Vec3
  p2 : Vec3
  p3 : Vec3
deriving DecidableEq

/-- Embeds `class Surface`. -/
structure Surface where
  width : Int
  height : Int
  logical_w : ℚ
  logical_h : ℚ
  dx : ℚ
  dy : ℚ
  pixels : List Pixel
deriving DecidableEq

/-- Embeds `std::clamp(v, lo, hi)`. -/
def clamp (v lo hi : Int) : Int := if v < lo then lo else if hi < v then hi else v

/-- The comparison `depth < p.z` of a finite depth with a stored one. -/
def depthLess (depth : ℚ) (z : Option ℚ) : Bool :=
  match z with
  | none => true
  | some stored => decide (depth < stored)

/-- The values `xx = a, a + 1, ..., b` of a loop `for (int xx = a; xx <= b; ++xx)`. -/
def intRange (a b : Int) : List Int :=
  (List.range (b + 1 - a).toNat).map (fun (i : Nat) => a + (i : Int))

/-- Embeds `std::sort` of the three corners by `x` (insertion order kept among equal `x`). -/
def sortByX (p1 p2 p3 : Vec3) : Vec3 × Vec3 × Vec3 :=
  let a := if p2.x < p1.x then p2 else p1
  let b := if p2.x < p1.x then p1 else p2
  if p3.x < a.x then (p3, a, b) else if p3.x < b.x then (a, p3, b) else (a, b, p3)

/-- The lambda `getY` of `drawTriangle`. -/
def getY (pA pB : Vec3) (x : ℚ) : ℚ :=
  if pA.x = pB.x then pA.y else pA.y + (pB.y - pA.y) * (x - pA.x) / (pB.x - pA.x)

namespace Surface

/-- The constructor `Surface::Surface`. -/
def create (w h : Int) (lw lh : ℚ) : Surface :=
  ⟨w, h, lw, lh, lw / w, lh / h, List.replicate (w * h).toNat {}⟩

/-- Embeds `Surface::clear`. -/
def clear (S : Surface) : Surface := { S with pixels := S.pixels.map (fun _ => {}) }

/-- Embeds `Surface::idxX`, exact reading: the floor is not converted to `int`; the
reading with the conversion is `Fl.idxX`. -/
def idxX (S : Surface) (x : ℚ) : Int := clamp ⌊x / S.dx⌋ 0 (S.width - 1)

/-- Embeds `Surface::idxY`, exact reading: the floor is not converted to `int`; the
reading with the conversion is `Fl.idxY`. -/
def idxY (S : Surface) (y : ℚ) : Int := clamp ⌊y / S.dy⌋ 0 (S.height - 1)

/-- The cull test of `drawTriangle` (lines 29-30): `true` when the triangle is dropped. -/
def culled (t : Triangle) : Bool :=
  decide ((t.p2.x - t.p1.x) * (t.p3.y - t.p2.y) ≥ (t.p3.x - t.p2.x) * (t.p2.y - t.p1.y))

/-- The plane normal of `drawTriangle` (lines 36-37), with the epsilon substitution, exact
reading; the rounded reading is `Fl.planeNormal`. -/
def planeNormal (fsqrt : ℚ → ℚ) (t : Triangle) : Vec3 :=
  let normal := ((t.p2.sub t.p1).cross (t.p3.sub t.p1)).normalize fsqrt
  if normal.z = 0 then { normal with z := 1 / 10000 } else normal

/-- The sample abscissa `x = (xx + 0.5f) * dx` of column `xx`. -/
def sampleX (S : Surface) (xx : Int) : ℚ := ((xx : ℚ) + 1 / 2) * S.dx

/-- The sample ordinate `y = (yy + 0.5f) * dy` of row `yy`. -/
def sampleY (S : Surface) (yy : Int) : ℚ := ((yy : ℚ) + 1 / 2) * S.dy

/-- The first column `x_start` (lines 39, 42). -/
def xStart (S : Surface) (t : Triangle) : Int :=
  S.idxX ((sortByX t.p1 t.p2 t.p3).1.x + S.dx / 2)

/-- The last column `x_end` (lines 40, 43). -/
def xEnd (S : Surface) (t : Triangle) : Int :=
  S.idxX ((sortByX t.p1 t.p2 t.p3).2.2.x - S.dx / 2)

/-- The scanline intersection `y1` of column `xx` (line 54). -/
def scanY1 (S : Surface) (t : Triangle) (xx : Int) : ℚ :=
  let pts := sortByX t.p1 t.p2 t.p3
  if S.sampleX xx ≤ pts.2.1.x then getY pts.1 pts.2.1 (S.sampleX xx)
  else getY pts.2.1 pts.2.2 (S.sampleX xx)

/-- The scanline intersection `y2` of column `xx` (line 55). -/
def scanY2 (S : Surface) (t : Triangle) (xx : Int) : ℚ :=
  let pts := sortByX t.p1 t.p2 t.p3
  getY pts.1 pts.2.2 (S.sampleX xx)

/-- The first row `y_start` of column `xx` (lines 57, 60). -/
def yStart (S : Surface) (t : Triangle) (xx : Int) : Int :=
  S.idxY (min (S.scanY1 t xx) (S.scanY2 t xx) + S.dy / 2)

/-- The last row `y_end` of column `xx` (lines 58, 61). -/
def yEnd (S : Surface) (t : Triangle) (xx : Int) : Int :=
  S.idxY (max (S.scanY1 t xx) (S.scanY2 t xx) - S.dy / 2)

/-- The `depth` of the sample of cell `(xx, yy)` (line 65). -/
def planeDepth (fsqrt : ℚ → ℚ) (S : Surface) (t : Triangle) (xx yy : Int) : ℚ :=
  let pts := sortByX t.p1 t.p2 t.p3
  let normal := planeNormal fsqrt t
  pts.1.z - (normal.x * (S.sampleX xx - pts.1.x) + normal.y * (S.sampleY yy - pts.1.y))
    / normal.z

/-- The depth test and store of one pixel (lines 68-72). -/
def testPixel (p : Pixel) (depth : ℚ) (c : Char) (mat_idx : Int) : Pixel :=
  if depthLess depth p.z then ⟨some depth, c, mat_idx⟩ else p

/-- The body of the inner loop (lines 64-72) for cell `(xx, yy)`, on the pixel list;
the pixel is `pixels[yy * width + xx]`. -/
def plot (fsqrt : ℚ → ℚ) (S : Surface) (t : Triangle) (c : Char) (mat_idx : Int)
    (xx : Int) (pixels : List Pixel) (yy : Int) : List Pixel :=
  if 0 ≤ yy * S.width + xx then
    pixels.set (yy * S.width + xx).toNat
      (testPixel (pixels.getD (yy * S.width + xx).toNat default)
        (planeDepth fsqrt S t xx yy) c mat_idx)
  else pixels

/-- The body of the outer loop (lines 51-73) for column `xx`. -/
def plotColumn (fsqrt : ℚ → ℚ) (S : Surface) (t : Triangle) (c : Char) (mat_idx : Int)
    (pixels : List Pixel) (xx : Int) : List Pixel :=
  (intRange (S.yStart t xx) (S.yEnd t xx)).foldl (plot fsqrt S t c mat_idx xx) pixels

/-- Embeds `Surface::drawTriangle`. -/
def drawTriangle (fsqrt : ℚ → ℚ) (S : Surface) (t : Triangle) (c : Char) (mat_idx : Int) :
    Surface :=
  if culled t then S
  else
    { S with
      pixels := (intRange (S.xStart t) (S.xEnd t)).foldl (plotColumn fsqrt S t c mat_idx)
        S.pixels }

end Surface

/-! ## Notions used to state the properties -/

/-- Signed area of the 2D triangle: the expression of `triArea` without the absolute
value (positive for a counter-clockwise triangle). -/
def triSigned (p1 p2 p3 : Vec3) : ℚ :=
  (p1.x * (p2.y - p3.y) + p2.x * (p3.y - p1.y) + p3.x * (p1.y - p2.y)) / 2

/-- Signed area of a 2D polygon (shoelace formula): `orientationSum` is minus twice it. -/
def polygonSigned (poly : List Vec3) : ℚ := -(orientationSum poly) / 2

/-- Area of a 2D polygon. -/
def polygonArea (poly : List Vec3) : ℚ := |orientationSum poly| / 2

/-- Sum of the unsigned areas of the emitted triangles, measured at the mesh vertices
(in their `x`, `y` coordinates). -/
def emittedArea (verts : List Vec3) (out : List Int) : ℚ :=
  ((triples out).map
    (fun t => triArea (vertexAt verts t.1) (vertexAt verts t.2.1) (vertexAt verts t.2.2))).sum

/-- The mesh triangle on vertex indices `a`, `b`, `c` is degenerate: its edge cross
product is the zero vector (zero area in 3D). -/
def degenerateTri (verts : List Vec3) (a b c : Int) : Prop :=
  ((vertexAt verts b).sub (vertexAt verts a)).cross
    ((vertexAt verts c).sub (vertexAt verts a)) = {}

/-- A triple of values that, read from some rotation, is an order-preserving selection
of three entries of `l`. -/
def CyclicTriple {α : Type} (l : List α) (a b c : α) : Prop :=
  List.Sublist [a, b, c] l ∨ List.Sublist [b, c, a] l ∨ List.Sublist [c, a, b] l

/-- Twice the signed area of the 2D triangle `a`, `b`, `c`. -/
def cross2 (a b c : Vec3) : ℚ := (b.x - a.x) * (c.y - a.y) - (b.y - a.y) * (c.x - a.x)

/-- The point `p` lies on the closed 2D segment from `a` to `b`. -/
def onSegment (a b p : Vec3) : Bool :=
  decide (cross2 a b p = 0 ∧ min a.x b.x ≤ p.x ∧ p.x ≤ max a.x b.x ∧
    min a.y b.y ≤ p.y ∧ p.y ≤ max a.y b.y)

/-- The closed 2D segments `a b` and `c d` have a point in common: they cross properly,
or an end point of one lies on the other. -/
def segmentsMeet (a b c d : Vec3) : Bool :=
  decide (cross2 a b c * cross2 a b d < 0 ∧ cross2 c d a * cross2 c d b < 0) ||
    onSegment a b c || onSegment a b d || onSegment c d a || onSegment c d b

/-- Edges `i` and `j` (`i < j`) of the closed polygon meet as they may in a simple
polygon: neighbouring edges only in their common vertex, other edges not at all. -/
def edgesApart (poly : List Vec3) (i j : Nat) : Bool :=
  let a := poly.getD i default
  let b := poly.getD ((i + 1) % poly.length) default
  let c := poly.getD j default
  let d := poly.getD ((j + 1) % poly.length) default
  if j = i + 1 then !onSegment a b d && !onSegment c d a
  else if i = 0 ∧ j + 1 = poly.length then !onSegment a b c && !onSegment c d b
  else !segmentsMeet a b c d

/-- The 2D polygon is simple: at least 3 vertices, no edge of length zero, and no two
edges meet except neighbours in their common vertex. -/
def simplePolygon (poly : List Vec3) : Bool :=
  decide (3 ≤ poly.length) &&
  (List.range poly.length).all (fun i =>
    decide (poly.getD i default ≠ poly.getD ((i + 1) % poly.length) default) &&
    (List.range poly.length).all (fun j => !decide (i < j) || edgesApart poly i j))

/-- Seven-vertex simple polygon (counter-clockwise, area 7): the triangle
`(0,0) (4,0) (0,4)` with the notch `(0,2) (1,1) (0,0)` cut from its left edge, and the
extra vertices `(3,0)` on the bottom edge and `(0,3)` on the left edge. -/
def notchVerts : List Vec3 :=
  [⟨3, 0, 0⟩, ⟨4, 0, 0⟩, ⟨0, 4, 0⟩, ⟨0, 3, 0⟩, ⟨0, 2, 0⟩, ⟨1, 1, 0⟩, ⟨0, 0, 0⟩]

/-- The `1 x 2` rectangle (counter-clockwise) with the midpoint `(1,1)` of its right
edge listed as a vertex. -/
def rectVerts : List Vec3 :=
  [⟨0, 0, 0⟩, ⟨1, 0, 0⟩, ⟨1, 1, 0⟩, ⟨1, 2, 0⟩, ⟨0, 2, 0⟩]

/-- Four points on one line. -/
def lineVerts : List Vec3 := [⟨0, 0, 0⟩, ⟨1, 0, 0⟩, ⟨2, 0, 0⟩, ⟨3, 0, 0⟩]

/-- The unit square, counter-clockwise. -/
def squareVerts : List Vec3 := [⟨0, 0, 0⟩, ⟨1, 0, 0⟩, ⟨1, 1, 0⟩, ⟨0, 1, 0⟩]

instance (verts : List Vec3) (a b c : Int) : Decidable (degenerateTri verts a b c) := by
  unfold degenerateTri; infer_instance

namespace Surface

/-- The pixel `pixels[yy * width + xx]` of cell `(xx, yy)`. -/
def pixelAt (S : Surface) (xx yy : Int) : Pixel :=
  S.pixels.getD (yy * S.width + xx).toNat default

/-- The cells `(xx, yy)` that `drawTriangle` depth-tests, in the order of its two loops;
none when the triangle is culled. -/
def sampledCells (S : Surface) (t : Triangle) : List (Int × Int) :=
  if culled t then []
  else (intRange (S.xStart t) (S.xEnd t)).flatMap
    (fun xx => (intRange (S.yStart t xx) (S.yEnd t xx)).map (fun yy => (xx, yy)))

/-- The pixel list after `drawTriangle`, as a function of the pixel list before; the
other fields of the surface are not touched. -/
def drawPixels (fsqrt : ℚ → ℚ) (S : Surface) (t : Triangle) (c : Char) (mat_idx : Int)
    (pixels : List Pixel) : List Pixel :=
  (S.sampledCells t).foldl (fun px cell => plot fsqrt S t c mat_idx cell.1 px cell.2) pixels

/-- The point `(x, y)` lies in the closed 2D triangle of `t` (its three edge functions
have no two opposite strict signs). -/
def insideTriangle (t : Triangle) (x y : ℚ) : Prop :=
  (0 ≤ (t.p2.x - t.p1.x) * (y - t.p1.y) - (t.p2.y - t.p1.y) * (x - t.p1.x) ∧
    0 ≤ (t.p3.x - t.p2.x) * (y - t.p2.y) - (t.p3.y - t.p2.y) * (x - t.p2.x) ∧
    0 ≤ (t.p1.x - t.p3.x) * (y - t.p3.y) - (t.p1.y - t.p3.y) * (x - t.p3.x)) ∨
  ((t.p2.x - t.p1.x) * (y - t.p1.y) - (t.p2.y - t.p1.y) * (x - t.p1.x) ≤ 0 ∧
    (t.p3.x - t.p2.x) * (y - t.p2.y) - (t.p3.y - t.p2.y) * (x - t.p2.x) ≤ 0 ∧
    (t.p1.x - t.p3.x) * (y - t.p3.y) - (t.p1.y - t.p3.y) * (x - t.p3.x) ≤ 0)

instance (t : Triangle) (x y : ℚ) : Decidable (insideTriangle t x y) := by
  unfold insideTriangle; infer_instance

/-- The column index of `x_start` before clamping. -/
def rawXStart (S : Surface) (t : Triangle) : Int :=
  ⌊((sortByX t.p1 t.p2 t.p3).1.x + S.dx / 2) / S.dx⌋

/-- The column index of `x_end` before clamping. -/
def rawXEnd (S : Surface) (t : Triangle) : Int :=
  ⌊((sortByX t.p1 t.p2 t.p3).2.2.x - S.dx / 2) / S.dx⌋

/-- The row index of `y_start` in column `xx` before clamping. -/
def rawYStart (S : Surface) (t : Triangle) (xx : Int) : Int :=
  ⌊(min (S.scanY1 t xx) (S.scanY2 t xx) + S.dy / 2) / S.dy⌋

/-- The row index of `y_end` in column `xx` before clamping. -/
def rawYEnd (S : Surface) (t : Triangle) (xx : Int) : Int :=
  ⌊(max (S.scanY1 t xx) (S.scanY2 t xx) - S.dy / 2) / S.dy⌋

end Surface

/-- A glyph (the character `#`). -/
def glyphA : Char := Char.ofNat 35

/-- Another glyph (the character `@`). -/
def glyphB : Char := Char.ofNat 64

/-- A `4 x 4` grid of unit cells, cleared. -/
def grid4 : Surface := (Surface.create 4 4 4 4).clear

/-- A triangle over the left part of `grid4` that passes the cull test, depth 1. -/
def triNear : Triangle := ⟨⟨0, 0, 1⟩, ⟨0, 4, 1⟩, ⟨3, 2, 1⟩⟩

/-- The triangle `triNear` moved to depth 2. -/
def triFar : Triangle := ⟨⟨0, 0, 2⟩, ⟨0, 4, 2⟩, ⟨3, 2, 2⟩⟩

/-- The triangle `triNear` with the opposite winding: it is culled. -/
def triBack : Triangle := ⟨⟨0, 0, 1⟩, ⟨3, 2, 1⟩, ⟨0, 4, 1⟩⟩

/-- A triangle that passes the cull test and lies wholly to the left of `grid4`. -/
def triOutside : Triangle := ⟨⟨-3, 0, 1⟩, ⟨-3, 4, 1⟩, ⟨-1, 2, 1⟩⟩

/-! ## `main.cpp`: the brightness glyph -/

/-- Embeds `std::round`: nearest integer, halves away from zero. -/
def roundHalfAway (q : ℚ) : Int := if 0 ≤ q then ⌊q + 1 / 2⌋ else ⌈q - 1 / 2⌉

/-- Embeds `std::clamp(v, lo, hi)` on `size_t`. -/
def clampNat (v lo hi : Nat) : Nat := if v < lo then lo else if hi < v then hi else v

/-- The index `idx` of `getLumChar` (line 26) for a ramp of `len` glyphs and the
similarity `sim`; the cast `(size_t)` of a negative value, undefined in C++, is read
as 0, and `chars.size() - 1` of an empty ramp as 0. -/
def lumIndex (len : Nat) (sim : ℚ) : Nat :=
  clampNat (roundHalfAway (((len - 1 : Nat) : ℚ) * sim)).toNat 0 (len - 1)

/-- The similarity `sim` of `getLumChar` (line 25). -/
def lumSim (norm light : Vec3) : ℚ := norm.dot light * (1 / 2) + 1 / 2

/-- Embeds `getLumChar`. -/
def getLumChar (norm light : Vec3) (chars : List Char) : Char :=
  chars.getD (lumIndex chars.length (lumSim norm light)) default

/-! ## Further notions used to state the properties -/

/-- The ranking value `dist` of the loop over `k` (`model.cpp` lines 45-47, 55) for the
point `p` and the candidate ear with `v1 = prev`, `v3 = next`. -/
def rankValue (v1 v3 p : Vec3) : ℚ :=
  |(v1.y - v3.y) * p.x + (v3.x - v1.x) * p.y
    + ((v1.x - v3.x) * v1.y + (v3.y - v1.y) * v1.x)|

/-- Squared distance of the 2D points `p` and `q`. -/
def distSq (p q : Vec3) : ℚ := (p.x - q.x) ^ 2 + (p.y - q.y) ^ 2

/-- The point `v1 + s * (v3 - v1)` of the 2D line through `v1` and `v3`. -/
def linePoint (v1 v3 : Vec3) (s : ℚ) : Vec3 :=
  ⟨v1.x + s * (v3.x - v1.x), v1.y + s * (v3.y - v1.y), 0⟩

/-- Squared perpendicular distance of `p` to the 2D line through `v1` and `v3` (`0`
when `v1` and `v3` coincide in 2D). -/
def perpDistSq (v1 v3 p : Vec3) : ℚ := (cross2 v1 v3 p) ^ 2 / distSq v3 v1

/-- The edge from `a` to `b` is crossed by the horizontal ray from `p` towards `+x`
(half-open rule in `y`). -/
def crossesRay (a b p : Vec3) : Bool :=
  (decide (a.y > p.y) != decide (b.y > p.y)) &&
    decide (p.x < a.x + (p.y - a.y) * (b.x - a.x) / (b.y - a.y))

/-- The point `p` lies in the closed region of the 2D polygon: on an edge, or with an
odd number of edges crossed by the ray from `p` (even-odd rule). -/
def pointInPolygon (poly : List Vec3) (p : Vec3) : Bool :=
  (List.range poly.length).any
    (fun i => onSegment (poly.getD i default) (poly.getD ((i + 1) % poly.length) default) p) ||
  decide (((List.range poly.length).filter
    (fun i => crossesRay (poly.getD i default) (poly.getD ((i + 1) % poly.length) default) p)
    ).length % 2 = 1)

/-- The point with weights `w1`, `w2`, `w3` on the 2D triangle `a`, `b`, `c`. -/
def combo (a b c : Vec3) (w1 w2 w3 : ℚ) : Vec3 :=
  ⟨w1 * a.x + w2 * b.x + w3 * c.x, w1 * a.y + w2 * b.y + w3 * c.y, 0⟩

/-- The pentagon of the dart example: the square `[0,2] x [0,2]` with the reflex vertex
`(1,1)` on its right side. -/
def dartVerts : List Vec3 := [⟨0, 0, 0⟩, ⟨2, 0, 0⟩, ⟨1, 1, 0⟩, ⟨2, 2, 0⟩, ⟨0, 2, 0⟩]

namespace Surface

/-- The `depth` expression of `drawTriangle` (line 65) as a function of the sample
point `(x, y)`. -/
def depthAt (fsqrt : ℚ → ℚ) (t : Triangle) (x y : ℚ) : ℚ :=
  (sortByX t.p1 t.p2 t.p3).1.z
    - ((planeNormal fsqrt t).x * (x - (sortByX t.p1 t.p2 t.p3).1.x)
        + (planeNormal fsqrt t).y * (y - (sortByX t.p1 t.p2 t.p3).1.y))
      / (planeNormal fsqrt t).z

/-- The point `(x, y)` lies strictly inside the 2D triangle of `t`: its three edge
functions are all positive or all negative. -/
def strictlyInside (t : Triangle) (x y : ℚ) : Prop :=
  (0 < (t.p2.x - t.p1.x) * (y - t.p1.y) - (t.p2.y - t.p1.y) * (x - t.p1.x) ∧
    0 < (t.p3.x - t.p2.x) * (y - t.p2.y) - (t.p3.y - t.p2.y) * (x - t.p2.x) ∧
    0 < (t.p1.x - t.p3.x) * (y - t.p3.y) - (t.p1.y - t.p3.y) * (x - t.p3.x)) ∨
  ((t.p2.x - t.p1.x) * (y - t.p1.y) - (t.p2.y - t.p1.y) * (x - t.p1.x) < 0 ∧
    (t.p3.x - t.p2.x) * (y - t.p2.y) - (t.p3.y - t.p2.y) * (x - t.p2.x) < 0 ∧
    (t.p1.x - t.p3.x) * (y - t.p3.y) - (t.p1.y - t.p3.y) * (x - t.p3.x) < 0)

instance (t : Triangle) (x y : ℚ) : Decidable (strictlyInside t x y) := by
  unfold strictlyInside; infer_instance

end Surface

/-- A sloped triangle that passes the cull test; its cross product `(-6, -3, -2)` has
the length 7. -/
def triSlope : Triangle := ⟨⟨0, 0, 0⟩, ⟨0, 2, -3⟩, ⟨1, 0, -3⟩⟩


/-- The default brightness ramp of `Config` (`.,':;!+*=#$@`), by code point. -/
def rampDefault : List Char :=
  [46, 44, 39, 58, 59, 33, 43, 42, 61, 35, 36, 64].map Char.ofNat

/-- A light direction of unit length. -/
def lightUnit : Vec3 := ⟨0, 3 / 5, 4 / 5⟩

/-! ## `vec3.hpp`: the two axis rotations, and their use in `run` -/

namespace Vec3

/-- Embeds `Vec3::rotateY`, parameterised by the cosine and the sine of the angle. -/
def rotateY (v : Vec3) (cos_a sin_a : ℚ) : Vec3 :=
  ⟨v.x * cos_a - v.z * sin_a, v.y, v.x * sin_a + v.z * cos_a⟩

/-- Embeds `Vec3::rotateX`, parameterised by the cosine and the sine of the angle. -/
def rotateX (v : Vec3) (cos_a sin_a : ℚ) : Vec3 :=
  ⟨v.x, v.y * cos_a - v.z * sin_a, v.y * sin_a + v.z * cos_a⟩

end Vec3

/-- Embeds the lambda `transform` of `run` (`main.cpp`, lines 109-113): the yaw
`rotateY(cos_az, sin_az)` followed by the pitch `rotateX(cos_al, sin_al)`. -/
def transform (cos_az sin_az cos_al sin_al : ℚ) (v : Vec3) : Vec3 :=
  (v.rotateY cos_az sin_az).rotateX cos_al sin_al

/-! ## Binary32 arithmetic -/

/-- Loop of `ilog2`, driven by fuel. -/
def ilog2Aux : Nat → Nat → Nat
  | 0, _ => 0
  | f + 1, n => if n < 2 then 0 else ilog2Aux f (n / 2) + 1

/-- The integer `⌊log2 n⌋` of a positive natural number. -/
def ilog2 (n : Nat) : Nat := ilog2Aux n n

/-- The exponent `⌊log2 |q|⌋` of a non-zero rational. -/
def expOf (q : ℚ) : Int :=
  if |q| < 2 ^ ((ilog2 q.num.natAbs : Int) - (ilog2 q.den : Int)) then
    (ilog2 q.num.natAbs : Int) - (ilog2 q.den : Int) - 1
  else (ilog2 q.num.natAbs : Int) - (ilog2 q.den : Int)

/-- Rounding to the nearest integer, ties to the even one. -/
def roundEven (q : ℚ) : Int :=
  if q - ⌊q⌋ < 1 / 2 then ⌊q⌋
  else if 1 / 2 < q - ⌊q⌋ then ⌊q⌋ + 1
  else if ⌊q⌋ % 2 = 0 then ⌊q⌋ else ⌊q⌋ + 1

/-- Rounding of a real value to the nearest binary32 value, ties to even, with gradual
underflow (the spacing below `2^-126` is `2^-149`); overflow to infinity is not
represented. -/
def round32 (q : ℚ) : ℚ :=
  if q = 0 then 0
  else (roundEven (q / 2 ^ (max (expOf q) (-126) - 23)) : ℚ) * 2 ^ (max (expOf q) (-126) - 23)

/-- Loop of `isqrt`: the bits of the root, from the highest down. -/
def isqrtBits (n : Nat) : Nat → Nat → Nat
  | 0, r => r
  | b + 1, r => isqrtBits n b (if (r + 2 ^ b) ^ 2 ≤ n then r + 2 ^ b else r)

/-- The integer square root `⌊√n⌋`. -/
def isqrt (n : Nat) : Nat := isqrtBits n (ilog2 n / 2 + 1) 0

/-- The correctly rounded binary32 square root: the root is bracketed to `2^-100`, far
below the spacing of the results, before it is rounded. -/
def sqrt32 (q : ℚ) : ℚ :=
  if q ≤ 0 then 0
  else
    let t : ℚ := (isqrt ⌊q * 4 ^ 100⌋₊ : ℚ) / 2 ^ 100
    round32 (if t * t = q then t else t + 1 / 2 ^ 101)

/-- The conversion `(int)` of an integral `float`: the value when it fits in 32 bits,
and `INT_MIN` (the result of the x86 conversion instruction) when it does not. -/
def toInt32 (v : Int) : Int := if -2 ^ 31 ≤ v ∧ v < 2 ^ 31 then v else -2 ^ 31

/-! ## The same functions with every `float` operation rounded

In the namespace `Fl` each arithmetic operation of the source expression is followed by
the rounding `rnd`, in the order in which the C++ expression is evaluated, and `(int)`
is `toInt32`. With `rnd = id` (and floors that fit in `int`) these are the exact
definitions above; with
`rnd = round32` and `fsqrt = sqrt32` they are the binary32 evaluation. -/

namespace Fl

/-- Embeds `Vec3::operator-`, rounded. -/
def sub (rnd : ℚ → ℚ) (v o : Vec3) : Vec3 :=
  ⟨rnd (v.x - o.x), rnd (v.y - o.y), rnd (v.z - o.z)⟩

/-- Embeds `Vec3::cross`, rounded. -/
def cross (rnd : ℚ → ℚ) (v o : Vec3) : Vec3 :=
  ⟨rnd (rnd (v.y * o.z) - rnd (v.z * o.y)),
   rnd (rnd (v.z * o.x) - rnd (v.x * o.z)),
   rnd (rnd (v.x * o.y) - rnd (v.y * o.x))⟩

/-- Embeds `Vec3::mag`, rounded: `std::sqrt(x*x + y*y + z*z)`. -/
def mag (rnd fsqrt : ℚ → ℚ) (v : Vec3) : ℚ :=
  fsqrt (rnd (rnd (rnd (v.x * v.x) + rnd (v.y * v.y)) + rnd (v.z * v.z)))

/-- Embeds `Vec3::normalize`, rounded. -/
def normalize (rnd fsqrt : ℚ → ℚ) (v : Vec3) : Vec3 :=
  let m := mag rnd fsqrt v
  if m = 0 then {} else ⟨rnd (v.x / m), rnd (v.y / m), rnd (v.z / m)⟩

/-- The cull test of `drawTriangle` (lines 29-30), rounded. -/
def culled (rnd : ℚ → ℚ) (t : Triangle) : Bool :=
  decide (rnd (rnd (t.p2.x - t.p1.x) * rnd (t.p3.y - t.p2.y))
    ≥ rnd (rnd (t.p3.x - t.p2.x) * rnd (t.p2.y - t.p1.y)))

/-- The plane normal of `drawTriangle` (lines 36-37), rounded, with the substitution of
`0.0001f`. -/
def planeNormal (rnd fsqrt : ℚ → ℚ) (t : Triangle) : Vec3 :=
  let normal := normalize rnd fsqrt (cross rnd (sub rnd t.p2 t.p1) (sub rnd t.p3 t.p1))
  if normal.z = 0 then { normal with z := rnd (1 / 10000) } else normal

/-- The lambda `getY` of `drawTriangle`, rounded. -/
def getY (rnd : ℚ → ℚ) (pA pB : Vec3) (x : ℚ) : ℚ :=
  if pA.x = pB.x then pA.y
  else rnd (pA.y + rnd (rnd (rnd (pB.y - pA.y) * rnd (x - pA.x)) / rnd (pB.x - pA.x)))

/-- Embeds `Surface::idxX`: rounded quotient, `std::floor`, `(int)`, `std::clamp`. -/
def idxX (rnd : ℚ → ℚ) (S : Surface) (x : ℚ) : Int :=
  clamp (toInt32 ⌊rnd (x / S.dx)⌋) 0 (S.width - 1)

/-- Embeds `Surface::idxY`: rounded quotient, `std::floor`, `(int)`, `std::clamp`. -/
def idxY (rnd : ℚ → ℚ) (S : Surface) (y : ℚ) : Int :=
  clamp (toInt32 ⌊rnd (y / S.dy)⌋) 0 (S.height - 1)

/-- The sample abscissa `x = (xx + 0.5f) * dx` of column `xx`, rounded. -/
def sampleX (rnd : ℚ → ℚ) (S : Surface) (xx : Int) : ℚ :=
  rnd (rnd (rnd (xx : ℚ) + 1 / 2) * S.dx)

/-- The sample ordinate `y = (yy + 0.5f) * dy` of row `yy`, rounded. -/
def sampleY (rnd : ℚ → ℚ) (S : Surface) (yy : Int) : ℚ :=
  rnd (rnd (rnd (yy : ℚ) + 1 / 2) * S.dy)

/-- The first column `x_start` (lines 39, 42), rounded. -/
def xStart (rnd : ℚ → ℚ) (S : Surface) (t : Triangle) : Int :=
  idxX rnd S (rnd ((sortByX t.p1 t.p2 t.p3).1.x + rnd (S.dx / 2)))

/-- The last column `x_end` (lines 40, 43), rounded. -/
def xEnd (rnd : ℚ → ℚ) (S : Surface) (t : Triangle) : Int :=
  idxX rnd S (rnd ((sortByX t.p1 t.p2 t.p3).2.2.x - rnd (S.dx / 2)))

/-- The scanline intersection `y1` of column `xx` (line 54), rounded. -/
def scanY1 (rnd : ℚ → ℚ) (S : Surface) (t : Triangle) (xx : Int) : ℚ :=
  let pts := sortByX t.p1 t.p2 t.p3
  if sampleX rnd S xx ≤ pts.2.1.x then getY rnd pts.1 pts.2.1 (sampleX rnd S xx)
  else getY rnd pts.2.1 pts.2.2 (sampleX rnd S xx)

/-- The scanline intersection `y2` of column `xx` (line 55), rounded. -/
def scanY2 (rnd : ℚ → ℚ) (S : Surface) (t : Triangle) (xx : Int) : ℚ :=
  let pts := sortByX t.p1 t.p2 t.p3
  getY rnd pts.1 pts.2.2 (sampleX rnd S xx)

/-- The first row `y_start` of column `xx` (lines 57, 60), rounded. -/
def yStart (rnd : ℚ → ℚ) (S : Surface) (t : Triangle) (xx : Int) : Int :=
  idxY rnd S (rnd (min (scanY1 rnd S t xx) (scanY2 rnd S t xx) + rnd (S.dy / 2)))

/-- The last row `y_end` of column `xx` (lines 58, 61), rounded. -/
def yEnd (rnd : ℚ → ℚ) (S : Surface) (t : Triangle) (xx : Int) : Int :=
  idxY rnd S (rnd (max (scanY1 rnd S t xx) (scanY2 rnd S t xx) - rnd (S.dy / 2)))

/-- The depth expression of line 65 at the point `(x, y)`, rounded. -/
def depthAt (rnd fsqrt : ℚ → ℚ) (t : Triangle) (x y : ℚ) : ℚ :=
  let pts := sortByX t.p1 t.p2 t.p3
  let normal := planeNormal rnd fsqrt t
  rnd (pts.1.z - rnd (rnd (rnd (normal.x * rnd (x - pts.1.x))
    + rnd (normal.y * rnd (y - pts.1.y))) / normal.z))

/-- The `depth` of the sample of cell `(xx, yy)` (line 65), rounded. -/
def planeDepth (rnd fsqrt : ℚ → ℚ) (S : Surface) (t : Triangle) (xx yy : Int) : ℚ :=
  depthAt rnd fsqrt t (sampleX rnd S xx) (sampleY rnd S yy)

/-- The body of the inner loop (lines 64-72) for cell `(xx, yy)`, rounded. -/
def plot (rnd fsqrt : ℚ → ℚ) (S : Surface) (t : Triangle) (c : Char) (mat_idx : Int)
    (xx : Int) (pixels : List Pixel) (yy : Int) : List Pixel :=
  if 0 ≤ yy * S.width + xx then
    pixels.set (yy * S.width + xx).toNat
      (Surface.testPixel (pixels.getD (yy * S.width + xx).toNat default)
        (planeDepth rnd fsqrt S t xx yy) c mat_idx)
  else pixels

/-- The body of the outer loop (lines 51-73) for column `xx`, rounded. -/
def plotColumn (rnd fsqrt : ℚ → ℚ) (S : Surface) (t : Triangle) (c : Char) (mat_idx : Int)
    (pixels : List Pixel) (xx : Int) : List Pixel :=
  (intRange (yStart rnd S t xx) (yEnd rnd S t xx)).foldl (plot rnd fsqrt S t c mat_idx xx)
    pixels

/-- Embeds `Surface::drawTriangle`, rounded. -/
def drawTriangle (rnd fsqrt : ℚ → ℚ) (S : Surface) (t : Triangle) (c : Char)
    (mat_idx : Int) : Surface :=
  if culled rnd t then S
  else
    { S with
      pixels := (intRange (xStart rnd S t) (xEnd rnd S t)).foldl
        (plotColumn rnd fsqrt S t c mat_idx) S.pixels }

end Fl

/-! ## Inputs of the binary32 examples -/

/-- A non-zero vector whose squared length underflows in binary32. -/
def vecTiny : Vec3 := ⟨1 / 2 ^ 80, 0, 0⟩

/-- The vector `(1, -1, 0)`, of irrational length. -/
def vecDiag : Vec3 := ⟨1, -1, 0⟩

/-- A triangle of ordinary size seen almost edge-on: it passes the cull test, its exact
cross product has `z = -2 / 4096`, and in binary32 the two products of the `z` component
round to the same value. -/
def triEdgeOn : Triangle :=
  ⟨⟨0, 0, 0⟩, ⟨4099 / 64, 4097 / 64, 1⟩, ⟨8197 / 64, 8193 / 64, 2⟩⟩

/-- A triangle of side `2^-40` in the plane `z = y`: it passes the cull test and the
squared length of its cross product underflows in binary32. -/
def triTiny : Triangle := ⟨⟨0, 0, 0⟩, ⟨0, 1 / 2 ^ 40, 1 / 2 ^ 40⟩, ⟨1 / 2 ^ 40, 0, 0⟩⟩

/-- A triangle that passes the cull test, with one corner at `x = 3e9`, beyond the range
of `int`; all sixteen cell centres of `grid4` are strictly inside it. -/
def triHuge : Triangle := ⟨⟨0, 0, 1⟩, ⟨0, 4, 1⟩, ⟨3000000000, 2, 1⟩⟩

/-! ## Further polygons of the examples -/

/-- A simple counter-clockwise hexagon (signed area 20): the corner `(8,0) (4,8) (0,0)`
at positions 2, 3, 4 is the first candidate ear, and the three other vertices lie inside
it, at the distances 1, 3 and 2 from the line through `(8,0)` and `(0,0)`. -/
def crownVerts : List Vec3 :=
  [⟨4, 1, 0⟩, ⟨6, 3, 0⟩, ⟨8, 0, 0⟩, ⟨4, 8, 0⟩, ⟨0, 0, 0⟩, ⟨2, 2, 0⟩]

/-- A self-crossing quadrilateral of signed area 0 that is not colinear. -/
def bowtieVerts : List Vec3 := [⟨0, 0, 0⟩, ⟨2, 0, 0⟩, ⟨0, 1, 0⟩, ⟨2, 1, 0⟩]

namespace Fl

/-- The cells `(xx, yy)` that the rounded `drawTriangle` depth-tests, in the order of its
two loops; none when the triangle is culled. -/
def sampledCells (rnd : ℚ → ℚ) (S : Surface) (t : Triangle) : List (Int × Int) :=
  if culled rnd t then []
  else
    (intRange (xStart rnd S t) (xEnd rnd S t)).flatMap
      (fun xx => (intRange (yStart rnd S t xx) (yEnd rnd S t xx)).map (fun yy => (xx, yy)))

/-- The depth tests of the sampled cells, in loop order, on a pixel list. -/
def drawPixels (rnd fsqrt : ℚ → ℚ) (S : Surface) (t : Triangle) (c : Char) (mat_idx : Int)
    (pixels : List Pixel) : List Pixel :=
  (sampledCells rnd S t).foldl (fun px cell => plot rnd fsqrt S t c mat_idx cell.1 px cell.2)
    pixels

end Fl

/-- The triangle `triNear` with its vertical edge moved from `x = 0` to
`x = 1/2 - 2^-25`, the binary32 value next below `1/2`: it passes the cull test and the
centres `(1/2, yy + 1/2)` of the four cells of column 0 of `grid4` are strictly inside
it, at `2^-25` from the edge. -/
def triSliver : Triangle :=
  ⟨⟨16777215 / 2 ^ 25, 0, 1⟩, ⟨16777215 / 2 ^ 25, 4, 1⟩, ⟨3, 2, 1⟩⟩
/-! ## The triangulator: structure of the recursion -/

theorem splitFrom_comm {α : Type} (i2 k : Nat) (xs : List α) :
    ∀ (r : Nat) (side : Bool), splitFrom i2 k r side xs = splitFrom k i2 r side xs := by
  induction xs with
  | nil => intro r side; rfl
  | cons x xs ih =>
    intro r side
    simp only [splitFrom, ih, or_comm]

theorem splitFrom_after {α : Type} (p q : Nat) (xs : List α) :
    ∀ r : Nat, p < r → q < r → splitFrom p q r false xs = ([], xs) := by
  induction xs with
  | nil => intro r _ _; rfl
  | cons x xs ih =>
    intro r hp hq
    have h1 : ¬ (r = p ∨ r = q) := by omega
    simp [splitFrom, h1, ih (r + 1) (by omega) (by omega)]

theorem splitFrom_mid {α : Type} (p q : Nat) (xs : List α) :
    ∀ r : Nat, p < r → r ≤ q → q - r < xs.length →
      splitFrom p q r true xs = (xs.take (q - r + 1), xs.drop (q - r)) := by
  induction xs with
  | nil => intro r _ _ h; simp at h
  | cons x xs ih =>
    intro r hp hq hlen
    by_cases hrq : r = q
    · subst hrq
      simp [splitFrom, splitFrom_after p r xs (r + 1) (by omega) (by omega)]
    · have h1 : ¬ (r = p ∨ r = q) := by omega
      have hlen2 : q - (r + 1) < xs.length := by simp at hlen; omega
      have e1 : q - r = (q - (r + 1)) + 1 := by omega
      simp [splitFrom, h1, ih (r + 1) (by omega) (by omega) hlen2]
      rw [e1]; simp

theorem splitFrom_pre {α : Type} (p q : Nat) (hpq : p < q) (xs : List α) :
    ∀ r : Nat, r ≤ p → q - r < xs.length →
      splitFrom p q r false xs
        = ((xs.drop (p - r)).take (q - p + 1), xs.take (p - r + 1) ++ xs.drop (q - r)) := by
  induction xs with
  | nil => intro r _ h; simp at h
  | cons x xs ih =>
    intro r hp hlen
    have hlen2 : q - (r + 1) < xs.length := by simp at hlen; omega
    by_cases hrp : r = p
    · subst hrp
      have e1 : q - r = (q - (r + 1)) + 1 := by omega
      simp [splitFrom, splitFrom_mid r q xs (r + 1) (by omega) (by omega) hlen2]
      rw [e1]; simp
    · have h1 : ¬ (r = p ∨ r = q) := by omega
      have e1 : q - r = (q - (r + 1)) + 1 := by omega
      have e2 : p - r = (p - (r + 1)) + 1 := by omega
      simp [splitFrom, h1, ih (r + 1) (by omega) hlen2]
      rw [e1, e2]; simp

theorem splitPoly_eq {α : Type} (p q : Nat) (hpq : p < q) (xs : List α) (hq : q < xs.length) :
    splitPoly p q xs = ((xs.drop p).take (q - p + 1), xs.take (p + 1) ++ xs.drop q) := by
  have := splitFrom_pre p q hpq xs 0 (by omega) (by omega)
  simpa [splitPoly] using this


theorem succ_mod_cases (s n : Nat) (hn : 0 < n) :
    (s + 1) % n = if s % n + 1 = n then 0 else s % n + 1 := by
  have hm : s % n < n := Nat.mod_lt _ hn
  rw [Nat.add_mod]
  by_cases h : s % n + 1 = n
  · rw [if_pos h]
    by_cases h1 : n = 1
    · subst h1; omega
    · have : 1 % n = 1 := Nat.mod_eq_of_lt (by omega)
      rw [this, h]; simp
  · rw [if_neg h]
    by_cases h1 : n = 1
    · subst h1; omega
    · have : 1 % n = 1 := Nat.mod_eq_of_lt (by omega)
      rw [this]; exact Nat.mod_eq_of_lt (by omega)

theorem pred_mod_cases (s n : Nat) (hn : 0 < n) :
    (s + n - 1) % n = if s % n = 0 then n - 1 else s % n - 1 := by
  have hm : s % n < n := Nat.mod_lt _ hn
  have hs : s = s % n + n * (s / n) := (Nat.mod_add_div s n).symm
  by_cases h : s % n = 0
  · rw [if_pos h]
    have e : s + n - 1 = (n - 1) + n * (s / n) := by omega
    rw [e, Nat.add_mul_mod_self_left]; exact Nat.mod_eq_of_lt (by omega)
  · rw [if_neg h]
    have e : s + n - 1 = (s % n - 1) + n * (s / n + 1) := by
      rw [Nat.mul_add]; omega
    rw [e, Nat.add_mul_mod_self_left]; exact Nat.mod_eq_of_lt (by omega)

/-- The corner of any iteration: three positions of the polygon, `i2` following `i1` and
`i3` following `i2` cyclically. -/
theorem earCorner_spec (n t : Nat) (hn : 3 ≤ n) :
    (earCorner n t).2.1 < n ∧
    (earCorner n t).1 = (if (earCorner n t).2.1 = 0 then n - 1 else (earCorner n t).2.1 - 1) ∧
    (earCorner n t).2.2 = (if (earCorner n t).2.1 + 1 = n then 0 else (earCorner n t).2.1 + 1) := by
  refine ⟨Nat.mod_lt _ (by omega), ?_, ?_⟩
  · simpa [earCorner] using pred_mod_cases (n / 2 + t) n (by omega)
  · simpa [earCorner] using succ_mod_cases (n / 2 + t) n (by omega)

theorem findEar_spec (vecs : List Vec3) (orient : Bool) (hn : 3 ≤ vecs.length) :
    (findEar vecs orient).2.1 < vecs.length ∧
    (findEar vecs orient).1 = (if (findEar vecs orient).2.1 = 0 then vecs.length - 1
      else (findEar vecs orient).2.1 - 1) ∧
    (findEar vecs orient).2.2 = (if (findEar vecs orient).2.1 + 1 = vecs.length then 0
      else (findEar vecs orient).2.1 + 1) :=
  earCorner_spec _ _ hn

theorem insideStep_fst (vecs : List Vec3) (i1 i2 i3 : Nat) (st : Option Nat × ℚ) (k : Nat) :
    (insideStep vecs i1 i2 i3 st k).1 = st.1 ∨
      ((insideStep vecs i1 i2 i3 st k).1 = some k ∧ k ≠ i1 ∧ k ≠ i2 ∧ k ≠ i3 ∧
        pointInTriangle (vecs.getD k default) (vecs.getD i1 default) (vecs.getD i2 default)
          (vecs.getD i3 default) = true) := by
  unfold insideStep
  simp only []
  split_ifs with h1 h2 h3
  · left; rfl
  · right
    refine ⟨rfl, ?_, ?_, ?_, h2⟩ <;> intro h <;> simp [h] at h1
  · left; rfl
  · left; rfl

theorem foldl_insideStep_spec (vecs : List Vec3) (i1 i2 i3 : Nat) (l : List Nat) :
    ∀ st : Option Nat × ℚ, ∀ k, (l.foldl (insideStep vecs i1 i2 i3) st).1 = some k →
      st.1 = some k ∨ (k ∈ l ∧ k ≠ i1 ∧ k ≠ i2 ∧ k ≠ i3 ∧
        pointInTriangle (vecs.getD k default) (vecs.getD i1 default) (vecs.getD i2 default)
          (vecs.getD i3 default) = true) := by
  induction l with
  | nil => intro st k h; left; simpa using h
  | cons a l ih =>
    intro st k h
    rw [List.foldl_cons] at h
    rcases ih _ k h with h1 | ⟨hm, h2⟩
    · rcases insideStep_fst vecs i1 i2 i3 st a with h3 | ⟨h3, h4⟩
      · left; rw [← h3]; exact h1
      · right
        have : a = k := by rw [h3] at h1; exact Option.some.inj h1
        subst this
        exact ⟨List.mem_cons_self _ _, h4⟩
    · right; exact ⟨List.mem_cons_of_mem _ hm, h2⟩

/-- The vertex chosen for a split is a position of the polygon other than the three of
the candidate ear, and it passed `pointInTriangle`. -/
theorem farthestInside_spec (vecs : List Vec3) (i1 i2 i3 k : Nat)
    (h : farthestInside vecs i1 i2 i3 = some k) :
    k < vecs.length ∧ k ≠ i1 ∧ k ≠ i2 ∧ k ≠ i3 ∧
      pointInTriangle (vecs.getD k default) (vecs.getD i1 default) (vecs.getD i2 default)
        (vecs.getD i3 default) = true := by
  rcases foldl_insideStep_spec vecs i1 i2 i3 _ _ k h with h1 | ⟨hm, h2⟩
  · simp at h1
  · exact ⟨List.mem_range.mp hm, h2⟩

/-- Sizes of the two halves of a split at two positions at cyclic distance at least 2. -/
theorem splitPoly_length {α : Type} (i2 k : Nat) (xs : List α)
    (hi : i2 < xs.length) (hk : k < xs.length)
    (h1 : i2 + 2 ≤ k ∨ k + 2 ≤ i2) (h2 : k + 2 ≤ xs.length + i2) (h3 : i2 + 2 ≤ xs.length + k) :
    3 ≤ (splitPoly i2 k xs).1.length ∧ (splitPoly i2 k xs).1.length + 1 ≤ xs.length ∧
    3 ≤ (splitPoly i2 k xs).2.length ∧ (splitPoly i2 k xs).2.length + 1 ≤ xs.length ∧
    (splitPoly i2 k xs).1.length + (splitPoly i2 k xs).2.length = xs.length + 2 := by
  rcases h1 with h | h
  · rw [splitPoly_eq i2 k (by omega) xs hk]
    simp only [List.length_take, List.length_drop, List.length_append]
    omega
  · have e : splitPoly i2 k xs = splitPoly k i2 xs := splitFrom_comm i2 k xs 0 false
    rw [e, splitPoly_eq k i2 (by omega) xs hi]
    simp only [List.length_take, List.length_drop, List.length_append]
    omega

/-- The split actually taken by `triangularizeRecurse` satisfies the size bounds. -/
theorem split_sizes {α : Type} (vecs : List Vec3) (orient : Bool) (xs : List α) (k : Nat)
    (hn : 3 ≤ vecs.length) (hx : xs.length = vecs.length)
    (hk : farthestInside vecs (findEar vecs orient).1 (findEar vecs orient).2.1
      (findEar vecs orient).2.2 = some k) :
    3 ≤ (splitPoly (findEar vecs orient).2.1 k xs).1.length ∧
    (splitPoly (findEar vecs orient).2.1 k xs).1.length + 1 ≤ xs.length ∧
    3 ≤ (splitPoly (findEar vecs orient).2.1 k xs).2.length ∧
    (splitPoly (findEar vecs orient).2.1 k xs).2.length + 1 ≤ xs.length ∧
    (splitPoly (findEar vecs orient).2.1 k xs).1.length
      + (splitPoly (findEar vecs orient).2.1 k xs).2.length = xs.length + 2 := by
  obtain ⟨hi2, hi1, hi3⟩ := findEar_spec vecs orient hn
  obtain ⟨hkl, hk1, hk2, hk3, _⟩ := farthestInside_spec vecs _ _ _ k hk
  rw [hi1] at hk1
  rw [hi3] at hk3
  apply splitPoly_length
  · omega
  · omega
  · split_ifs at hk1 hk3 <;> omega
  · split_ifs at hk1 hk3 <;> omega
  · split_ifs at hk1 hk3 <;> omega

/-- With fuel at least `n - 3` the triangulator returns, and it emits `3 * (n - 2)`
indices. -/
theorem triangularizeRecurse_length (fuel : Nat) :
    ∀ (vecs : List Vec3) (idxs : List Int) (orient : Bool), vecs.length ≤ fuel + 3 →
      ∃ out, triangularizeRecurse fuel vecs idxs orient = some out ∧
        out.length = 3 * (vecs.length - 2) := by
  induction fuel with
  | zero =>
    intro vecs idxs orient h
    unfold triangularizeRecurse
    by_cases h1 : vecs.length < 3
    · exact ⟨[], by simp [h1], by simp; omega⟩
    · have h2 : vecs.length = 3 := by omega
      exact ⟨[idxs.getD 0 0, idxs.getD 1 0, idxs.getD 2 0], by simp [h2], by simp [h2]⟩
  | succ fuel ih =>
    intro vecs idxs orient h
    unfold triangularizeRecurse
    by_cases h1 : vecs.length < 3
    · exact ⟨[], by simp [h1], by simp; omega⟩
    · by_cases h2 : vecs.length = 3
      · exact ⟨[idxs.getD 0 0, idxs.getD 1 0, idxs.getD 2 0], by simp [h2], by simp [h2]⟩
      · simp only [h1, h2, if_false]
        obtain ⟨hi2, -, -⟩ := findEar_spec vecs orient (by omega)
        cases hk : farthestInside vecs (findEar vecs orient).1 (findEar vecs orient).2.1
            (findEar vecs orient).2.2 with
        | none =>
          have hl : (vecs.eraseIdx (findEar vecs orient).2.1).length = vecs.length - 1 :=
            List.length_eraseIdx_of_lt hi2
          obtain ⟨rest, hr, hrl⟩ := ih (vecs.eraseIdx (findEar vecs orient).2.1)
            (idxs.eraseIdx (findEar vecs orient).2.1) orient (by omega)
          refine ⟨_, by simp only [hr, Option.map_some']; rfl, ?_⟩
          simp [hrl, hl]; omega
        | some k =>
          obtain ⟨a1, a2, b1, b2, hab⟩ := split_sizes vecs orient vecs k (by omega) rfl hk
          obtain ⟨outA, hA, hAl⟩ := ih (splitPoly (findEar vecs orient).2.1 k vecs).1
            (splitPoly (findEar vecs orient).2.1 k idxs).1 orient (by omega)
          obtain ⟨outB, hB, hBl⟩ := ih (splitPoly (findEar vecs orient).2.1 k vecs).2
            (splitPoly (findEar vecs orient).2.1 k idxs).2 orient (by omega)
          refine ⟨outA ++ outB, by simp only [hA, hB], ?_⟩
          simp [hAl, hBl]; omega


theorem CyclicTriple.mono {α : Type} {l l2 : List α} {a b c : α}
    (h : CyclicTriple l a b c) (hs : List.Sublist l l2) : CyclicTriple l2 a b c := by
  rcases h with h | h | h
  · exact Or.inl (h.trans hs)
  · exact Or.inr (Or.inl (h.trans hs))
  · exact Or.inr (Or.inr (h.trans hs))

theorem triple_sublist {α : Type} (l : List α) (d : α) (i j k : Nat)
    (hij : i < j) (hjk : j < k) (hk : k < l.length) :
    List.Sublist [l.getD i d, l.getD j d, l.getD k d] l := by
  have h := @List.map_getElem_sublist α l
    [⟨i, by omega⟩, ⟨j, by omega⟩, ⟨k, hk⟩] (by simp [hij, hjk, hij.trans hjk])
  rw [List.getD_eq_getElem l d (by omega : i < l.length),
    List.getD_eq_getElem l d (by omega : j < l.length), List.getD_eq_getElem l d hk]
  simpa using h

theorem corner_cyclic {α : Type} (l : List α) (d : α) (i1 i2 i3 : Nat) (hn : 3 ≤ l.length)
    (h2 : i2 < l.length) (h1 : i1 = if i2 = 0 then l.length - 1 else i2 - 1)
    (h3 : i3 = if i2 + 1 = l.length then 0 else i2 + 1) :
    CyclicTriple l (l.getD i1 d) (l.getD i2 d) (l.getD i3 d) := by
  unfold CyclicTriple
  by_cases a : i2 = 0
  · right; left
    rw [if_pos a] at h1
    rw [if_neg (by omega)] at h3
    subst h1 h3
    exact triple_sublist l d _ _ _ (by omega) (by omega) (by omega)
  · rw [if_neg a] at h1
    by_cases b : i2 + 1 = l.length
    · right; right
      rw [if_pos b] at h3
      subst h1 h3
      exact triple_sublist l d _ _ _ (by omega) (by omega) (by omega)
    · left
      rw [if_neg b] at h3
      subst h1 h3
      exact triple_sublist l d _ _ _ (by omega) (by omega) (by omega)

theorem triples_append (m : Nat) : ∀ (xs ys : List Int), xs.length = 3 * m →
    triples (xs ++ ys) = triples xs ++ triples ys := by
  induction m with
  | zero =>
    intro xs ys h
    have : xs = [] := List.length_eq_zero.mp (by omega)
    subst this; simp [triples]
  | succ m ih =>
    intro xs ys h
    match xs, h with
    | a :: b :: c :: rest, h =>
      have hr : rest.length = 3 * m := by simp at h; omega
      simp [triples, ih rest ys hr]

theorem splitFrom_sublist {α : Type} (i2 k : Nat) (xs : List α) :
    ∀ (r : Nat) (side : Bool),
      List.Sublist (splitFrom i2 k r side xs).1 xs ∧
        List.Sublist (splitFrom i2 k r side xs).2 xs := by
  induction xs with
  | nil => intro r side; simp [splitFrom]
  | cons x xs ih =>
    intro r side
    unfold splitFrom
    split_ifs
    · exact ⟨(ih _ _).1.cons₂ x, (ih _ _).2.cons₂ x⟩
    · exact ⟨(ih _ _).1.cons₂ x, (ih _ _).2.cons x⟩
    · exact ⟨(ih _ _).1.cons x, (ih _ _).2.cons₂ x⟩

theorem splitFrom_map {α β : Type} (f : α → β) (i2 k : Nat) (xs : List α) :
    ∀ (r : Nat) (side : Bool),
      splitFrom i2 k r side (xs.map f)
        = ((splitFrom i2 k r side xs).1.map f, (splitFrom i2 k r side xs).2.map f) := by
  induction xs with
  | nil => intro r side; simp [splitFrom]
  | cons x xs ih =>
    intro r side
    simp only [List.map_cons, splitFrom, ih]
    split_ifs <;> simp

theorem splitFrom_length_congr {α β : Type} (i2 k : Nat) (xs : List α) :
    ∀ (ys : List β) (r : Nat) (side : Bool), xs.length = ys.length →
      (splitFrom i2 k r side xs).1.length = (splitFrom i2 k r side ys).1.length ∧
      (splitFrom i2 k r side xs).2.length = (splitFrom i2 k r side ys).2.length := by
  induction xs with
  | nil =>
    intro ys r side h
    have : ys = [] := List.length_eq_zero.mp (by simpa using h.symm)
    subst this; simp [splitFrom]
  | cons x xs ih =>
    intro ys r side h
    match ys, h with
    | y :: ys, h =>
      have h2 : xs.length = ys.length := by simpa using h
      simp only [splitFrom]
      split_ifs <;> simp [(ih ys _ _ h2).1, (ih ys _ _ h2).2]

/-- Every emitted triangle is, up to rotation, an order-preserving selection of three
entries of `idxs`. -/
theorem emitted_cyclic (fuel : Nat) :
    ∀ (vecs : List Vec3) (idxs : List Int) (orient : Bool), vecs.length ≤ fuel + 3 →
      idxs.length = vecs.length → ∀ out, triangularizeRecurse fuel vecs idxs orient = some out →
        ∀ t ∈ triples out, CyclicTriple idxs t.1 t.2.1 t.2.2 := by
  induction fuel with
  | zero =>
    intro vecs idxs orient h hl out ho t ht
    unfold triangularizeRecurse at ho
    by_cases h1 : vecs.length < 3
    · simp [h1] at ho; subst ho; simp [triples] at ht
    · have h2 : vecs.length = 3 := by omega
      simp [h2] at ho; subst ho
      simp [triples] at ht; subst ht
      refine Or.inl ?_
      have := triple_sublist idxs 0 0 1 2 (by omega) (by omega) (by omega)
      simpa using this
  | succ fuel ih =>
    intro vecs idxs orient h hl out ho t ht
    unfold triangularizeRecurse at ho
    by_cases h1 : vecs.length < 3
    · simp [h1] at ho; subst ho; simp [triples] at ht
    · by_cases h2 : vecs.length = 3
      · simp [h2] at ho; subst ho
        simp [triples] at ht; subst ht
        refine Or.inl ?_
        have := triple_sublist idxs 0 0 1 2 (by omega) (by omega) (by omega)
        simpa using this
      · simp only [h1, h2, if_false] at ho
        obtain ⟨hi2, hi1, hi3⟩ := findEar_spec vecs orient (by omega)
        cases hk : farthestInside vecs (findEar vecs orient).1 (findEar vecs orient).2.1
            (findEar vecs orient).2.2 with
        | none =>
          simp only [hk, Option.map_eq_some'] at ho
          obtain ⟨rest, hr, hout⟩ := ho
          subst hout
          have hlv : (vecs.eraseIdx (findEar vecs orient).2.1).length = vecs.length - 1 :=
            List.length_eraseIdx_of_lt hi2
          have hli : (idxs.eraseIdx (findEar vecs orient).2.1).length = vecs.length - 1 := by
            rw [List.length_eraseIdx_of_lt (by omega), hl]
          simp only [List.cons_append, List.nil_append, triples, List.mem_cons] at ht
          rcases ht with ht | ht
          · subst ht
            exact corner_cyclic idxs 0 _ _ _ (by omega) (by omega) (by rw [hl]; exact hi1)
              (by rw [hl]; exact hi3)
          · exact (ih _ _ orient (by omega) (by omega) rest hr t ht).mono
              (List.eraseIdx_sublist _ _)
        | some k =>
          simp only [hk] at ho
          obtain ⟨a1, a2, b1, b2, -⟩ := split_sizes vecs orient vecs k (by omega) rfl hk
          have c1 : (splitPoly (findEar vecs orient).2.1 k idxs).1.length
              = (splitPoly (findEar vecs orient).2.1 k vecs).1.length :=
            (splitFrom_length_congr (findEar vecs orient).2.1 k idxs vecs 0 false hl).1
          have c2 : (splitPoly (findEar vecs orient).2.1 k idxs).2.length
              = (splitPoly (findEar vecs orient).2.1 k vecs).2.length :=
            (splitFrom_length_congr (findEar vecs orient).2.1 k idxs vecs 0 false hl).2
          obtain ⟨outA, hA, hAl⟩ := triangularizeRecurse_length fuel
            (splitPoly (findEar vecs orient).2.1 k vecs).1
            (splitPoly (findEar vecs orient).2.1 k idxs).1 orient (by omega)
          obtain ⟨outB, hB, -⟩ := triangularizeRecurse_length fuel
            (splitPoly (findEar vecs orient).2.1 k vecs).2
            (splitPoly (findEar vecs orient).2.1 k idxs).2 orient (by omega)
          simp only [hA, hB, Option.some.injEq] at ho
          subst ho
          rw [triples_append _ _ _ hAl, List.mem_append] at ht
          rcases ht with ht | ht
          · exact (ih _ _ orient (by omega) c1 outA hA t ht).mono
              (splitFrom_sublist _ _ _ _ _).1
          · exact (ih _ _ orient (by omega) c2 outB hB t ht).mono
              (splitFrom_sublist _ _ _ _ _).2


theorem mem_splitFrom_mid (p q : Nat) (len : Nat) :
    ∀ r : Nat, p < r → r ≤ q → ∀ x : Nat,
      (x ∈ (splitFrom p q r true (List.range' r len)).1 ↔ r ≤ x ∧ x ≤ q ∧ x < r + len) ∧
      (x ∈ (splitFrom p q r true (List.range' r len)).2 ↔ q ≤ x ∧ x < r + len) := by
  induction len with
  | zero => intro r _ _ x; simp [splitFrom]; omega
  | succ len ih =>
    intro r hp hq x
    rw [List.range'_succ]
    by_cases hrq : r = q
    · subst hrq
      simp only [splitFrom, or_true, if_true, Bool.not_true,
        splitFrom_after p r _ (r + 1) (by omega) (by omega), List.mem_cons, List.not_mem_nil,
        or_false, List.mem_range'_1]
      omega
    · have h1 : ¬ (r = p ∨ r = q) := by omega
      have := ih (r + 1) (by omega) (by omega) x
      simp only [splitFrom, h1, if_false, if_true, List.mem_cons, this]
      omega

theorem mem_splitFrom_pre (p q : Nat) (hpq : p < q) (len : Nat) :
    ∀ r : Nat, r ≤ p → ∀ x : Nat,
      (x ∈ (splitFrom p q r false (List.range' r len)).1 ↔ p ≤ x ∧ x ≤ q ∧ x < r + len) ∧
      (x ∈ (splitFrom p q r false (List.range' r len)).2
        ↔ r ≤ x ∧ x < r + len ∧ (x ≤ p ∨ q ≤ x)) := by
  induction len with
  | zero => intro r _ x; simp [splitFrom]; omega
  | succ len ih =>
    intro r hp x
    rw [List.range'_succ]
    by_cases hrp : r = p
    · subst hrp
      have := mem_splitFrom_mid r q len (r + 1) (by omega) (by omega) x
      simp only [splitFrom, true_or, if_true, Bool.not_false, List.mem_cons, this]
      omega
    · have h1 : ¬ (r = p ∨ r = q) := by omega
      have := ih (r + 1) (by omega) x
      simp only [splitFrom, h1, if_false, List.mem_cons, this]
      simp only [Bool.false_eq_true, if_false, List.mem_cons, this]
      omega

/-- Which positions of an `n`-gon the split loop puts into each half. -/
theorem mem_splitPoly_range (i2 k n : Nat) (hne : i2 ≠ k) (x : Nat) :
    (x ∈ (splitPoly i2 k (List.range n)).1 ↔ min i2 k ≤ x ∧ x ≤ max i2 k ∧ x < n) ∧
    (x ∈ (splitPoly i2 k (List.range n)).2 ↔ x < n ∧ (x ≤ min i2 k ∨ max i2 k ≤ x)) := by
  rcases Nat.lt_or_gt_of_ne hne with h | h
  · have := mem_splitFrom_pre i2 k h n 0 (by omega) x
    rw [splitPoly, List.range_eq_range']
    rw [this.1, this.2, min_eq_left h.le, max_eq_right h.le]
    omega
  · have := mem_splitFrom_pre k i2 h n 0 (by omega) x
    rw [splitPoly, List.range_eq_range', splitFrom_comm]
    rw [this.1, this.2, min_eq_right h.le, max_eq_left h.le]
    omega

theorem map_getD_range {α : Type} (l : List α) (d : α) :
    (List.range l.length).map (fun r => l.getD r d) = l := by
  apply List.ext_getElem
  · simp
  · intro i h1 h2
    simp
    rw [List.getElem?_eq_getElem h2]; simp

theorem splitPoly_eq_map {α : Type} (i2 k : Nat) (l : List α) (d : α) :
    splitPoly i2 k l = ((splitPoly i2 k (List.range l.length)).1.map (fun r => l.getD r d),
      (splitPoly i2 k (List.range l.length)).2.map (fun r => l.getD r d)) := by
  conv_lhs => rw [← map_getD_range l d]
  exact splitFrom_map _ _ _ _ _ _

theorem triples_length (m : Nat) : ∀ xs : List Int, xs.length = 3 * m →
    (triples xs).length = m := by
  induction m with
  | zero =>
    intro xs h
    have : xs = [] := List.length_eq_zero.mp (by omega)
    subst this; simp [triples]
  | succ m ih =>
    intro xs h
    match xs, h with
    | a :: b :: c :: rest, h =>
      have hr : rest.length = 3 * m := by simp at h; omega
      simp [triples, ih rest hr]

/-- C2. A polygon of `n ≥ 3` vertices (simple or not): started with fuel `n`,
`triangularizeRecurse` returns and emits exactly `n - 2` triangles, that is
`3 * (n - 2)` indices. -/
theorem triangularizeRecurse_count (vecs : List Vec3) (idxs : List Int) (orient : Bool)
    (hn : 3 ≤ vecs.length) :
    ∃ out, triangularizeRecurse vecs.length vecs idxs orient = some out ∧
      out.length = 3 * (vecs.length - 2) ∧ (triples out).length + 2 = vecs.length := by
  obtain ⟨out, h1, h2⟩ := triangularizeRecurse_length vecs.length vecs idxs orient (by omega)
  have h3 := triples_length _ out h2
  exact ⟨out, h1, h2, by omega⟩

/-- Witness of C2 on the unit square. -/
theorem triangularizeRecurse_count_witness :
    3 ≤ squareVerts.length ∧
    ∃ out, triangularizeRecurse squareVerts.length squareVerts [0, 1, 2, 3] false = some out ∧
      out.length = 3 * (squareVerts.length - 2) ∧
      (triples out).length + 2 = squareVerts.length :=
  ⟨by decide!, triangularizeRecurse_count squareVerts [0, 1, 2, 3] false (by decide!)⟩

/-- C8. `triangularizeRecurse` terminates on every input: fuel `n` (any fuel from
`n - 3` on) yields a result. For `n ≥ 4` one call with fuel left either clips the ear
and recurses on the polygon without position `i2`, of `n - 1` vertices, or splits at
`i2` and the chosen vertex `k` and recurses on two polygons `A`, `B`: both hold
positions `i2` and `k`, every other position of the polygon is in exactly one of them,
no position is repeated, each has between 3 and `n - 1` vertices and the sizes add up
to `n + 2`. -/
theorem triangularizeRecurse_terminates (vecs : List Vec3) (idxs : List Int) (orient : Bool) :
    (∀ fuel, vecs.length ≤ fuel + 3 →
      ∃ out, triangularizeRecurse fuel vecs idxs orient = some out) ∧
    (∃ out, triangularizeRecurse vecs.length vecs idxs orient = some out) ∧
    (4 ≤ vecs.length →
      (∀ fuel, farthestInside vecs (findEar vecs orient).1 (findEar vecs orient).2.1
          (findEar vecs orient).2.2 = none →
        triangularizeRecurse (fuel + 1) vecs idxs orient
          = (triangularizeRecurse fuel (vecs.eraseIdx (findEar vecs orient).2.1)
              (idxs.eraseIdx (findEar vecs orient).2.1) orient).map
            (fun rest => [idxs.getD (findEar vecs orient).1 0,
              idxs.getD (findEar vecs orient).2.1 0, idxs.getD (findEar vecs orient).2.2 0]
              ++ rest) ∧
        (vecs.eraseIdx (findEar vecs orient).2.1).length = vecs.length - 1) ∧
      (∀ fuel k, farthestInside vecs (findEar vecs orient).1 (findEar vecs orient).2.1
          (findEar vecs orient).2.2 = some k →
        triangularizeRecurse (fuel + 1) vecs idxs orient
          = (triangularizeRecurse fuel (splitPoly (findEar vecs orient).2.1 k vecs).1
              (splitPoly (findEar vecs orient).2.1 k idxs).1 orient).bind (fun outA =>
            (triangularizeRecurse fuel (splitPoly (findEar vecs orient).2.1 k vecs).2
              (splitPoly (findEar vecs orient).2.1 k idxs).2 orient).map (fun outB =>
                outA ++ outB)) ∧
        (splitPoly (findEar vecs orient).2.1 k vecs).1
          = (splitPoly (findEar vecs orient).2.1 k (List.range vecs.length)).1.map
              (fun r => vecs.getD r default) ∧
        (splitPoly (findEar vecs orient).2.1 k vecs).2
          = (splitPoly (findEar vecs orient).2.1 k (List.range vecs.length)).2.map
              (fun r => vecs.getD r default) ∧
        (splitPoly (findEar vecs orient).2.1 k (List.range vecs.length)).1.Nodup ∧
        (splitPoly (findEar vecs orient).2.1 k (List.range vecs.length)).2.Nodup ∧
        (findEar vecs orient).2.1 ∈ (splitPoly (findEar vecs orient).2.1 k
          (List.range vecs.length)).1 ∧
        k ∈ (splitPoly (findEar vecs orient).2.1 k (List.range vecs.length)).1 ∧
        (findEar vecs orient).2.1 ∈ (splitPoly (findEar vecs orient).2.1 k
          (List.range vecs.length)).2 ∧
        k ∈ (splitPoly (findEar vecs orient).2.1 k (List.range vecs.length)).2 ∧
        (∀ r, r < vecs.length → r ≠ (findEar vecs orient).2.1 → r ≠ k →
          (r ∈ (splitPoly (findEar vecs orient).2.1 k (List.range vecs.length)).1 ↔
            r ∉ (splitPoly (findEar vecs orient).2.1 k (List.range vecs.length)).2)) ∧
        3 ≤ (splitPoly (findEar vecs orient).2.1 k vecs).1.length ∧
        (splitPoly (findEar vecs orient).2.1 k vecs).1.length ≤ vecs.length - 1 ∧
        3 ≤ (splitPoly (findEar vecs orient).2.1 k vecs).2.length ∧
        (splitPoly (findEar vecs orient).2.1 k vecs).2.length ≤ vecs.length - 1 ∧
        (splitPoly (findEar vecs orient).2.1 k vecs).1.length
          + (splitPoly (findEar vecs orient).2.1 k vecs).2.length = vecs.length + 2)) := by
  refine ⟨fun fuel hf => ?_, ?_, fun hn => ⟨fun fuel hk => ⟨?_, ?_⟩, fun fuel k hk => ?_⟩⟩
  · obtain ⟨out, h, -⟩ := triangularizeRecurse_length fuel vecs idxs orient hf
    exact ⟨out, h⟩
  · obtain ⟨out, h, -⟩ := triangularizeRecurse_length vecs.length vecs idxs orient (by omega)
    exact ⟨out, h⟩
  · rw [triangularizeRecurse]
    have h1 : ¬ vecs.length < 3 := by omega
    have h2 : ¬ vecs.length = 3 := by omega
    simp only [h1, h2, if_false, hk]
  · exact List.length_eraseIdx_of_lt (findEar_spec vecs orient (by omega)).1
  · obtain ⟨hi2, hi1, hi3⟩ := findEar_spec vecs orient (by omega)
    obtain ⟨hkl, hk1, hk2, hk3, -⟩ := farthestInside_spec vecs _ _ _ k hk
    obtain ⟨a1, a2, b1, b2, hab⟩ := split_sizes vecs orient vecs k (by omega) rfl hk
    have hm := fun x => mem_splitPoly_range (findEar vecs orient).2.1 k vecs.length
      (Ne.symm hk2) x
    have hsub := splitFrom_sublist (findEar vecs orient).2.1 k (List.range vecs.length) 0 false
    have heq := splitPoly_eq_map (findEar vecs orient).2.1 k vecs default
    refine ⟨?_, congrArg Prod.fst heq, congrArg Prod.snd heq,
      (List.nodup_range _).sublist hsub.1, (List.nodup_range _).sublist hsub.2,
      ?_, ?_, ?_, ?_, ?_, a1, by omega, b1, by omega, hab⟩
    · rw [triangularizeRecurse]
      have h1 : ¬ vecs.length < 3 := by omega
      have h2 : ¬ vecs.length = 3 := by omega
      simp only [h1, h2, if_false, hk]
      cases triangularizeRecurse fuel (splitPoly (findEar vecs orient).2.1 k vecs).1
          (splitPoly (findEar vecs orient).2.1 k idxs).1 orient <;>
        cases triangularizeRecurse fuel (splitPoly (findEar vecs orient).2.1 k vecs).2
          (splitPoly (findEar vecs orient).2.1 k idxs).2 orient <;> rfl
    · rw [(hm _).1]; omega
    · rw [(hm _).1]; omega
    · rw [(hm _).2]; omega
    · rw [(hm _).2]; omega
    · intro r hr h1 h2
      rw [(hm r).1, (hm r).2]; omega

/-- Witness of C8 on `notchVerts`: the first call splits at positions 3 and 6 into
polygons of 4 and 5 vertices. -/
theorem triangularizeRecurse_terminates_witness :
    (4 ≤ notchVerts.length ∧
      farthestInside notchVerts (findEar notchVerts false).1 (findEar notchVerts false).2.1
        (findEar notchVerts false).2.2 = some 6) ∧
    (splitPoly (findEar notchVerts false).2.1 6 notchVerts).1.length
      + (splitPoly (findEar notchVerts false).2.1 6 notchVerts).2.length
      = notchVerts.length + 2 := by
  obtain ⟨-, -, -, -, -, -, -, -, -, -, -, -, -, -, h⟩ :=
    ((triangularizeRecurse_terminates notchVerts [0, 1, 2, 3, 4, 5, 6] false).2.2
      (by decide!)).2 0 6 (by decide!)
  exact ⟨by decide!, h⟩


/-! ## The triangulator on a face of the mesh -/

theorem projectFace_length (fsqrt : ℚ → ℚ) (verts : List Vec3) (f_idxs : List Int) :
    (projectFace fsqrt verts f_idxs).length = f_idxs.length := by
  simp [projectFace]

theorem triSigned_rotate (a b c : Vec3) : triSigned b c a = triSigned a b c := by
  unfold triSigned; ring

/-- With at least 3 listed vertices `loadFromObj` gets a result from the triangulator:
`n - 2` triangles, each of them (up to rotation) an order-preserving selection of three
of the listed indices. -/
theorem faceTriangles_spec (fsqrt : ℚ → ℚ) (verts : List Vec3) (f_idxs : List Int)
    (hn : 3 ≤ f_idxs.length) :
    ∃ out, faceTriangles fsqrt verts f_idxs = some out ∧
      out.length = 3 * (f_idxs.length - 2) ∧
      ∀ t ∈ triples out, CyclicTriple f_idxs t.1 t.2.1 t.2.2 := by
  unfold faceTriangles
  by_cases h3 : f_idxs.length = 3
  · refine ⟨[f_idxs.getD 0 0, f_idxs.getD 1 0, f_idxs.getD 2 0], by simp [h3], by simp [h3], ?_⟩
    intro t ht
    simp only [triples, List.mem_singleton] at ht
    subst ht
    exact Or.inl (triple_sublist f_idxs 0 0 1 2 (by omega) (by omega) (by omega))
  · have hl := projectFace_length fsqrt verts f_idxs
    obtain ⟨out, h1, h2⟩ := triangularizeRecurse_length (projectFace fsqrt verts f_idxs).length
      (projectFace fsqrt verts f_idxs) f_idxs
      (decide (orientationSum (projectFace fsqrt verts f_idxs) ≥ 0)) (by omega)
    refine ⟨out, ?_, by rw [h2, hl], ?_⟩
    · rw [if_neg h3, if_pos (by omega)]; exact h1
    · exact emitted_cyclic _ _ _ _ (by omega) hl.symm out h1

theorem cyclic_sign (fsqrt : ℚ → ℚ) (verts : List Vec3) (f_idxs : List Int) (s : ℚ)
    (R : ℚ → Prop)
    (H : ∀ a b c, List.Sublist [a, b, c] (projectFace fsqrt verts f_idxs) →
      R (s * triSigned a b c))
    (a b c : Int) (h : CyclicTriple f_idxs a b c) :
    R (s * triSigned (projectVertex fsqrt verts f_idxs a) (projectVertex fsqrt verts f_idxs b)
      (projectVertex fsqrt verts f_idxs c)) := by
  rcases h with h | h | h
  · exact H _ _ _ (by simpa [projectFace] using h.map (projectVertex fsqrt verts f_idxs))
  · have := H _ _ _ (by simpa [projectFace] using h.map (projectVertex fsqrt verts f_idxs))
    rwa [triSigned_rotate] at this
  · have := H _ _ _ (by simpa [projectFace] using h.map (projectVertex fsqrt verts f_idxs))
    rwa [← triSigned_rotate] at this

/-- C1 (the code on the failing input). On the simple polygon `notchVerts` (area 7,
projected onto itself) the triangulator emits five triangles whose areas add up to 9:
`(6,3,4)` of area 0, `(4,5,6)`, which is the notch and lies outside the polygon,
`(1,2,3)`, `(0,1,3)` and `(0,3,6)`. -/
theorem notch_area_mismatch :
    simplePolygon notchVerts = true ∧
    projectFace Rat.sqrt notchVerts [0, 1, 2, 3, 4, 5, 6] = notchVerts ∧
    polygonArea notchVerts = 7 ∧
    faceTriangles Rat.sqrt notchVerts [0, 1, 2, 3, 4, 5, 6]
      = some [6, 3, 4, 4, 5, 6, 1, 2, 3, 0, 1, 3, 0, 3, 6] ∧
    emittedArea notchVerts [6, 3, 4, 4, 5, 6, 1, 2, 3, 0, 1, 3, 0, 3, 6] = 9 := by
  decide!

/-- C3 fails on the program. On the simple polygon `notchVerts` (signed area 7) the
emitted triangle `(4,5,6)` has signed area -1, the opposite sign: the zero-area ear at
positions 2, 3, 4 is accepted as convex, `pointInTriangle` accepts the vertex `(0,0)` on
its line, and the split along `(0,3)-(0,0)` cuts off the notch `(0,2) (1,1) (0,0)`, which
lies outside the polygon and is emitted as it stands. On the simple polygon `rectVerts`
(signed area 2) the first emitted triangle `(1,2,3)` has signed area 0. -/
theorem winding_counterexample :
    (simplePolygon (projectFace Rat.sqrt rectVerts [0, 1, 2, 3, 4]) = true ∧
      polygonSigned (projectFace Rat.sqrt rectVerts [0, 1, 2, 3, 4]) = 2 ∧
      faceTriangles Rat.sqrt rectVerts [0, 1, 2, 3, 4] = some [1, 2, 3, 1, 3, 4, 0, 1, 4] ∧
      triSigned (projectVertex Rat.sqrt rectVerts [0, 1, 2, 3, 4] 1)
        (projectVertex Rat.sqrt rectVerts [0, 1, 2, 3, 4] 2)
        (projectVertex Rat.sqrt rectVerts [0, 1, 2, 3, 4] 3) = 0) ∧
    (simplePolygon (projectFace Rat.sqrt notchVerts [0, 1, 2, 3, 4, 5, 6]) = true ∧
      polygonSigned (projectFace Rat.sqrt notchVerts [0, 1, 2, 3, 4, 5, 6]) = 7 ∧
      faceTriangles Rat.sqrt notchVerts [0, 1, 2, 3, 4, 5, 6]
        = some [6, 3, 4, 4, 5, 6, 1, 2, 3, 0, 1, 3, 0, 3, 6] ∧
      triSigned (projectVertex Rat.sqrt notchVerts [0, 1, 2, 3, 4, 5, 6] 4)
        (projectVertex Rat.sqrt notchVerts [0, 1, 2, 3, 4, 5, 6] 5)
        (projectVertex Rat.sqrt notchVerts [0, 1, 2, 3, 4, 5, 6] 6) = -1) := by
  decide!

/-- The convex case of the winding property. For a face of `n ≥ 3` vertices the
triangulator returns, and when the projected polygon is convex (every three vertices
taken in list order have a signed area that is zero or of the sign of the polygon's
signed area) every emitted triangle has, in its emitted order, a signed area that is zero
or of the sign of the polygon's signed area; when the polygon is strictly convex (no zero
allowed) every emitted triangle has exactly the sign of the polygon's signed area. -/
theorem convex_winding (fsqrt : ℚ → ℚ) (verts : List Vec3) (f_idxs : List Int)
    (hn : 3 ≤ f_idxs.length) :
    ∃ out, faceTriangles fsqrt verts f_idxs = some out ∧
      ((∀ a b c, List.Sublist [a, b, c] (projectFace fsqrt verts f_idxs) →
          0 ≤ polygonSigned (projectFace fsqrt verts f_idxs) * triSigned a b c) →
        ∀ t ∈ triples out, 0 ≤ polygonSigned (projectFace fsqrt verts f_idxs) *
          triSigned (projectVertex fsqrt verts f_idxs t.1)
            (projectVertex fsqrt verts f_idxs t.2.1)
            (projectVertex fsqrt verts f_idxs t.2.2)) ∧
      ((∀ a b c, List.Sublist [a, b, c] (projectFace fsqrt verts f_idxs) →
          0 < polygonSigned (projectFace fsqrt verts f_idxs) * triSigned a b c) →
        ∀ t ∈ triples out, 0 < polygonSigned (projectFace fsqrt verts f_idxs) *
          triSigned (projectVertex fsqrt verts f_idxs t.1)
            (projectVertex fsqrt verts f_idxs t.2.1)
            (projectVertex fsqrt verts f_idxs t.2.2)) := by
  obtain ⟨out, h1, -, h3⟩ := faceTriangles_spec fsqrt verts f_idxs hn
  exact ⟨out, h1,
    fun H t ht => cyclic_sign fsqrt verts f_idxs _ (fun q => 0 ≤ q) H _ _ _ (h3 t ht),
    fun H t ht => cyclic_sign fsqrt verts f_idxs _ (fun q => 0 < q) H _ _ _ (h3 t ht)⟩

/-- The convex case on an example: the unit square is strictly convex, and both triangles
emitted for it have the sign of its signed area. -/
theorem convex_winding_witness :
    3 ≤ ([0, 1, 2, 3] : List Int).length ∧
    (∀ a b c, List.Sublist [a, b, c] (projectFace Rat.sqrt squareVerts [0, 1, 2, 3]) →
      0 < polygonSigned (projectFace Rat.sqrt squareVerts [0, 1, 2, 3]) * triSigned a b c) ∧
    ∃ out, faceTriangles Rat.sqrt squareVerts [0, 1, 2, 3] = some out ∧
      ∀ t ∈ triples out, 0 < polygonSigned (projectFace Rat.sqrt squareVerts [0, 1, 2, 3]) *
        triSigned (projectVertex Rat.sqrt squareVerts [0, 1, 2, 3] t.1)
          (projectVertex Rat.sqrt squareVerts [0, 1, 2, 3] t.2.1)
          (projectVertex Rat.sqrt squareVerts [0, 1, 2, 3] t.2.2) := by
  have hp : projectFace Rat.sqrt squareVerts [0, 1, 2, 3] = squareVerts := by decide!
  have hconv : ∀ a b c,
      List.Sublist [a, b, c] (projectFace Rat.sqrt squareVerts [0, 1, 2, 3]) →
      0 < polygonSigned (projectFace Rat.sqrt squareVerts [0, 1, 2, 3]) * triSigned a b c := by
    intro a b c h
    rw [hp] at h ⊢
    have hm := List.mem_sublists.mpr h
    have hl : List.sublists squareVerts
        = [[], [⟨0, 0, 0⟩], [⟨1, 0, 0⟩], [⟨0, 0, 0⟩, ⟨1, 0, 0⟩], [⟨1, 1, 0⟩],
          [⟨0, 0, 0⟩, ⟨1, 1, 0⟩], [⟨1, 0, 0⟩, ⟨1, 1, 0⟩], [⟨0, 0, 0⟩, ⟨1, 0, 0⟩, ⟨1, 1, 0⟩],
          [⟨0, 1, 0⟩], [⟨0, 0, 0⟩, ⟨0, 1, 0⟩], [⟨1, 0, 0⟩, ⟨0, 1, 0⟩],
          [⟨0, 0, 0⟩, ⟨1, 0, 0⟩, ⟨0, 1, 0⟩], [⟨1, 1, 0⟩, ⟨0, 1, 0⟩],
          [⟨0, 0, 0⟩, ⟨1, 1, 0⟩, ⟨0, 1, 0⟩], [⟨1, 0, 0⟩, ⟨1, 1, 0⟩, ⟨0, 1, 0⟩],
          [⟨0, 0, 0⟩, ⟨1, 0, 0⟩, ⟨1, 1, 0⟩, ⟨0, 1, 0⟩]] := by decide!
    rw [hl] at hm
    simp only [List.mem_cons, List.cons.injEq, List.mem_singleton, reduceCtorEq, and_false,
      false_and, false_or, or_false, and_true, List.not_mem_nil] at hm
    rcases hm with ⟨rfl, rfl, rfl⟩ | ⟨rfl, rfl, rfl⟩ | ⟨rfl, rfl, rfl⟩ | ⟨rfl, rfl, rfl⟩ <;>
      decide!
  obtain ⟨out, h1, -, h3⟩ := convex_winding Rat.sqrt squareVerts [0, 1, 2, 3] (by decide)
  exact ⟨by decide, hconv, out, h1, h3 hconv⟩

/-- C7, as stated, fails: the four colinear points of `lineVerts`, listed as one face,
yield two triangles, not zero. -/
theorem degenerate_counterexample :
    faceTriangles Rat.sqrt lineVerts [0, 1, 2, 3] = some [0, 1, 2, 0, 2, 3] := by
  decide!

/-- C7, amended. Every face with `n ≥ 3` listed vertices, degenerate or not, yields
exactly `n - 2` triangles, hence at least one: a degenerate face is not dropped. When
all the vertices are colinear (every triangle on three of the listed indices is
degenerate, which covers fewer than 3 distinct points) every emitted triangle is
degenerate. -/
theorem degenerate_face (fsqrt : ℚ → ℚ) (verts : List Vec3) (f_idxs : List Int)
    (hn : 3 ≤ f_idxs.length) :
    ∃ out, faceTriangles fsqrt verts f_idxs = some out ∧
      (triples out).length + 2 = f_idxs.length ∧
      triples out ≠ [] ∧
      ((∀ a ∈ f_idxs, ∀ b ∈ f_idxs, ∀ c ∈ f_idxs, degenerateTri verts a b c) →
        ∀ t ∈ triples out, degenerateTri verts t.1 t.2.1 t.2.2) := by
  obtain ⟨out, h1, h2, h3⟩ := faceTriangles_spec fsqrt verts f_idxs hn
  have h4 := triples_length _ out h2
  refine ⟨out, h1, by omega, ?_, fun hdeg t ht => ?_⟩
  · intro h0
    rw [h0] at h4
    simp only [List.length_nil] at h4
    omega
  · rcases h3 t ht with h | h | h <;>
      exact hdeg _ (h.subset (by simp)) _ (h.subset (by simp)) _ (h.subset (by simp))

/-- Witness of the amended C7: the four colinear points of `lineVerts` yield two
triangles, both degenerate; the self-crossing quadrilateral `bowtieVerts`, of signed
area 0 and not colinear, yields two triangles as well. -/
theorem degenerate_face_witness :
    (3 ≤ ([0, 1, 2, 3] : List Int).length ∧
      ∀ a ∈ ([0, 1, 2, 3] : List Int), ∀ b ∈ ([0, 1, 2, 3] : List Int),
        ∀ c ∈ ([0, 1, 2, 3] : List Int), degenerateTri lineVerts a b c) ∧
    (∃ out, faceTriangles Rat.sqrt lineVerts [0, 1, 2, 3] = some out ∧
      (triples out).length + 2 = ([0, 1, 2, 3] : List Int).length ∧
      ∀ t ∈ triples out, degenerateTri lineVerts t.1 t.2.1 t.2.2) ∧
    (polygonSigned (projectFace Rat.sqrt bowtieVerts [0, 1, 2, 3]) = 0 ∧
      ∃ out, faceTriangles Rat.sqrt bowtieVerts [0, 1, 2, 3] = some out ∧
        (triples out).length + 2 = ([0, 1, 2, 3] : List Int).length ∧ triples out ≠ []) :=
  ⟨by decide!,
    (degenerate_face Rat.sqrt lineVerts [0, 1, 2, 3] (by decide)).imp
      (fun _ h => ⟨h.1, h.2.1, h.2.2.2 (by decide!)⟩),
    by decide!,
    (degenerate_face Rat.sqrt bowtieVerts [0, 1, 2, 3] (by decide)).imp
      (fun _ h => ⟨h.1, h.2.1, h.2.2.1⟩)⟩

/-! ## The rasterizer: one pixel -/

namespace Surface

theorem testPixel_settled (p : Pixel) (d e : ℚ) (c : Char) (m : Int)
    (h : depthLess d p.z = false) : depthLess d (testPixel p e c m).z = false := by
  unfold testPixel
  split_ifs with h1
  · cases hz : p.z with
    | none => rw [hz] at h; simp [depthLess] at h
    | some z =>
      rw [hz] at h h1
      simp only [depthLess, decide_eq_false_iff_not, not_lt, decide_eq_true_eq] at h h1 ⊢
      linarith
  · exact h

theorem testPixel_self_settled (p : Pixel) (d : ℚ) (c : Char) (m : Int) :
    depthLess d (testPixel p d c m).z = false := by
  unfold testPixel
  split_ifs with h1
  · simp [depthLess]
  · simpa using h1

theorem foldl_testPixel_settled (c : Char) (m : Int) (ds : List ℚ) :
    ∀ (p : Pixel) (d : ℚ), depthLess d p.z = false →
      depthLess d (ds.foldl (fun q e => testPixel q e c m) p).z = false := by
  induction ds with
  | nil => intro p d h; exact h
  | cons e ds ih => intro p d h; exact ih _ d (testPixel_settled p d e c m h)

theorem foldl_testPixel_all_settled (c : Char) (m : Int) (ds : List ℚ) :
    ∀ (p : Pixel), ∀ d ∈ ds,
      depthLess d (ds.foldl (fun q e => testPixel q e c m) p).z = false := by
  induction ds with
  | nil => intro p d h; simp at h
  | cons e ds ih =>
    intro p d h
    rcases List.mem_cons.mp h with h | h
    · subst h
      exact foldl_testPixel_settled c m ds _ d (testPixel_self_settled p d c m)
    · exact ih _ d h

theorem foldl_testPixel_fixed (c : Char) (m : Int) (ds : List ℚ) :
    ∀ (p : Pixel), (∀ d ∈ ds, depthLess d p.z = false) →
      ds.foldl (fun q e => testPixel q e c m) p = p := by
  induction ds with
  | nil => intro p _; rfl
  | cons e ds ih =>
    intro p h
    have h1 : testPixel p e c m = p := by
      unfold testPixel; rw [h e (List.mem_cons_self _ _)]; simp
    rw [List.foldl_cons, h1]
    exact ih p (fun d hd => h d (List.mem_cons_of_mem _ hd))

/-- Running the same sequence of depth tests twice on a pixel is running it once. -/
theorem foldl_testPixel_idem (c : Char) (m : Int) (ds : List ℚ) (p : Pixel) :
    ds.foldl (fun q e => testPixel q e c m) (ds.foldl (fun q e => testPixel q e c m) p)
      = ds.foldl (fun q e => testPixel q e c m) p :=
  foldl_testPixel_fixed c m ds _ (foldl_testPixel_all_settled c m ds p)

/-- A sequence of depth tests leaves the pixel as it was or stores one of the samples,
one strictly nearer than the depth stored at the start. -/
theorem foldl_testPixel_cases (c : Char) (m : Int) (ds : List ℚ) :
    ∀ (p : Pixel), ds.foldl (fun q e => testPixel q e c m) p = p ∨
      ∃ d ∈ ds, ds.foldl (fun q e => testPixel q e c m) p = ⟨some d, c, m⟩ ∧
        depthLess d p.z = true := by
  induction ds with
  | nil => intro p; left; rfl
  | cons e ds ih =>
    intro p
    rw [List.foldl_cons]
    by_cases h : depthLess e p.z = true
    · have h1 : testPixel p e c m = ⟨some e, c, m⟩ := by unfold testPixel; rw [if_pos h]
      rcases ih (testPixel p e c m) with h2 | ⟨d, hd, h2, h3⟩
      · right; exact ⟨e, List.mem_cons_self _ _, by rw [h2, h1], h⟩
      · right
        refine ⟨d, List.mem_cons_of_mem _ hd, h2, ?_⟩
        rw [h1] at h3
        cases hz : p.z with
        | none => simp [depthLess]
        | some z =>
          rw [hz] at h
          simp only [depthLess, decide_eq_true_eq] at h h3 ⊢
          linarith
    · have h1 : testPixel p e c m = p := by unfold testPixel; rw [if_neg h]
      rw [h1]
      rcases ih p with h2 | ⟨d, hd, h2, h3⟩
      · left; exact h2
      · right; exact ⟨d, List.mem_cons_of_mem _ hd, h2, h3⟩

/-- A non-empty sequence of tests of one and the same sample is a single test. -/
theorem foldl_testPixel_const (c : Char) (m : Int) (d : ℚ) (ds : List ℚ)
    (hne : ds ≠ []) (h : ∀ e ∈ ds, e = d) (p : Pixel) :
    ds.foldl (fun q e => testPixel q e c m) p = testPixel p d c m := by
  match ds, hne with
  | e :: ds, _ =>
    have he : e = d := h e (List.mem_cons_self _ _)
    subst he
    rw [List.foldl_cons]
    apply foldl_testPixel_fixed
    intro d hd
    rw [h d (List.mem_cons_of_mem _ hd)]
    exact testPixel_self_settled p e c m

end Surface

/-! ## The rasterizer: the two loops of `drawTriangle` -/

namespace Surface

theorem foldl_flatMap_eq {α β γ : Type} (f : γ → β → γ) (g : α → List β) (l : List α) :
    ∀ init : γ, (l.flatMap g).foldl f init = l.foldl (fun acc x => (g x).foldl f acc) init := by
  induction l with
  | nil => intro init; rfl
  | cons x l ih => intro init; simp [List.flatMap_cons, List.foldl_append, ih]

/-- The call of `drawTriangle` changes the pixel list only, by the depth tests of the sampled cells
in loop order. -/
theorem drawTriangle_eq (fsqrt : ℚ → ℚ) (S : Surface) (t : Triangle) (c : Char) (m : Int) :
    drawTriangle fsqrt S t c m = { S with pixels := drawPixels fsqrt S t c m S.pixels } := by
  unfold drawTriangle drawPixels sampledCells
  by_cases h : culled t = true
  · simp [h]
  · simp only [h, if_false, Bool.false_eq_true]
    rw [foldl_flatMap_eq]
    simp only [List.foldl_map]
    rfl

theorem plot_length (fsqrt : ℚ → ℚ) (S : Surface) (t : Triangle) (c : Char) (m : Int)
    (xx : Int) (px : List Pixel) (yy : Int) :
    (plot fsqrt S t c m xx px yy).length = px.length := by
  unfold plot; split_ifs <;> simp

theorem plot_getD (fsqrt : ℚ → ℚ) (S : Surface) (t : Triangle) (c : Char) (m : Int)
    (xx : Int) (px : List Pixel) (yy : Int) (j : Nat) (hj : j < px.length) :
    (plot fsqrt S t c m xx px yy).getD j default
      = if 0 ≤ yy * S.width + xx ∧ (yy * S.width + xx).toNat = j then
          testPixel (px.getD j default) (planeDepth fsqrt S t xx yy) c m
        else px.getD j default := by
  unfold plot
  by_cases h0 : 0 ≤ yy * S.width + xx
  · by_cases h1 : (yy * S.width + xx).toNat = j
    · simp [h0, h1, List.getD_eq_getElem?_getD, List.getElem?_set, hj]
    · simp [h0, h1, List.getD_eq_getElem?_getD, List.getElem?_set]
  · simp [h0]

theorem foldl_plot_length (fsqrt : ℚ → ℚ) (S : Surface) (t : Triangle) (c : Char) (m : Int)
    (L : List (Int × Int)) : ∀ px : List Pixel,
    (L.foldl (fun px cell => plot fsqrt S t c m cell.1 px cell.2) px).length = px.length := by
  induction L with
  | nil => intro px; rfl
  | cons a L ih => intro px; rw [List.foldl_cons, ih, plot_length]

/-- Locality: pixel `j` after the loops is pixel `j` before, put through the depth tests
of exactly those sampled cells whose index `yy * width + xx` is `j`. -/
theorem foldl_plot_getD (fsqrt : ℚ → ℚ) (S : Surface) (t : Triangle) (c : Char) (m : Int)
    (j : Nat) (L : List (Int × Int)) : ∀ px : List Pixel, j < px.length →
    (L.foldl (fun px cell => plot fsqrt S t c m cell.1 px cell.2) px).getD j default
      = ((L.filter (fun cell => decide (0 ≤ cell.2 * S.width + cell.1 ∧
            (cell.2 * S.width + cell.1).toNat = j))).map
          (fun cell => planeDepth fsqrt S t cell.1 cell.2)).foldl
          (fun q e => testPixel q e c m) (px.getD j default) := by
  induction L with
  | nil => intro px _; rfl
  | cons a L ih =>
    intro px hj
    rw [List.foldl_cons, ih _ (by rw [plot_length]; exact hj), plot_getD _ _ _ _ _ _ _ _ _ hj]
    by_cases h : 0 ≤ a.2 * S.width + a.1 ∧ (a.2 * S.width + a.1).toNat = j
    · rw [if_pos h, List.filter_cons_of_pos (by simpa using h)]
      rfl
    · rw [if_neg h, List.filter_cons_of_neg (by simp [h])]

theorem drawPixels_length (fsqrt : ℚ → ℚ) (S : Surface) (t : Triangle) (c : Char) (m : Int)
    (px : List Pixel) : (drawPixels fsqrt S t c m px).length = px.length :=
  foldl_plot_length fsqrt S t c m _ px

theorem clamp_bounds (v lo hi : Int) (h : lo ≤ hi) : lo ≤ clamp v lo hi ∧ clamp v lo hi ≤ hi := by
  unfold clamp; split_ifs <;> omega

theorem mem_intRange (a b x : Int) : x ∈ intRange a b ↔ a ≤ x ∧ x ≤ b := by
  unfold intRange
  simp only [List.mem_map, List.mem_range]
  constructor
  · rintro ⟨i, hi, rfl⟩; omega
  · intro ⟨h1, h2⟩
    exact ⟨(x - a).toNat, by omega, by omega⟩

/-- Membership in the sampled cells: the triangle is not culled, the column is in the
clamped column range and the row in the clamped row range of that column. -/
theorem mem_sampledCells (S : Surface) (t : Triangle) (xx yy : Int) :
    (xx, yy) ∈ S.sampledCells t ↔
      culled t = false ∧ S.xStart t ≤ xx ∧ xx ≤ S.xEnd t ∧
        S.yStart t xx ≤ yy ∧ yy ≤ S.yEnd t xx := by
  unfold sampledCells
  by_cases h : culled t = true
  · simp [h]
  · simp only [h, if_false, Bool.false_eq_true, List.mem_flatMap, List.mem_map, Prod.mk.injEq,
      mem_intRange]
    constructor
    · rintro ⟨a, ⟨h1, h2⟩, b, ⟨h3, h4⟩, rfl, rfl⟩
      exact ⟨by simp [h], h1, h2, h3, h4⟩
    · rintro ⟨-, h1, h2, h3, h4⟩
      exact ⟨xx, ⟨h1, h2⟩, yy, ⟨h3, h4⟩, rfl, rfl⟩

/-- A sampled cell lies on the grid. -/
theorem sampledCells_on_grid (S : Surface) (t : Triangle) (xx yy : Int)
    (hw : 1 ≤ S.width) (hh : 1 ≤ S.height) (h : (xx, yy) ∈ S.sampledCells t) :
    0 ≤ xx ∧ xx < S.width ∧ 0 ≤ yy ∧ yy < S.height := by
  obtain ⟨-, h1, h2, h3, h4⟩ := (mem_sampledCells S t xx yy).mp h
  have a1 := clamp_bounds ⌊((sortByX t.p1 t.p2 t.p3).1.x + S.dx / 2) / S.dx⌋ 0 (S.width - 1)
    (by omega)
  have a2 := clamp_bounds ⌊((sortByX t.p1 t.p2 t.p3).2.2.x - S.dx / 2) / S.dx⌋ 0 (S.width - 1)
    (by omega)
  have a3 := clamp_bounds ⌊(min (S.scanY1 t xx) (S.scanY2 t xx) + S.dy / 2) / S.dy⌋ 0
    (S.height - 1) (by omega)
  have a4 := clamp_bounds ⌊(max (S.scanY1 t xx) (S.scanY2 t xx) - S.dy / 2) / S.dy⌋ 0
    (S.height - 1) (by omega)
  unfold xStart idxX at h1
  unfold xEnd idxX at h2
  unfold yStart idxY at h3
  unfold yEnd idxY at h4
  omega

/-- On a grid of width `w ≥ 1` the index `yy * w + xx` determines the cell. -/
theorem cell_index_inj (w xx yy xx2 yy2 : Int) (hx : 0 ≤ xx ∧ xx < w) (hx2 : 0 ≤ xx2 ∧ xx2 < w)
    (h : yy * w + xx = yy2 * w + xx2) : xx = xx2 ∧ yy = yy2 := by
  have hy : yy = yy2 := by
    rcases lt_trichotomy yy yy2 with h1 | h1 | h1
    · have : (yy + 1) * w ≤ yy2 * w := Int.mul_le_mul_of_nonneg_right (by omega) (by omega)
      rw [Int.add_mul] at this; omega
    · exact h1
    · have : (yy2 + 1) * w ≤ yy * w := Int.mul_le_mul_of_nonneg_right (by omega) (by omega)
      rw [Int.add_mul] at this; omega
  subst hy
  exact ⟨by omega, rfl⟩

end Surface

/-! ## The rasterizer: effect of `drawTriangle` on the frame buffer -/

namespace Surface

theorem ext_getD {α : Type} (d : α) (l1 l2 : List α) (hl : l1.length = l2.length)
    (h : ∀ j, j < l1.length → l1.getD j d = l2.getD j d) : l1 = l2 := by
  apply List.ext_getElem hl
  intro j h1 h2
  have := h j h1
  rwa [List.getD_eq_getElem l1 d h1, List.getD_eq_getElem l2 d h2] at this

theorem sampledCells_column (S : Surface) (t : Triangle) (xx yy : Int)
    (hw : 1 ≤ S.width) (h : (xx, yy) ∈ S.sampledCells t) : 0 ≤ xx ∧ xx < S.width := by
  obtain ⟨-, h1, h2, -, -⟩ := (mem_sampledCells S t xx yy).mp h
  have a1 := clamp_bounds ⌊((sortByX t.p1 t.p2 t.p3).1.x + S.dx / 2) / S.dx⌋ 0 (S.width - 1)
    (by omega)
  have a2 := clamp_bounds ⌊((sortByX t.p1 t.p2 t.p3).2.2.x - S.dx / 2) / S.dx⌋ 0 (S.width - 1)
    (by omega)
  unfold xStart idxX at h1
  unfold xEnd idxX at h2
  omega

/-- The sampled cells with the index of cell `(xx, yy)` are copies of `(xx, yy)`. -/
theorem filter_cells_eq (S : Surface) (t : Triangle) (xx yy : Int) (hw : 1 ≤ S.width)
    (hx : 0 ≤ xx ∧ xx < S.width) (h0 : 0 ≤ yy * S.width + xx) (cell : Int × Int)
    (hc : cell ∈ (S.sampledCells t).filter (fun cell => decide (0 ≤ cell.2 * S.width + cell.1 ∧
      (cell.2 * S.width + cell.1).toNat = (yy * S.width + xx).toNat))) :
    cell = (xx, yy) := by
  obtain ⟨hm, hp⟩ := List.mem_filter.mp hc
  simp only [decide_eq_true_eq] at hp
  obtain ⟨a, b⟩ := cell
  have hcol := sampledCells_column S t a b hw hm
  have := cell_index_inj S.width a b xx yy hcol hx (by simp only at hp; omega)
  rw [this.1, this.2]

/-- C9. A triangle with `(p2.x-p1.x)*(p3.y-p2.y) >= (p3.x-p2.x)*(p2.y-p1.y)` (wound
against the accepted convention, or of zero 2D area) leaves the surface, hence every
cell of the frame buffer, unchanged. -/
theorem drawTriangle_culled (fsqrt : ℚ → ℚ) (S : Surface) (t : Triangle) (c : Char) (m : Int)
    (h : (t.p2.x - t.p1.x) * (t.p3.y - t.p2.y) ≥ (t.p3.x - t.p2.x) * (t.p2.y - t.p1.y)) :
    drawTriangle fsqrt S t c m = S := by
  unfold drawTriangle
  rw [if_pos (by unfold culled; exact decide_eq_true h)]

/-- Witness of C9: the culled triangle `triBack` on `grid4`. -/
theorem drawTriangle_culled_witness :
    (triBack.p2.x - triBack.p1.x) * (triBack.p3.y - triBack.p2.y)
      ≥ (triBack.p3.x - triBack.p2.x) * (triBack.p2.y - triBack.p1.y) ∧
    drawTriangle Rat.sqrt grid4 triBack glyphA 0 = grid4 :=
  ⟨by decide!, drawTriangle_culled Rat.sqrt grid4 triBack glyphA 0 (by decide!)⟩

/-- C10. Drawing the same triangle with the same glyph and material twice in a row
yields exactly the surface obtained by drawing it once. -/
theorem drawTriangle_idempotent (fsqrt : ℚ → ℚ) (S : Surface) (t : Triangle) (c : Char)
    (m : Int) :
    drawTriangle fsqrt (drawTriangle fsqrt S t c m) t c m = drawTriangle fsqrt S t c m := by
  rw [drawTriangle_eq fsqrt S, drawTriangle_eq fsqrt]
  have key : drawPixels fsqrt S t c m (drawPixels fsqrt S t c m S.pixels)
      = drawPixels fsqrt S t c m S.pixels := by
    apply ext_getD default
    · rw [drawPixels_length]
    · intro j hj
      rw [drawPixels_length, drawPixels_length] at hj
      unfold drawPixels
      rw [foldl_plot_getD _ _ _ _ _ _ _ _ (by rw [foldl_plot_length]; exact hj),
        foldl_plot_getD _ _ _ _ _ _ _ _ hj]
      exact foldl_testPixel_idem c m _ _
  show ({ S with pixels := drawPixels fsqrt S t c m (drawPixels fsqrt S t c m S.pixels) }
      : Surface) = _
  rw [key]

/-- Pixel of a cell after the loops, when the cell's index is within the pixel list:
the depth tests of the sampled cells with that index, applied to the pixel before. -/
theorem pixelAt_drawTriangle (fsqrt : ℚ → ℚ) (S : Surface) (t : Triangle) (c : Char) (m : Int)
    (xx yy : Int) (hj : (yy * S.width + xx).toNat < S.pixels.length) :
    (drawTriangle fsqrt S t c m).pixelAt xx yy
      = (((S.sampledCells t).filter (fun cell => decide (0 ≤ cell.2 * S.width + cell.1 ∧
            (cell.2 * S.width + cell.1).toNat = (yy * S.width + xx).toNat))).map
          (fun cell => planeDepth fsqrt S t cell.1 cell.2)).foldl
          (fun q e => testPixel q e c m) (S.pixelAt xx yy) := by
  rw [drawTriangle_eq]
  exact foldl_plot_getD fsqrt S t c m _ _ _ hj

/-- C4. On a surface of width at least 1, every cell `(xx, yy)` with `0 ≤ xx < width`
and `0 ≤ yy` is, after `drawTriangle`, exactly unchanged, or it is a sampled cell that
now holds the triangle's plane depth `d` at the cell's sample point, the glyph `c` and
the material `m`, and `d` is strictly less than the depth stored before. The dimensions
of the surface do not change. -/
theorem drawTriangle_cell (fsqrt : ℚ → ℚ) (S : Surface) (t : Triangle) (c : Char) (m : Int)
    (xx yy : Int) (hw : 1 ≤ S.width) (hx : 0 ≤ xx ∧ xx < S.width) (hy : 0 ≤ yy) :
    (drawTriangle fsqrt S t c m).width = S.width ∧
    (drawTriangle fsqrt S t c m).height = S.height ∧
    (drawTriangle fsqrt S t c m).dx = S.dx ∧ (drawTriangle fsqrt S t c m).dy = S.dy ∧
    (drawTriangle fsqrt S t c m).pixels.length = S.pixels.length ∧
    ((drawTriangle fsqrt S t c m).pixelAt xx yy = S.pixelAt xx yy ∨
      ((xx, yy) ∈ S.sampledCells t ∧
        (drawTriangle fsqrt S t c m).pixelAt xx yy
          = ⟨some (planeDepth fsqrt S t xx yy), c, m⟩ ∧
        depthLess (planeDepth fsqrt S t xx yy) (S.pixelAt xx yy).z = true)) := by
  refine ⟨?_, ?_, ?_, ?_, ?_, ?_⟩
  · rw [drawTriangle_eq]
  · rw [drawTriangle_eq]
  · rw [drawTriangle_eq]
  · rw [drawTriangle_eq]
  · rw [drawTriangle_eq]; exact drawPixels_length _ _ _ _ _ _
  have h0 : 0 ≤ yy * S.width + xx := by
    have := Int.mul_nonneg hy (by omega : (0 : Int) ≤ S.width)
    omega
  by_cases hj : (yy * S.width + xx).toNat < S.pixels.length
  · rw [pixelAt_drawTriangle fsqrt S t c m xx yy hj]
    rcases foldl_testPixel_cases c m
      (((S.sampledCells t).filter (fun cell => decide (0 ≤ cell.2 * S.width + cell.1 ∧
        (cell.2 * S.width + cell.1).toNat = (yy * S.width + xx).toNat))).map
        (fun cell => planeDepth fsqrt S t cell.1 cell.2)) (S.pixelAt xx yy)
      with h | ⟨d, hd, h1, h2⟩
    · left; exact h
    · right
      obtain ⟨cell, hc, rfl⟩ := List.mem_map.mp hd
      have := filter_cells_eq S t xx yy hw hx h0 cell hc
      subst this
      exact ⟨(List.mem_filter.mp hc).1, h1, h2⟩
  · left
    rw [drawTriangle_eq]
    show (drawPixels fsqrt S t c m S.pixels).getD (yy * S.width + xx).toNat default
      = S.pixels.getD (yy * S.width + xx).toNat default
    rw [List.getD_eq_default _ _ (by rw [drawPixels_length]; omega),
      List.getD_eq_default _ _ (by omega)]

/-- Witness of C4: cell `(1, 2)` of `grid4` under `triNear`. -/
theorem drawTriangle_cell_witness :
    (1 ≤ grid4.width ∧ (0 ≤ (1 : Int) ∧ (1 : Int) < grid4.width) ∧ 0 ≤ (2 : Int)) ∧
    ((drawTriangle Rat.sqrt grid4 triNear glyphA 7).width = grid4.width ∧
    (drawTriangle Rat.sqrt grid4 triNear glyphA 7).height = grid4.height ∧
    (drawTriangle Rat.sqrt grid4 triNear glyphA 7).dx = grid4.dx ∧
    (drawTriangle Rat.sqrt grid4 triNear glyphA 7).dy = grid4.dy ∧
    (drawTriangle Rat.sqrt grid4 triNear glyphA 7).pixels.length = grid4.pixels.length ∧
    ((drawTriangle Rat.sqrt grid4 triNear glyphA 7).pixelAt 1 2 = grid4.pixelAt 1 2 ∨
      ((1, 2) ∈ grid4.sampledCells triNear ∧
        (drawTriangle Rat.sqrt grid4 triNear glyphA 7).pixelAt 1 2
          = ⟨some (planeDepth Rat.sqrt grid4 triNear 1 2), glyphA, 7⟩ ∧
        depthLess (planeDepth Rat.sqrt grid4 triNear 1 2) (grid4.pixelAt 1 2).z = true))) :=
  ⟨by decide!, drawTriangle_cell Rat.sqrt grid4 triNear glyphA 7 1 2 (by decide!) (by decide!)
    (by decide!)⟩

/-- The pixel of a sampled cell of a well-formed surface after `drawTriangle`: the
pixel before, put through one depth test with the plane depth of the cell. -/
theorem pixelAt_sampled (fsqrt : ℚ → ℚ) (S : Surface) (t : Triangle) (c : Char) (m : Int)
    (xx yy : Int) (hw : 1 ≤ S.width) (hh : 1 ≤ S.height)
    (hlen : S.pixels.length = (S.width * S.height).toNat)
    (hs : (xx, yy) ∈ S.sampledCells t) :
    (drawTriangle fsqrt S t c m).pixelAt xx yy
      = testPixel (S.pixelAt xx yy) (planeDepth fsqrt S t xx yy) c m := by
  obtain ⟨hx0, hx1, hy0, hy1⟩ := sampledCells_on_grid S t xx yy hw hh hs
  have h0 : 0 ≤ yy * S.width + xx := by
    have := Int.mul_nonneg hy0 (by omega : (0 : Int) ≤ S.width)
    omega
  have hj : (yy * S.width + xx).toNat < S.pixels.length := by
    rw [hlen]
    have h1 : (yy + 1) * S.width ≤ S.height * S.width :=
      Int.mul_le_mul_of_nonneg_right (by omega) (by omega)
    rw [Int.add_mul] at h1
    have h2 : S.width * S.height = S.height * S.width := Int.mul_comm _ _
    omega
  rw [pixelAt_drawTriangle fsqrt S t c m xx yy hj]
  apply foldl_testPixel_const
  · intro hnil
    have hmem : (xx, yy) ∈ (S.sampledCells t).filter
        (fun cell => decide (0 ≤ cell.2 * S.width + cell.1 ∧
          (cell.2 * S.width + cell.1).toNat = (yy * S.width + xx).toNat)) :=
      List.mem_filter.mpr ⟨hs, by simpa using h0⟩
    have := List.mem_map_of_mem (fun cell : Int × Int => planeDepth fsqrt S t cell.1 cell.2) hmem
    rw [hnil] at this
    simp at this
  · intro e he
    obtain ⟨cell, hc, rfl⟩ := List.mem_map.mp he
    rw [filter_cells_eq S t xx yy hw ⟨hx0, hx1⟩ h0 cell hc]

theorem pixelAt_clear (S : Surface) (xx yy : Int) : S.clear.pixelAt xx yy = default := by
  unfold pixelAt clear
  simp only [List.getD_eq_getElem?_getD, List.getElem?_map]
  cases S.pixels[(yy * S.width + xx).toNat]? <;> rfl

/-- C5. Nearest wins: on a cleared, well-formed surface, for a cell sampled by both
triangles `A` and `B` where the plane depth of `A` is strictly less than that of `B`,
the cell holds `A`'s depth, glyph and material after drawing `A` then `B` and also
after drawing `B` then `A`. -/
theorem nearest_wins (fsqrt : ℚ → ℚ) (S : Surface) (A B : Triangle) (cA cB : Char)
    (mA mB : Int) (xx yy : Int) (hw : 1 ≤ S.width) (hh : 1 ≤ S.height)
    (hlen : S.pixels.length = (S.width * S.height).toNat)
    (hA : (xx, yy) ∈ S.clear.sampledCells A) (hB : (xx, yy) ∈ S.clear.sampledCells B)
    (hd : planeDepth fsqrt S A xx yy < planeDepth fsqrt S B xx yy) :
    (drawTriangle fsqrt (drawTriangle fsqrt S.clear A cA mA) B cB mB).pixelAt xx yy
      = ⟨some (planeDepth fsqrt S A xx yy), cA, mA⟩ ∧
    (drawTriangle fsqrt (drawTriangle fsqrt S.clear B cB mB) A cA mA).pixelAt xx yy
      = ⟨some (planeDepth fsqrt S A xx yy), cA, mA⟩ := by
  have hlc : S.clear.pixels.length = (S.clear.width * S.clear.height).toNat := by
    simpa [clear] using hlen
  have geo : ∀ (T : Triangle) (c : Char) (m : Int),
      (drawTriangle fsqrt S.clear T c m).width = S.width ∧
      (drawTriangle fsqrt S.clear T c m).height = S.height ∧
      (drawTriangle fsqrt S.clear T c m).pixels.length
        = ((drawTriangle fsqrt S.clear T c m).width
          * (drawTriangle fsqrt S.clear T c m).height).toNat ∧
      (∀ U, (drawTriangle fsqrt S.clear T c m).sampledCells U = S.clear.sampledCells U) ∧
      (∀ U, planeDepth fsqrt (drawTriangle fsqrt S.clear T c m) U xx yy
        = planeDepth fsqrt S U xx yy) := by
    intro T c m
    rw [drawTriangle_eq]
    exact ⟨rfl, rfl, by rw [drawPixels_length]; exact hlc, fun _ => rfl, fun _ => rfl⟩
  have hpA : (drawTriangle fsqrt S.clear A cA mA).pixelAt xx yy
      = ⟨some (planeDepth fsqrt S A xx yy), cA, mA⟩ := by
    rw [pixelAt_sampled fsqrt S.clear A cA mA xx yy hw hh hlc hA, pixelAt_clear]
    rfl
  have hpB : (drawTriangle fsqrt S.clear B cB mB).pixelAt xx yy
      = ⟨some (planeDepth fsqrt S B xx yy), cB, mB⟩ := by
    rw [pixelAt_sampled fsqrt S.clear B cB mB xx yy hw hh hlc hB, pixelAt_clear]
    rfl
  constructor
  · obtain ⟨g1, g2, g3, g4, g5⟩ := geo A cA mA
    rw [pixelAt_sampled fsqrt _ B cB mB xx yy (by rw [g1]; exact hw) (by rw [g2]; exact hh) g3
      (by rw [g4]; exact hB), hpA, g5]
    unfold testPixel
    rw [if_neg]
    simp only [depthLess, decide_eq_true_eq, not_lt]
    exact hd.le
  · obtain ⟨g1, g2, g3, g4, g5⟩ := geo B cB mB
    rw [pixelAt_sampled fsqrt _ A cA mA xx yy (by rw [g1]; exact hw) (by rw [g2]; exact hh) g3
      (by rw [g4]; exact hA), hpB, g5]
    unfold testPixel
    rw [if_pos]
    simp only [depthLess, decide_eq_true_eq]
    exact hd

/-- Witness of C5: `triNear` and `triFar` on cell `(1, 2)` of `grid4`. -/
theorem nearest_wins_witness :
    (1 ≤ grid4.width ∧ 1 ≤ grid4.height ∧
      grid4.pixels.length = (grid4.width * grid4.height).toNat ∧
      (1, 2) ∈ grid4.clear.sampledCells triNear ∧ (1, 2) ∈ grid4.clear.sampledCells triFar ∧
      planeDepth Rat.sqrt grid4 triNear 1 2 < planeDepth Rat.sqrt grid4 triFar 1 2) ∧
    ((drawTriangle Rat.sqrt (drawTriangle Rat.sqrt grid4.clear triNear glyphA 1) triFar glyphB 2).pixelAt
        1 2 = ⟨some (planeDepth Rat.sqrt grid4 triNear 1 2), glyphA, 1⟩ ∧
    (drawTriangle Rat.sqrt (drawTriangle Rat.sqrt grid4.clear triFar glyphB 2) triNear glyphA 1).pixelAt
        1 2 = ⟨some (planeDepth Rat.sqrt grid4 triNear 1 2), glyphA, 1⟩) :=
  ⟨by decide!, nearest_wins Rat.sqrt grid4 triNear triFar glyphA glyphB 1 2 1 2 (by decide!)
    (by decide!) (by decide!) (by decide!) (by decide!) (by decide!)⟩

end Surface

/-! ## The rasterizer: sampled cells and the triangle -/

namespace Surface

theorem sortByX_cases (p1 p2 p3 : Vec3) :
    (sortByX p1 p2 p3).1.x ≤ (sortByX p1 p2 p3).2.1.x ∧
    (sortByX p1 p2 p3).2.1.x ≤ (sortByX p1 p2 p3).2.2.x ∧
    (sortByX p1 p2 p3 = (p1, p2, p3) ∨ sortByX p1 p2 p3 = (p1, p3, p2) ∨
      sortByX p1 p2 p3 = (p2, p1, p3) ∨ sortByX p1 p2 p3 = (p2, p3, p1) ∨
      sortByX p1 p2 p3 = (p3, p1, p2) ∨ sortByX p1 p2 p3 = (p3, p2, p1)) := by
  unfold sortByX
  by_cases h1 : p2.x < p1.x
  · simp only [h1, if_true]
    by_cases h2 : p3.x < p2.x
    · simp only [h2, if_true]; refine ⟨h2.le, h1.le, ?_⟩; simp
    · by_cases h3 : p3.x < p1.x
      · simp only [h2, h3, if_true, if_false]; refine ⟨not_lt.mp h2, h3.le, ?_⟩; simp
      · simp only [h2, h3, if_false]; refine ⟨h1.le, not_lt.mp h3, ?_⟩; simp
  · simp only [h1, if_false]
    by_cases h2 : p3.x < p1.x
    · simp only [h2, if_true]; refine ⟨h2.le, not_lt.mp h1, ?_⟩; simp
    · by_cases h3 : p3.x < p2.x
      · simp only [h2, h3, if_true, if_false]; refine ⟨not_lt.mp h2, h3.le, ?_⟩; simp
      · simp only [h2, h3, if_false]; refine ⟨not_lt.mp h1, not_lt.mp h3, ?_⟩; simp

theorem between_convex (u v y : ℚ) (h1 : min u v ≤ y) (h2 : y ≤ max u v) :
    ∃ l : ℚ, 0 ≤ l ∧ l ≤ 1 ∧ y = (1 - l) * u + l * v := by
  rcases lt_trichotomy u v with h | h | h
  · rw [min_eq_left h.le] at h1
    rw [max_eq_right h.le] at h2
    have hp : 0 < v - u := by linarith
    refine ⟨(y - u) / (v - u), div_nonneg (by linarith) hp.le,
      (div_le_one hp).mpr (by linarith), ?_⟩
    field_simp; ring
  · subst h
    simp only [min_self, max_self] at h1 h2
    exact ⟨0, le_refl _, zero_le_one, by linarith⟩
  · rw [min_eq_right h.le] at h1
    rw [max_eq_left h.le] at h2
    have hp : 0 < u - v := by linarith
    refine ⟨(u - y) / (u - v), div_nonneg (by linarith) hp.le,
      (div_le_one hp).mpr (by linarith), ?_⟩
    field_simp; ring

/-- A convex combination of the three corners lies in the closed triangle. -/
theorem inside_of_weights (t : Triangle) (x y w1 w2 w3 : ℚ) (h1 : 0 ≤ w1) (h2 : 0 ≤ w2)
    (h3 : 0 ≤ w3) (hs : w1 + w2 + w3 = 1)
    (hx : x = w1 * t.p1.x + w2 * t.p2.x + w3 * t.p3.x)
    (hy : y = w1 * t.p1.y + w2 * t.p2.y + w3 * t.p3.y) : insideTriangle t x y := by
  have e1 : (t.p2.x - t.p1.x) * (y - t.p1.y) - (t.p2.y - t.p1.y) * (x - t.p1.x)
      = w3 * ((t.p2.x - t.p1.x) * (t.p3.y - t.p1.y) - (t.p2.y - t.p1.y) * (t.p3.x - t.p1.x)) := by
    rw [hx, hy]
    linear_combination ((t.p2.x - t.p1.x) * t.p1.y - (t.p2.y - t.p1.y) * t.p1.x) * hs
  have e2 : (t.p3.x - t.p2.x) * (y - t.p2.y) - (t.p3.y - t.p2.y) * (x - t.p2.x)
      = w1 * ((t.p2.x - t.p1.x) * (t.p3.y - t.p1.y) - (t.p2.y - t.p1.y) * (t.p3.x - t.p1.x)) := by
    rw [hx, hy]
    linear_combination ((t.p3.x - t.p2.x) * t.p2.y - (t.p3.y - t.p2.y) * t.p2.x) * hs
  have e3 : (t.p1.x - t.p3.x) * (y - t.p3.y) - (t.p1.y - t.p3.y) * (x - t.p3.x)
      = w2 * ((t.p2.x - t.p1.x) * (t.p3.y - t.p1.y) - (t.p2.y - t.p1.y) * (t.p3.x - t.p1.x)) := by
    rw [hx, hy]
    linear_combination ((t.p1.x - t.p3.x) * t.p3.y - (t.p1.y - t.p3.y) * t.p3.x) * hs
  unfold insideTriangle
  rw [e1, e2, e3]
  rcases le_total 0
    ((t.p2.x - t.p1.x) * (t.p3.y - t.p1.y) - (t.p2.y - t.p1.y) * (t.p3.x - t.p1.x)) with hD | hD
  · exact Or.inl ⟨mul_nonneg h3 hD, mul_nonneg h1 hD, mul_nonneg h2 hD⟩
  · exact Or.inr ⟨mul_nonpos_of_nonneg_of_nonpos h3 hD, mul_nonpos_of_nonneg_of_nonpos h1 hD,
      mul_nonpos_of_nonneg_of_nonpos h2 hD⟩

/-- The section of column `x` between the two scanline intersections consists of convex
combinations of the sorted corners `a`, `b`, `c`. -/
theorem scan_weights (a b c : Vec3) (x y : ℚ)
    (hax : a.x < x) (hxc : x ≤ c.x)
    (hy1 : min (if x ≤ b.x then getY a b x else getY b c x) (getY a c x) ≤ y)
    (hy2 : y ≤ max (if x ≤ b.x then getY a b x else getY b c x) (getY a c x)) :
    ∃ wa wb wc : ℚ, 0 ≤ wa ∧ 0 ≤ wb ∧ 0 ≤ wc ∧ wa + wb + wc = 1 ∧
      x = wa * a.x + wb * b.x + wc * c.x ∧ y = wa * a.y + wb * b.y + wc * c.y := by
  obtain ⟨l, hl0, hl1, hl⟩ := between_convex _ _ y hy1 hy2
  have hac : 0 < c.x - a.x := by linarith
  have hs0 : 0 ≤ (x - a.x) / (c.x - a.x) := div_nonneg (by linarith) hac.le
  have hs1 : (x - a.x) / (c.x - a.x) ≤ 1 := (div_le_one hac).mpr (by linarith)
  have hs : (x - a.x) / (c.x - a.x) * (c.x - a.x) = x - a.x := div_mul_cancel₀ _ hac.ne'
  have hY2 : getY a c x = a.y + (c.y - a.y) * ((x - a.x) / (c.x - a.x)) := by
    unfold getY; rw [if_neg (by intro h; rw [h] at hac; simp at hac)]; ring
  rw [hY2] at hl
  generalize (x - a.x) / (c.x - a.x) = s at hs0 hs1 hs hl
  by_cases hxb : x ≤ b.x
  · rw [if_pos hxb] at hl
    have hba : 0 < b.x - a.x := by linarith
    have hr0 : 0 ≤ (x - a.x) / (b.x - a.x) := div_nonneg (by linarith) hba.le
    have hr1 : (x - a.x) / (b.x - a.x) ≤ 1 := (div_le_one hba).mpr (by linarith)
    have hr : (x - a.x) / (b.x - a.x) * (b.x - a.x) = x - a.x := div_mul_cancel₀ _ hba.ne'
    have hY1 : getY a b x = a.y + (b.y - a.y) * ((x - a.x) / (b.x - a.x)) := by
      unfold getY; rw [if_neg (by intro h; rw [h] at hba; simp at hba)]; ring
    rw [hY1] at hl
    generalize (x - a.x) / (b.x - a.x) = r at hr0 hr1 hr hl
    refine ⟨(1 - l) * (1 - r) + l * (1 - s), (1 - l) * r, l * s, ?_, ?_, ?_, by ring, ?_, ?_⟩
    · exact add_nonneg (mul_nonneg (by linarith) (by linarith))
        (mul_nonneg hl0 (by linarith))
    · exact mul_nonneg (by linarith) hr0
    · exact mul_nonneg hl0 hs0
    · linear_combination (-(1 - l)) * hr - l * hs
    · rw [hl]; ring
  · rw [if_neg hxb] at hl
    have hxb2 : b.x < x := not_le.mp hxb
    have hcb : 0 < c.x - b.x := by linarith
    have hr0 : 0 ≤ (x - b.x) / (c.x - b.x) := div_nonneg (by linarith) hcb.le
    have hr1 : (x - b.x) / (c.x - b.x) ≤ 1 := (div_le_one hcb).mpr (by linarith)
    have hr : (x - b.x) / (c.x - b.x) * (c.x - b.x) = x - b.x := div_mul_cancel₀ _ hcb.ne'
    have hY1 : getY b c x = b.y + (c.y - b.y) * ((x - b.x) / (c.x - b.x)) := by
      unfold getY; rw [if_neg (by intro h; rw [h] at hcb; simp at hcb)]; ring
    rw [hY1] at hl
    generalize (x - b.x) / (c.x - b.x) = r at hr0 hr1 hr hl
    refine ⟨l * (1 - s), (1 - l) * (1 - r), (1 - l) * r + l * s, ?_, ?_, ?_, by ring, ?_, ?_⟩
    · exact mul_nonneg hl0 (by linarith)
    · exact mul_nonneg (by linarith) (by linarith)
    · exact add_nonneg (mul_nonneg (by linarith) hr0) (mul_nonneg hl0 hs0)
    · linear_combination (-(1 - l)) * hr - l * hs
    · rw [hl]; ring

theorem sample_after_floor (v d : ℚ) (n : Int) (hd : 0 < d) (h : ⌊(v + d / 2) / d⌋ ≤ n) :
    v < ((n : ℚ) + 1 / 2) * d := by
  have h1 : (v + d / 2) / d < (⌊(v + d / 2) / d⌋ : ℚ) + 1 := Int.lt_floor_add_one _
  have h2 : ((⌊(v + d / 2) / d⌋ : Int) : ℚ) ≤ (n : ℚ) := by exact_mod_cast h
  have h3 : (v + d / 2) / d < (n : ℚ) + 1 := by linarith
  rw [div_lt_iff₀ hd] at h3
  linarith

theorem sample_before_floor (v d : ℚ) (n : Int) (hd : 0 < d) (h : n ≤ ⌊(v - d / 2) / d⌋) :
    ((n : ℚ) + 1 / 2) * d ≤ v := by
  have h1 : ((⌊(v - d / 2) / d⌋ : Int) : ℚ) ≤ (v - d / 2) / d := Int.floor_le _
  have h2 : (n : ℚ) ≤ ((⌊(v - d / 2) / d⌋ : Int) : ℚ) := by exact_mod_cast h
  have h3 : (n : ℚ) ≤ (v - d / 2) / d := le_trans h2 h1
  rw [le_div_iff₀ hd] at h3
  linarith

/-- A cell within the unclamped column and row ranges of the scan has its centre in the
closed triangle. -/
theorem centre_inside_of_raw (S : Surface) (t : Triangle) (xx yy : Int)
    (hdx : 0 < S.dx) (hdy : 0 < S.dy)
    (hx1 : S.rawXStart t ≤ xx) (hx2 : xx ≤ S.rawXEnd t)
    (hy1 : S.rawYStart t xx ≤ yy) (hy2 : yy ≤ S.rawYEnd t xx) :
    insideTriangle t (S.sampleX xx) (S.sampleY yy) := by
  obtain ⟨-, -, hperm⟩ := sortByX_cases t.p1 t.p2 t.p3
  have hax := sample_after_floor _ _ _ hdx hx1
  have hxc := sample_before_floor _ _ _ hdx hx2
  have hya := sample_after_floor _ _ _ hdy hy1
  have hyb := sample_before_floor _ _ _ hdy hy2
  obtain ⟨wa, wb, wc, ha, hb, hc, hsum, hx, hy⟩ :=
    scan_weights (sortByX t.p1 t.p2 t.p3).1 (sortByX t.p1 t.p2 t.p3).2.1
      (sortByX t.p1 t.p2 t.p3).2.2 (S.sampleX xx) (S.sampleY yy) hax hxc hya.le hyb
  rcases hperm with h | h | h | h | h | h <;> rw [h] at hx hy <;> simp only at hx hy
  · exact inside_of_weights t _ _ wa wb wc ha hb hc hsum hx hy
  · exact inside_of_weights t _ _ wa wc wb ha hc hb (by linarith) (by linarith) (by linarith)
  · exact inside_of_weights t _ _ wb wa wc hb ha hc (by linarith) (by linarith) (by linarith)
  · exact inside_of_weights t _ _ wc wa wb hc ha hb (by linarith) (by linarith) (by linarith)
  · exact inside_of_weights t _ _ wb wc wa hb hc ha (by linarith) (by linarith) (by linarith)
  · exact inside_of_weights t _ _ wc wb wa hc hb ha (by linarith) (by linarith) (by linarith)

theorem le_clamp (v lo hi : Int) (h : v ≤ hi) : v ≤ clamp v lo hi := by
  unfold clamp; split_ifs <;> omega

theorem clamp_le (v lo hi : Int) (h : lo ≤ v) : clamp v lo hi ≤ v := by
  unfold clamp; split_ifs <;> omega

end Surface

/-! ## The triangulator: which indices are emitted -/

theorem splitFrom_cover {α : Type} (i2 k : Nat) (xs : List α) :
    ∀ (r : Nat) (side : Bool), ∀ x ∈ xs,
      x ∈ (splitFrom i2 k r side xs).1 ∨ x ∈ (splitFrom i2 k r side xs).2 := by
  induction xs with
  | nil => intro r side x hx; simp at hx
  | cons a xs ih =>
    intro r side x hx
    unfold splitFrom
    rcases List.mem_cons.mp hx with h | h
    · subst h
      split_ifs <;> simp
    · split_ifs
      · rcases ih (r + 1) (!side) x h with h1 | h1
        · exact Or.inl (List.mem_cons_of_mem _ h1)
        · exact Or.inr (List.mem_cons_of_mem _ h1)
      · rcases ih (r + 1) side x h with h1 | h1
        · exact Or.inl (List.mem_cons_of_mem _ h1)
        · exact Or.inr h1
      · rcases ih (r + 1) side x h with h1 | h1
        · exact Or.inl h1
        · exact Or.inr (List.mem_cons_of_mem _ h1)

theorem mem_eraseIdx_or {α : Type} (d : α) (l : List α) :
    ∀ (i : Nat) (x : α), x ∈ l → x = l.getD i d ∨ x ∈ l.eraseIdx i := by
  induction l with
  | nil => intro i x hx; simp at hx
  | cons a l ih =>
    intro i x hx
    cases i with
    | zero =>
      rcases List.mem_cons.mp hx with h | h
      · left; subst h; rfl
      · right; simpa using h
    | succ i =>
      rcases List.mem_cons.mp hx with h | h
      · right; subst h; simp
      · rcases ih i x h with h1 | h1
        · left; rw [h1]; rfl
        · right; simp only [List.eraseIdx_cons_succ]; exact List.mem_cons_of_mem _ h1

/-- Every entry of `idxs` is emitted: the ear branch emits the clipped position and
keeps the others, the split branch puts every position into one of the halves. -/
theorem emitted_cover (fuel : Nat) :
    ∀ (vecs : List Vec3) (idxs : List Int) (orient : Bool), vecs.length ≤ fuel + 3 →
      3 ≤ vecs.length → idxs.length = vecs.length →
      ∀ out, triangularizeRecurse fuel vecs idxs orient = some out → ∀ x ∈ idxs, x ∈ out := by
  induction fuel with
  | zero =>
    intro vecs idxs orient h hn hl out ho x hx
    unfold triangularizeRecurse at ho
    have h2 : vecs.length = 3 := by omega
    simp [h2] at ho; subst ho
    rw [h2] at hl
    match idxs, hl, hx with
    | [a, b, c], _, hx => simpa using hx
  | succ fuel ih =>
    intro vecs idxs orient h hn hl out ho x hx
    unfold triangularizeRecurse at ho
    have h1 : ¬ vecs.length < 3 := by omega
    by_cases h2 : vecs.length = 3
    · simp [h2] at ho; subst ho
      rw [h2] at hl
      match idxs, hl, hx with
      | [a, b, c], _, hx => simpa using hx
    · simp only [h1, h2, if_false] at ho
      obtain ⟨hi2, -, -⟩ := findEar_spec vecs orient (by omega)
      cases hk : farthestInside vecs (findEar vecs orient).1 (findEar vecs orient).2.1
          (findEar vecs orient).2.2 with
      | none =>
        simp only [hk, Option.map_eq_some'] at ho
        obtain ⟨rest, hr, hout⟩ := ho
        subst hout
        have hlv : (vecs.eraseIdx (findEar vecs orient).2.1).length = vecs.length - 1 :=
          List.length_eraseIdx_of_lt hi2
        have hli : (idxs.eraseIdx (findEar vecs orient).2.1).length = vecs.length - 1 := by
          rw [List.length_eraseIdx_of_lt (by omega), hl]
        rcases mem_eraseIdx_or 0 idxs (findEar vecs orient).2.1 x hx with hx1 | hx1
        · rw [hx1]; simp
        · have := ih _ _ orient (by omega) (by omega) (by omega) rest hr x hx1
          simp [this]
      | some k =>
        simp only [hk] at ho
        obtain ⟨a1, a2, b1, b2, -⟩ := split_sizes vecs orient vecs k (by omega) rfl hk
        have c1 : (splitPoly (findEar vecs orient).2.1 k idxs).1.length
            = (splitPoly (findEar vecs orient).2.1 k vecs).1.length :=
          (splitFrom_length_congr (findEar vecs orient).2.1 k idxs vecs 0 false hl).1
        have c2 : (splitPoly (findEar vecs orient).2.1 k idxs).2.length
            = (splitPoly (findEar vecs orient).2.1 k vecs).2.length :=
          (splitFrom_length_congr (findEar vecs orient).2.1 k idxs vecs 0 false hl).2
        obtain ⟨outA, hA, -⟩ := triangularizeRecurse_length fuel
          (splitPoly (findEar vecs orient).2.1 k vecs).1
          (splitPoly (findEar vecs orient).2.1 k idxs).1 orient (by omega)
        obtain ⟨outB, hB, -⟩ := triangularizeRecurse_length fuel
          (splitPoly (findEar vecs orient).2.1 k vecs).2
          (splitPoly (findEar vecs orient).2.1 k idxs).2 orient (by omega)
        simp only [hA, hB, Option.some.injEq] at ho
        subst ho
        rcases splitFrom_cover (findEar vecs orient).2.1 k idxs 0 false x hx with hx1 | hx1
        · exact List.mem_append_left _ (ih _ _ orient (by omega) a1 c1 outA hA x hx1)
        · exact List.mem_append_right _ (ih _ _ orient (by omega) b1 c2 outB hB x hx1)

theorem mem_triples (m : Nat) : ∀ (xs : List Int), xs.length = 3 * m → ∀ x ∈ xs,
    ∃ t ∈ triples xs, x = t.1 ∨ x = t.2.1 ∨ x = t.2.2 := by
  induction m with
  | zero =>
    intro xs h x hx
    have : xs = [] := List.length_eq_zero.mp (by omega)
    subst this; simp at hx
  | succ m ih =>
    intro xs h x hx
    match xs, h, hx with
    | a :: b :: c :: rest, h, hx =>
      have hr : rest.length = 3 * m := by simp at h; omega
      simp only [List.mem_cons] at hx
      rcases hx with hx | hx | hx | hx
      · exact ⟨(a, b, c), by simp [triples], Or.inl hx⟩
      · exact ⟨(a, b, c), by simp [triples], Or.inr (Or.inl hx)⟩
      · exact ⟨(a, b, c), by simp [triples], Or.inr (Or.inr hx)⟩
      · obtain ⟨t, ht, h3⟩ := ih rest hr x hx
        exact ⟨t, by simp [triples, ht], h3⟩

/-- C11. For a polygon of `n ≥ 3` vertices with its source index list `idxs` (one index
per vertex), the triangulator returns; every index of every emitted triple is an
element of `idxs`, and every element of `idxs` occurs in at least one emitted triple. -/
theorem emitted_indices (vecs : List Vec3) (idxs : List Int) (orient : Bool)
    (hn : 3 ≤ vecs.length) (hl : idxs.length = vecs.length) :
    ∃ out, triangularizeRecurse vecs.length vecs idxs orient = some out ∧
      (∀ t ∈ triples out, t.1 ∈ idxs ∧ t.2.1 ∈ idxs ∧ t.2.2 ∈ idxs) ∧
      (∀ x ∈ idxs, ∃ t ∈ triples out, x = t.1 ∨ x = t.2.1 ∨ x = t.2.2) := by
  obtain ⟨out, h1, h2⟩ := triangularizeRecurse_length vecs.length vecs idxs orient (by omega)
  refine ⟨out, h1, fun t ht => ?_, fun x hx => ?_⟩
  · rcases emitted_cyclic _ vecs idxs orient (by omega) hl out h1 t ht with h | h | h <;>
      exact ⟨h.subset (by simp), h.subset (by simp), h.subset (by simp)⟩
  · exact mem_triples _ out h2 x
      (emitted_cover _ vecs idxs orient (by omega) hn hl out h1 x hx)

/-- Witness of C11 on the unit square with indices 0..3: the two triangles `(1,2,3)`
and `(0,1,3)` use all four indices and share exactly the indices 1 and 3 of one
diagonal. -/
theorem emitted_indices_witness :
    (3 ≤ squareVerts.length ∧ ([0, 1, 2, 3] : List Int).length = squareVerts.length ∧
      triangularizeRecurse squareVerts.length squareVerts [0, 1, 2, 3] false
        = some [1, 2, 3, 0, 1, 3] ∧
      ([1, 2, 3] : List Int).filter (fun i => decide (i ∈ ([0, 1, 3] : List Int))) = [1, 3]) ∧
    ∃ out, triangularizeRecurse squareVerts.length squareVerts [0, 1, 2, 3] false = some out ∧
      (∀ t ∈ triples out, t.1 ∈ ([0, 1, 2, 3] : List Int) ∧ t.2.1 ∈ ([0, 1, 2, 3] : List Int) ∧
        t.2.2 ∈ ([0, 1, 2, 3] : List Int)) ∧
      (∀ x ∈ ([0, 1, 2, 3] : List Int), ∃ t ∈ triples out, x = t.1 ∨ x = t.2.1 ∨ x = t.2.2) :=
  ⟨by decide!, emitted_indices squareVerts [0, 1, 2, 3] false (by decide!) (by decide!)⟩

/-! ## The triangulator: the vertex chosen for a split -/

theorem insideStep_inv (vecs : List Vec3) (i1 i2 i3 : Nat) (pre : List Nat)
    (st : Option Nat × ℚ) (a : Nat)
    (h0 : st.1 = none → ∀ j ∈ pre, ¬ (j ≠ i1 ∧ j ≠ i2 ∧ j ≠ i3 ∧
      pointInTriangle (vecs.getD j default) (vecs.getD i1 default) (vecs.getD i2 default)
        (vecs.getD i3 default) = true))
    (h1 : ∀ k, st.1 = some k →
      st.2 = rankValue (vecs.getD i1 default) (vecs.getD i3 default) (vecs.getD k default) ∧
      ∀ j ∈ pre, j ≠ i1 → j ≠ i2 → j ≠ i3 →
        pointInTriangle (vecs.getD j default) (vecs.getD i1 default) (vecs.getD i2 default)
          (vecs.getD i3 default) = true →
        rankValue (vecs.getD i1 default) (vecs.getD i3 default) (vecs.getD j default)
          ≤ rankValue (vecs.getD i1 default) (vecs.getD i3 default) (vecs.getD k default)) :
    ((insideStep vecs i1 i2 i3 st a).1 = none → ∀ j ∈ pre ++ [a], ¬ (j ≠ i1 ∧ j ≠ i2 ∧ j ≠ i3 ∧
      pointInTriangle (vecs.getD j default) (vecs.getD i1 default) (vecs.getD i2 default)
        (vecs.getD i3 default) = true)) ∧
    (∀ k, (insideStep vecs i1 i2 i3 st a).1 = some k →
      (insideStep vecs i1 i2 i3 st a).2
        = rankValue (vecs.getD i1 default) (vecs.getD i3 default) (vecs.getD k default) ∧
      ∀ j ∈ pre ++ [a], j ≠ i1 → j ≠ i2 → j ≠ i3 →
        pointInTriangle (vecs.getD j default) (vecs.getD i1 default) (vecs.getD i2 default)
          (vecs.getD i3 default) = true →
        rankValue (vecs.getD i1 default) (vecs.getD i3 default) (vecs.getD j default)
          ≤ rankValue (vecs.getD i1 default) (vecs.getD i3 default) (vecs.getD k default)) := by
  unfold insideStep
  simp only []
  split_ifs with c1 c2 c3
  · -- `k` is one of the three corners: skipped
    refine ⟨fun hn j hj => ?_, fun k hk => ⟨(h1 k hk).1, fun j hj => ?_⟩⟩
    · rcases List.mem_append.mp hj with hj | hj
      · exact h0 hn j hj
      · rw [List.mem_singleton.mp hj]
        intro ⟨a1, a2, a3, _⟩
        rcases c1 with c | c | c <;> contradiction
    · rcases List.mem_append.mp hj with hj | hj
      · exact (h1 k hk).2 j hj
      · rw [List.mem_singleton.mp hj]
        intro a1 a2 a3
        rcases c1 with c | c | c <;> contradiction
  · -- inside, and the new maximum
    refine ⟨fun hn => by simp at hn, fun k hk => ?_⟩
    have hka : a = k := Option.some.inj hk
    subst hka
    refine ⟨rfl, fun j hj a1 a2 a3 hp => ?_⟩
    rcases List.mem_append.mp hj with hj | hj
    · rcases c3 with c | c
      · exact absurd ⟨a1, a2, a3, hp⟩ (h0 c j hj)
      · cases hs : st.1 with
        | none => exact absurd ⟨a1, a2, a3, hp⟩ (h0 hs j hj)
        | some k0 =>
          have := (h1 k0 hs).2 j hj a1 a2 a3 hp
          have e := (h1 k0 hs).1
          have c' : st.2 < rankValue (vecs.getD i1 default) (vecs.getD i3 default)
              (vecs.getD a default) := c
          linarith
    · rw [List.mem_singleton.mp hj]
  · -- inside, but not farther than the current maximum
    have hs : ∃ k0, st.1 = some k0 := by
      cases hs : st.1 with
      | none => exact absurd (Or.inl hs) c3
      | some k0 => exact ⟨k0, rfl⟩
    obtain ⟨k0, hk0⟩ := hs
    refine ⟨fun hn => by rw [hk0] at hn; simp at hn, fun k hk => ⟨(h1 k hk).1, fun j hj => ?_⟩⟩
    rcases List.mem_append.mp hj with hj | hj
    · exact (h1 k hk).2 j hj
    · rw [List.mem_singleton.mp hj]
      intro _ _ _ _
      have e := (h1 k hk).1
      have c' : ¬ st.2 < rankValue (vecs.getD i1 default) (vecs.getD i3 default)
          (vecs.getD a default) := fun h => c3 (Or.inr h)
      linarith [not_lt.mp c']
  · -- not inside
    refine ⟨fun hn j hj => ?_, fun k hk => ⟨(h1 k hk).1, fun j hj => ?_⟩⟩
    · rcases List.mem_append.mp hj with hj | hj
      · exact h0 hn j hj
      · rw [List.mem_singleton.mp hj]
        intro ⟨_, _, _, hp⟩
        exact c2 hp
    · rcases List.mem_append.mp hj with hj | hj
      · exact (h1 k hk).2 j hj
      · rw [List.mem_singleton.mp hj]
        intro _ _ _ hp
        exact absurd hp c2

theorem foldl_insideStep_inv (vecs : List Vec3) (i1 i2 i3 : Nat) (l : List Nat) :
    ∀ (pre : List Nat) (st : Option Nat × ℚ),
    (st.1 = none → ∀ j ∈ pre, ¬ (j ≠ i1 ∧ j ≠ i2 ∧ j ≠ i3 ∧
      pointInTriangle (vecs.getD j default) (vecs.getD i1 default) (vecs.getD i2 default)
        (vecs.getD i3 default) = true)) →
    (∀ k, st.1 = some k →
      st.2 = rankValue (vecs.getD i1 default) (vecs.getD i3 default) (vecs.getD k default) ∧
      ∀ j ∈ pre, j ≠ i1 → j ≠ i2 → j ≠ i3 →
        pointInTriangle (vecs.getD j default) (vecs.getD i1 default) (vecs.getD i2 default)
          (vecs.getD i3 default) = true →
        rankValue (vecs.getD i1 default) (vecs.getD i3 default) (vecs.getD j default)
          ≤ rankValue (vecs.getD i1 default) (vecs.getD i3 default) (vecs.getD k default)) →
    ((l.foldl (insideStep vecs i1 i2 i3) st).1 = none → ∀ j ∈ pre ++ l,
      ¬ (j ≠ i1 ∧ j ≠ i2 ∧ j ≠ i3 ∧
      pointInTriangle (vecs.getD j default) (vecs.getD i1 default) (vecs.getD i2 default)
        (vecs.getD i3 default) = true)) ∧
    (∀ k, (l.foldl (insideStep vecs i1 i2 i3) st).1 = some k →
      ∀ j ∈ pre ++ l, j ≠ i1 → j ≠ i2 → j ≠ i3 →
        pointInTriangle (vecs.getD j default) (vecs.getD i1 default) (vecs.getD i2 default)
          (vecs.getD i3 default) = true →
        rankValue (vecs.getD i1 default) (vecs.getD i3 default) (vecs.getD j default)
          ≤ rankValue (vecs.getD i1 default) (vecs.getD i3 default) (vecs.getD k default)) := by
  induction l with
  | nil =>
    intro pre st h0 h1
    simp only [List.foldl_nil, List.append_nil]
    exact ⟨h0, fun k hk => (h1 k hk).2⟩
  | cons a l ih =>
    intro pre st h0 h1
    obtain ⟨g0, g1⟩ := insideStep_inv vecs i1 i2 i3 pre st a h0 h1
    have := ih (pre ++ [a]) (insideStep vecs i1 i2 i3 st a) g0 g1
    simpa using this

theorem rankValue_eq (v1 v3 p : Vec3) : rankValue v1 v3 p = |cross2 v1 v3 p| := by
  unfold rankValue cross2
  congr 1
  ring

theorem perpDistSq_le (v1 v3 p : Vec3) (s : ℚ) :
    perpDistSq v1 v3 p ≤ distSq p (linePoint v1 v3 s) := by
  have key : (cross2 v1 v3 p) ^ 2 ≤ distSq p (linePoint v1 v3 s) * distSq v3 v1 := by
    have : distSq p (linePoint v1 v3 s) * distSq v3 v1 - (cross2 v1 v3 p) ^ 2
        = ((p.x - v1.x) * (v3.x - v1.x) + (p.y - v1.y) * (v3.y - v1.y)
            - s * distSq v3 v1) ^ 2 := by
      unfold distSq linePoint cross2; ring
    nlinarith [sq_nonneg ((p.x - v1.x) * (v3.x - v1.x) + (p.y - v1.y) * (v3.y - v1.y)
      - s * distSq v3 v1)]
  have hL : 0 ≤ distSq v3 v1 := by unfold distSq; positivity
  have hd : 0 ≤ distSq p (linePoint v1 v3 s) := by unfold distSq; positivity
  unfold perpDistSq
  rcases hL.lt_or_eq with h | h
  · rw [div_le_iff₀ h]; exact key
  · rw [← h]; simpa using hd

theorem perpDistSq_attained (v1 v3 p : Vec3) (h : distSq v3 v1 ≠ 0) :
    perpDistSq v1 v3 p = distSq p (linePoint v1 v3
      (((p.x - v1.x) * (v3.x - v1.x) + (p.y - v1.y) * (v3.y - v1.y)) / distSq v3 v1)) := by
  unfold perpDistSq
  rw [div_eq_iff h]
  have e : ((p.x - v1.x) * (v3.x - v1.x) + (p.y - v1.y) * (v3.y - v1.y)) / distSq v3 v1
      * distSq v3 v1 = (p.x - v1.x) * (v3.x - v1.x) + (p.y - v1.y) * (v3.y - v1.y) :=
    div_mul_cancel₀ _ h
  generalize ((p.x - v1.x) * (v3.x - v1.x) + (p.y - v1.y) * (v3.y - v1.y)) / distSq v3 v1 = s
    at e
  unfold distSq linePoint cross2 at *
  simp only
  linear_combination (((p.x - v1.x) * (v3.x - v1.x) + (p.y - v1.y) * (v3.y - v1.y))
    - s * ((v3.x - v1.x) ^ 2 + (v3.y - v1.y) ^ 2)) * e

theorem perpDistSq_mono (v1 v3 p q : Vec3) (h : rankValue v1 v3 p ≤ rankValue v1 v3 q) :
    perpDistSq v1 v3 p ≤ perpDistSq v1 v3 q := by
  rw [rankValue_eq, rankValue_eq] at h
  have h2 : (cross2 v1 v3 p) ^ 2 ≤ (cross2 v1 v3 q) ^ 2 := sq_le_sq.mpr h
  have hL : 0 ≤ distSq v3 v1 := by unfold distSq; positivity
  unfold perpDistSq
  exact div_le_div_of_nonneg_right h2 hL

theorem rankValue_sq (v1 v3 p : Vec3) :
    rankValue v1 v3 p ^ 2 = distSq v3 v1 * perpDistSq v1 v3 p := by
  rw [rankValue_eq, sq_abs]
  unfold perpDistSq
  by_cases h : distSq v3 v1 = 0
  · rw [h, zero_mul]
    have hx : (v3.x - v1.x) ^ 2 = 0 := by
      unfold distSq at h
      nlinarith [sq_nonneg (v3.x - v1.x), sq_nonneg (v3.y - v1.y)]
    have hy : (v3.y - v1.y) ^ 2 = 0 := by
      unfold distSq at h
      nlinarith [sq_nonneg (v3.x - v1.x), sq_nonneg (v3.y - v1.y)]
    have hx0 : v3.x - v1.x = 0 := pow_eq_zero_iff (two_ne_zero) |>.mp hx
    have hy0 : v3.y - v1.y = 0 := pow_eq_zero_iff (two_ne_zero) |>.mp hy
    unfold cross2
    rw [hx0, hy0]; ring
  · rw [mul_div_cancel₀ _ h]

theorem onSegment_iff (a b p : Vec3) :
    onSegment a b p = true ↔ cross2 a b p = 0 ∧ min a.x b.x ≤ p.x ∧ p.x ≤ max a.x b.x ∧
      min a.y b.y ≤ p.y ∧ p.y ≤ max a.y b.y := by
  unfold onSegment; exact decide_eq_true_iff

theorem dart_onSegment_top (x y : ℚ) (hx0 : 0 ≤ x) (hx2 : x ≤ 2) (hy : y = 2) :
    onSegment (dartVerts.getD 3 default) (dartVerts.getD ((3 + 1) % dartVerts.length) default)
      ⟨x, y, 0⟩ = true := by
  subst hy
  have e1 : dartVerts.getD 3 default = ⟨2, 2, 0⟩ := rfl
  have e2 : dartVerts.getD ((3 + 1) % dartVerts.length) default = ⟨0, 2, 0⟩ := rfl
  rw [e1, e2, onSegment_iff]
  dsimp only [cross2]
  norm_num [min_def, max_def]
  exact ⟨hx0, hx2⟩

theorem dart_onSegment_lower (x y : ℚ) (hy0 : 0 ≤ y) (hy1 : y ≤ 1) (h : x + y = 2) :
    onSegment (dartVerts.getD 1 default) (dartVerts.getD ((1 + 1) % dartVerts.length) default)
      ⟨x, y, 0⟩ = true := by
  have e1 : dartVerts.getD 1 default = ⟨2, 0, 0⟩ := rfl
  have e2 : dartVerts.getD ((1 + 1) % dartVerts.length) default = ⟨1, 1, 0⟩ := rfl
  rw [e1, e2, onSegment_iff]
  dsimp only [cross2]
  norm_num [min_def, max_def]
  refine ⟨by linarith, by linarith, by linarith, hy0, hy1⟩

theorem dart_onSegment_upper (x y : ℚ) (hy1 : 1 ≤ y) (hy2 : y ≤ 2) (h : x = y) :
    onSegment (dartVerts.getD 2 default) (dartVerts.getD ((2 + 1) % dartVerts.length) default)
      ⟨x, y, 0⟩ = true := by
  subst h
  have e1 : dartVerts.getD 2 default = ⟨1, 1, 0⟩ := rfl
  have e2 : dartVerts.getD ((2 + 1) % dartVerts.length) default = ⟨2, 2, 0⟩ := rfl
  rw [e1, e2, onSegment_iff]
  dsimp only [cross2]
  norm_num [min_def, max_def]
  exact ⟨hy1, hy2, hy1, hy2⟩

theorem crossesRay_iff (a b p : Vec3) :
    crossesRay a b p = true ↔ ((a.y > p.y ∧ ¬ b.y > p.y) ∨ (¬ a.y > p.y ∧ b.y > p.y)) ∧
      p.x < a.x + (p.y - a.y) * (b.x - a.x) / (b.y - a.y) := by
  unfold crossesRay
  simp only [Bool.and_eq_true, decide_eq_true_eq, bne_iff_ne, ne_eq, decide_eq_decide]
  constructor
  · rintro ⟨h1, h2⟩
    refine ⟨?_, h2⟩
    by_cases ha : a.y > p.y <;> by_cases hb : b.y > p.y
    · exact absurd (iff_of_true ha hb) h1
    · exact Or.inl ⟨ha, hb⟩
    · exact Or.inr ⟨ha, hb⟩
    · exact absurd (iff_of_false ha hb) h1
  · rintro ⟨h1 | h1, h2⟩
    · exact ⟨fun h => h1.2 (h.mp h1.1), h2⟩
    · exact ⟨fun h => h1.1 (h.mpr h1.2), h2⟩

/-- Which edges of the dart pentagon the ray from `(x, y)` crosses, for `0 ≤ x`. -/
theorem dart_crossings (x y : ℚ) (hx0 : 0 ≤ x) :
    crossesRay (dartVerts.getD 0 default) (dartVerts.getD ((0 + 1) % dartVerts.length) default)
      ⟨x, y, 0⟩ = false ∧
    crossesRay (dartVerts.getD 1 default) (dartVerts.getD ((1 + 1) % dartVerts.length) default)
      ⟨x, y, 0⟩ = decide (0 ≤ y ∧ y < 1 ∧ x < 2 - y) ∧
    crossesRay (dartVerts.getD 2 default) (dartVerts.getD ((2 + 1) % dartVerts.length) default)
      ⟨x, y, 0⟩ = decide (1 ≤ y ∧ y < 2 ∧ x < y) ∧
    crossesRay (dartVerts.getD 3 default) (dartVerts.getD ((3 + 1) % dartVerts.length) default)
      ⟨x, y, 0⟩ = false ∧
    crossesRay (dartVerts.getD 4 default) (dartVerts.getD ((4 + 1) % dartVerts.length) default)
      ⟨x, y, 0⟩ = false := by
  have e0 : dartVerts.getD 0 default = ⟨0, 0, 0⟩ := rfl
  have e0' : dartVerts.getD ((0 + 1) % dartVerts.length) default = ⟨2, 0, 0⟩ := rfl
  have e1 : dartVerts.getD 1 default = ⟨2, 0, 0⟩ := rfl
  have e1' : dartVerts.getD ((1 + 1) % dartVerts.length) default = ⟨1, 1, 0⟩ := rfl
  have e2 : dartVerts.getD 2 default = ⟨1, 1, 0⟩ := rfl
  have e2' : dartVerts.getD ((2 + 1) % dartVerts.length) default = ⟨2, 2, 0⟩ := rfl
  have e3 : dartVerts.getD 3 default = ⟨2, 2, 0⟩ := rfl
  have e3' : dartVerts.getD ((3 + 1) % dartVerts.length) default = ⟨0, 2, 0⟩ := rfl
  have e4 : dartVerts.getD 4 default = ⟨0, 2, 0⟩ := rfl
  have e4' : dartVerts.getD ((4 + 1) % dartVerts.length) default = ⟨0, 0, 0⟩ := rfl
  rw [e0, e0', e1, e1', e2, e2', e3, e3', e4, e4']
  refine ⟨?_, ?_, ?_, ?_, ?_⟩
  · rw [Bool.eq_false_iff, Ne, crossesRay_iff]
    dsimp only
    rintro ⟨h | h, -⟩
    · exact h.2 h.1
    · exact h.1 h.2
  · rw [Bool.eq_iff_iff, crossesRay_iff, decide_eq_true_iff]
    dsimp only
    norm_num
    constructor
    · rintro ⟨h | h, h3⟩
      · exfalso; linarith [h.1, h.2]
      · exact ⟨h.1, h.2, by linarith⟩
    · rintro ⟨h1, h2, h3⟩; exact ⟨Or.inr ⟨h1, h2⟩, by linarith⟩
  · rw [Bool.eq_iff_iff, crossesRay_iff, decide_eq_true_iff]
    dsimp only
    norm_num
    constructor
    · rintro ⟨h | h, h3⟩
      · exfalso; linarith [h.1, h.2]
      · exact ⟨h.1, h.2, by linarith⟩
    · rintro ⟨h1, h2, h3⟩; exact ⟨Or.inr ⟨h1, h2⟩, by linarith⟩
  · rw [Bool.eq_false_iff, Ne, crossesRay_iff]
    dsimp only
    rintro ⟨h | h, -⟩
    · exact h.2 h.1
    · exact h.1 h.2
  · rw [Bool.eq_false_iff, Ne, crossesRay_iff]
    dsimp only
    norm_num
    intro _
    exact hx0


/-- The closed region of the dart pentagon: a point `(x, y)` with `0 ≤ x`, `0 ≤ y ≤ 2`
that is on or left of one of the lines `x + y = 2`, `x = y` lies in the polygon. -/
theorem dart_region (x y : ℚ) (hx0 : 0 ≤ x) (hy0 : 0 ≤ y) (hy2 : y ≤ 2)
    (h : x + y ≤ 2 ∨ x ≤ y) : pointInPolygon dartVerts ⟨x, y, 0⟩ = true := by
  obtain ⟨c0, c1, c2, c3, c4⟩ := dart_crossings x y hx0
  have hr : List.range dartVerts.length = [0, 1, 2, 3, 4] := by decide
  unfold pointInPolygon
  rw [hr]
  simp only [List.any_cons, List.any_nil, List.filter_cons, List.filter_nil, c0, c1, c2, c3, c4,
    Bool.or_false, Bool.false_eq_true, if_false, Bool.or_eq_true, decide_eq_true_eq]
  by_cases hy : y = 2
  · left; right; right; right; left
    exact dart_onSegment_top x y hx0 (by rcases h with h | h <;> linarith) hy
  · have hylt : y < 2 := lt_of_le_of_ne hy2 hy
    by_cases hy1 : y < 1
    · by_cases hx : x < 2 - y
      · right
        rw [if_pos ⟨hy0, hy1, hx⟩, if_neg (by intro hh; linarith [hh.1])]
        rfl
      · left; right; left
        exact dart_onSegment_lower x y hy0 hy1.le (by rcases h with h | h <;> linarith)
    · by_cases hx : x < y
      · right
        rw [if_neg (by intro hh; linarith [hh.2.1]), if_pos ⟨by linarith, hylt, hx⟩]
        rfl
      · left; right; right; left
        exact dart_onSegment_upper x y (by linarith) hy2 (by rcases h with h | h <;> linarith)

/-- C12. For the pentagon `(0,0,0) (2,0,0) (1,1,0) (2,2,0) (0,2,0)` (a simple polygon of
area 3, projected onto itself) the triangulator returns exactly 3 triangles, `(2,3,4)`,
`(1,2,4)` and `(0,1,4)`, whose areas sum to 3, and every point of every emitted triangle
lies in the closed pentagon. -/
theorem dart_triangulation :
    simplePolygon dartVerts = true ∧
    projectFace Rat.sqrt dartVerts [0, 1, 2, 3, 4] = dartVerts ∧
    polygonArea dartVerts = 3 ∧
    faceTriangles Rat.sqrt dartVerts [0, 1, 2, 3, 4] = some [2, 3, 4, 1, 2, 4, 0, 1, 4] ∧
    (triples [2, 3, 4, 1, 2, 4, 0, 1, 4]).length = 3 ∧
    emittedArea dartVerts [2, 3, 4, 1, 2, 4, 0, 1, 4] = 3 ∧
    ∀ t ∈ triples [2, 3, 4, 1, 2, 4, 0, 1, 4], ∀ w1 w2 w3 : ℚ,
      0 ≤ w1 → 0 ≤ w2 → 0 ≤ w3 → w1 + w2 + w3 = 1 →
      pointInPolygon dartVerts (combo (vertexAt dartVerts t.1) (vertexAt dartVerts t.2.1)
        (vertexAt dartVerts t.2.2) w1 w2 w3) = true := by
  refine ⟨by decide!, by decide!, by decide!, by decide!, by decide!, by decide!, ?_⟩
  intro t ht w1 w2 w3 h1 h2 h3 hs
  simp only [triples, List.mem_cons, List.mem_singleton, List.not_mem_nil, or_false] at ht
  have v0 : vertexAt dartVerts 0 = ⟨0, 0, 0⟩ := rfl
  have v1 : vertexAt dartVerts 1 = ⟨2, 0, 0⟩ := rfl
  have v2 : vertexAt dartVerts 2 = ⟨1, 1, 0⟩ := rfl
  have v3 : vertexAt dartVerts 3 = ⟨2, 2, 0⟩ := rfl
  have v4 : vertexAt dartVerts 4 = ⟨0, 2, 0⟩ := rfl
  rcases ht with rfl | rfl | rfl
  · rw [v2, v3, v4]
    exact dart_region _ _ (by positivity) (by positivity) (by dsimp only; linarith)
      (Or.inr (by dsimp only; linarith))
  · rw [v1, v2, v4]
    exact dart_region _ _ (by positivity) (by positivity) (by dsimp only; linarith)
      (Or.inl (by dsimp only; linarith))
  · rw [v0, v1, v4]
    exact dart_region _ _ (by positivity) (by positivity) (by dsimp only; linarith)
      (Or.inl (by dsimp only; linarith))

/-- Witness of C12: the centroid of the emitted triangle `(2,3,4)` lies in the
pentagon, and the point `(3/2, 1)` of the notch does not. -/
theorem dart_triangulation_witness :
    ((2, 3, 4) ∈ triples [2, 3, 4, 1, 2, 4, 0, 1, 4] ∧ (0 : ℚ) ≤ 1 / 3 ∧
      (1 / 3 : ℚ) + 1 / 3 + 1 / 3 = 1 ∧ pointInPolygon dartVerts ⟨3 / 2, 1, 0⟩ = false) ∧
    pointInPolygon dartVerts (combo (vertexAt dartVerts 2) (vertexAt dartVerts 3)
      (vertexAt dartVerts 4) (1 / 3) (1 / 3) (1 / 3)) = true :=
  ⟨by decide!, dart_triangulation.2.2.2.2.2.2 (2, 3, 4) (by decide!) (1 / 3) (1 / 3) (1 / 3)
    (by decide!) (by decide!) (by decide!) (by decide!)⟩

/-! ## The rasterizer: index bounds, `clear`, the plane depth -/

namespace Surface

/-- C13. For a surface with `width ≥ 1` and `height ≥ 1`, `idxX` returns a column in
`[0, width-1]` and `idxY` a row in `[0, height-1]` for every coordinate; hence every
pixel index `yy*width+xx` that `drawTriangle` accesses (the index of a sampled cell)
satisfies `0 ≤ yy*width+xx < width*height`, and is a position of the pixel list when
that has `width*height` entries. -/
theorem index_in_bounds (S : Surface) (hw : 1 ≤ S.width) (hh : 1 ≤ S.height) :
    (∀ x : ℚ, 0 ≤ S.idxX x ∧ S.idxX x ≤ S.width - 1) ∧
    (∀ y : ℚ, 0 ≤ S.idxY y ∧ S.idxY y ≤ S.height - 1) ∧
    (∀ (t : Triangle) (xx yy : Int), (xx, yy) ∈ S.sampledCells t →
      0 ≤ yy * S.width + xx ∧ yy * S.width + xx < S.width * S.height ∧
      (S.pixels.length = (S.width * S.height).toNat →
        (yy * S.width + xx).toNat < S.pixels.length)) := by
  refine ⟨fun x => clamp_bounds _ 0 _ (by omega), fun y => clamp_bounds _ 0 _ (by omega),
    fun t xx yy hs => ?_⟩
  obtain ⟨hx0, hx1, hy0, hy1⟩ := sampledCells_on_grid S t xx yy hw hh hs
  have h0 : 0 ≤ yy * S.width := Int.mul_nonneg hy0 (by omega)
  have h1 : (yy + 1) * S.width ≤ S.height * S.width :=
    Int.mul_le_mul_of_nonneg_right (by omega) (by omega)
  rw [Int.add_mul] at h1
  have h2 : S.width * S.height = S.height * S.width := Int.mul_comm _ _
  refine ⟨by omega, by omega, fun hlen => ?_⟩
  rw [hlen]; omega

/-- Witness of C13 on `grid4` and the triangle `triOutside`, which lies off the grid. -/
theorem index_in_bounds_witness :
    (1 ≤ grid4.width ∧ 1 ≤ grid4.height ∧ (0, 1) ∈ grid4.sampledCells triOutside) ∧
    0 ≤ grid4.idxX (-7) ∧ grid4.idxX (-7) ≤ grid4.width - 1 ∧
    0 ≤ (1 : Int) * grid4.width + 0 ∧ (1 : Int) * grid4.width + 0 < grid4.width * grid4.height :=
  ⟨by decide!, ((index_in_bounds grid4 (by decide!) (by decide!)).1 (-7)).1,
    ((index_in_bounds grid4 (by decide!) (by decide!)).1 (-7)).2,
    ((index_in_bounds grid4 (by decide!) (by decide!)).2.2 triOutside 0 1 (by decide!)).1,
    ((index_in_bounds grid4 (by decide!) (by decide!)).2.2 triOutside 0 1 (by decide!)).2.1⟩

/-- C16. After `Surface::clear` every pixel has depth `+infinity` (`none`), the glyph
`' '` and the material `-1`, whatever the buffer held before; the dimensions of the grid
and the number of pixels are unchanged. -/
theorem clear_spec (S : Surface) :
    S.clear.width = S.width ∧ S.clear.height = S.height ∧
    S.clear.logical_w = S.logical_w ∧ S.clear.logical_h = S.logical_h ∧
    S.clear.dx = S.dx ∧ S.clear.dy = S.dy ∧
    S.clear.pixels.length = S.pixels.length ∧
    (∀ p ∈ S.clear.pixels, p = ⟨none, Char.ofNat 32, -1⟩) ∧
    (∀ xx yy : Int, S.clear.pixelAt xx yy = ⟨none, Char.ofNat 32, -1⟩) := by
  refine ⟨rfl, rfl, rfl, rfl, rfl, rfl, by simp [clear], fun p hp => ?_, fun xx yy => ?_⟩
  · simp only [clear, List.mem_map] at hp
    obtain ⟨_, _, rfl⟩ := hp
    rfl
  · rw [pixelAt_clear]; rfl

/-- The plane normal when the cross product has a non-zero length and a non-zero `z`. -/
theorem planeNormal_eq (fsqrt : ℚ → ℚ) (t : Triangle)
    (hm : ((t.p2.sub t.p1).cross (t.p3.sub t.p1)).mag fsqrt ≠ 0)
    (hz : ((t.p2.sub t.p1).cross (t.p3.sub t.p1)).z ≠ 0) :
    planeNormal fsqrt t
      = ⟨((t.p2.sub t.p1).cross (t.p3.sub t.p1)).x
          / ((t.p2.sub t.p1).cross (t.p3.sub t.p1)).mag fsqrt,
        ((t.p2.sub t.p1).cross (t.p3.sub t.p1)).y
          / ((t.p2.sub t.p1).cross (t.p3.sub t.p1)).mag fsqrt,
        ((t.p2.sub t.p1).cross (t.p3.sub t.p1)).z
          / ((t.p2.sub t.p1).cross (t.p3.sub t.p1)).mag fsqrt⟩ := by
  unfold planeNormal Vec3.normalize
  simp only [hm, if_false]
  rw [if_neg]
  exact div_ne_zero hz hm

/-- A triangle that passes the cull test has a cross product with negative `z`. -/
theorem cross_z_neg (t : Triangle) (hc : culled t = false) :
    ((t.p2.sub t.p1).cross (t.p3.sub t.p1)).z < 0 := by
  unfold culled at hc
  simp only [ge_iff_le, decide_eq_false_iff_not, not_le] at hc
  simp only [Vec3.cross, Vec3.sub]
  linarith

/-- The depth expression written with the unnormalised cross product and the corner
`p1` in place of `pts[0]`, when the substitution of `0.0001f` is not taken. -/
theorem depthAt_eq (fsqrt : ℚ → ℚ) (t : Triangle)
    (hz : ((t.p2.sub t.p1).cross (t.p3.sub t.p1)).z ≠ 0)
    (hm : ((t.p2.sub t.p1).cross (t.p3.sub t.p1)).mag fsqrt ≠ 0) (x y : ℚ) :
    depthAt fsqrt t x y
      = t.p1.z - (((t.p2.sub t.p1).cross (t.p3.sub t.p1)).x * (x - t.p1.x)
          + ((t.p2.sub t.p1).cross (t.p3.sub t.p1)).y * (y - t.p1.y))
        / ((t.p2.sub t.p1).cross (t.p3.sub t.p1)).z := by
  unfold depthAt
  rw [planeNormal_eq fsqrt t hm hz]
  dsimp only
  generalize hM : ((t.p2.sub t.p1).cross (t.p3.sub t.p1)).mag fsqrt = M at hm
  have hz' : ((t.p2.sub t.p1).cross (t.p3.sub t.p1)).z ≠ 0 := hz
  obtain ⟨-, -, hperm⟩ := sortByX_cases t.p1 t.p2 t.p3
  simp only [Vec3.cross, Vec3.sub] at hz' ⊢
  rcases hperm with h | h | h | h | h | h <;> rw [h] <;> dsimp only <;> field_simp <;> ring

/-- A normalised vector with a non-zero `z` comes from a vector with a non-zero `z`
and a non-zero computed length. -/
theorem normalize_z_ne (fsqrt : ℚ → ℚ) (n : Vec3) (h : (n.normalize fsqrt).z ≠ 0) :
    n.z ≠ 0 ∧ n.mag fsqrt ≠ 0 := by
  unfold Vec3.normalize at h
  dsimp only at h
  split_ifs at h with hm
  · exact absurd rfl h
  · dsimp only at h
    refine ⟨fun hz => h ?_, hm⟩
    rw [hz, zero_div]

/-- In exact arithmetic, with a square root positive on positive values, a triangle that
passes the cull test has a cross product with `z < 0` and positive length, its
normalised normal has `z < 0`, and the plane normal is the normalised cross product. -/
theorem cull_normal_exact (fsqrt : ℚ → ℚ) (t : Triangle)
    (hf : ∀ s : ℚ, 0 < s → 0 < fsqrt s) (hc : culled t = false) :
    ((t.p2.sub t.p1).cross (t.p3.sub t.p1)).z < 0 ∧
    0 < ((t.p2.sub t.p1).cross (t.p3.sub t.p1)).mag fsqrt ∧
    (((t.p2.sub t.p1).cross (t.p3.sub t.p1)).normalize fsqrt).z < 0 ∧
    planeNormal fsqrt t = ((t.p2.sub t.p1).cross (t.p3.sub t.p1)).normalize fsqrt := by
  have hz := cross_z_neg t hc
  have hp : planeNormal fsqrt t
      = if (((t.p2.sub t.p1).cross (t.p3.sub t.p1)).normalize fsqrt).z = 0
        then { ((t.p2.sub t.p1).cross (t.p3.sub t.p1)).normalize fsqrt with z := 1 / 10000 }
        else ((t.p2.sub t.p1).cross (t.p3.sub t.p1)).normalize fsqrt := rfl
  rw [hp]
  generalize (t.p2.sub t.p1).cross (t.p3.sub t.p1) = n at hz ⊢
  have hpos : 0 < n.x * n.x + n.y * n.y + n.z * n.z := by
    nlinarith [mul_self_nonneg n.x, mul_self_nonneg n.y, mul_pos_of_neg_of_neg hz hz]
  have hm : 0 < n.mag fsqrt := hf _ hpos
  have hn : n.normalize fsqrt = ⟨n.x / n.mag fsqrt, n.y / n.mag fsqrt, n.z / n.mag fsqrt⟩ := by
    unfold Vec3.normalize
    dsimp only
    rw [if_neg hm.ne.symm]
  have hnz : (n.normalize fsqrt).z < 0 := by
    rw [hn]
    exact div_neg_of_neg_of_pos hz hm
  rw [if_neg hnz.ne]
  exact ⟨hz, hm, hnz, rfl⟩

/-- The depth expression is affine in `(x, y)` for every triangle, with or without the
substitution. -/
theorem depthAt_affine (fsqrt : ℚ → ℚ) (t : Triangle) :
    ∃ A B C : ℚ, ∀ x y : ℚ, depthAt fsqrt t x y = A + B * x + C * y := by
  refine ⟨(sortByX t.p1 t.p2 t.p3).1.z
      + ((planeNormal fsqrt t).x * (sortByX t.p1 t.p2 t.p3).1.x
        + (planeNormal fsqrt t).y * (sortByX t.p1 t.p2 t.p3).1.y) / (planeNormal fsqrt t).z,
    -((planeNormal fsqrt t).x / (planeNormal fsqrt t).z),
    -((planeNormal fsqrt t).y / (planeNormal fsqrt t).z), fun x y => ?_⟩
  unfold depthAt
  ring

/-- With any rounding that maps 0 to 0, the rounded depth expression at the `(x, y)` of
the corner `pts[0]` is the rounded `z` of that corner, whether the substitution is taken
or not. -/
theorem depthAt_anchor (rnd fsqrt : ℚ → ℚ) (t : Triangle) (hr0 : rnd 0 = 0) :
    Fl.depthAt rnd fsqrt t (sortByX t.p1 t.p2 t.p3).1.x (sortByX t.p1 t.p2 t.p3).1.y
      = rnd (sortByX t.p1 t.p2 t.p3).1.z := by
  unfold Fl.depthAt
  simp [hr0]

end Surface

/-! ## The rasterizer: interior cells are sampled -/

namespace Surface

/-- Strict interiority does not depend on the order of the corners: it holds for the
corners as sorted by `x`. -/
theorem strictlyInside_sorted (t : Triangle) (x y : ℚ) (h : strictlyInside t x y) :
    strictlyInside ⟨(sortByX t.p1 t.p2 t.p3).1, (sortByX t.p1 t.p2 t.p3).2.1,
      (sortByX t.p1 t.p2 t.p3).2.2⟩ x y := by
  obtain ⟨-, -, hperm⟩ := sortByX_cases t.p1 t.p2 t.p3
  unfold strictlyInside at h ⊢
  rcases hperm with e | e | e | e | e | e <;> rw [e] <;> dsimp only <;>
    rcases h with ⟨h1, h2, h3⟩ | ⟨h1, h2, h3⟩
  · exact Or.inl ⟨h1, h2, h3⟩
  · exact Or.inr ⟨h1, h2, h3⟩
  · exact Or.inr ⟨by linarith, by linarith, by linarith⟩
  · exact Or.inl ⟨by linarith, by linarith, by linarith⟩
  · exact Or.inr ⟨by linarith, by linarith, by linarith⟩
  · exact Or.inl ⟨by linarith, by linarith, by linarith⟩
  · exact Or.inl ⟨by linarith, by linarith, by linarith⟩
  · exact Or.inr ⟨by linarith, by linarith, by linarith⟩
  · exact Or.inl ⟨by linarith, by linarith, by linarith⟩
  · exact Or.inr ⟨by linarith, by linarith, by linarith⟩
  · exact Or.inr ⟨by linarith, by linarith, by linarith⟩
  · exact Or.inl ⟨by linarith, by linarith, by linarith⟩

/-- A point strictly inside the triangle with corners `a`, `b`, `c` sorted by `x` lies
strictly between the extreme abscissas and strictly between the two scanline
intersections of its column. -/
theorem strict_scan (a b c : Vec3) (x y : ℚ) (hab : a.x ≤ b.x) (hbc : b.x ≤ c.x)
    (h : strictlyInside ⟨a, b, c⟩ x y) :
    a.x < x ∧ x < c.x ∧
    min (if x ≤ b.x then getY a b x else getY b c x) (getY a c x) < y ∧
    y < max (if x ≤ b.x then getY a b x else getY b c x) (getY a c x) := by
  unfold strictlyInside at h
  dsimp only at h
  -- the three edge functions
  set e1 := (b.x - a.x) * (y - a.y) - (b.y - a.y) * (x - a.x) with he1
  set e2 := (c.x - b.x) * (y - b.y) - (c.y - b.y) * (x - b.x) with he2
  set e3 := (a.x - c.x) * (y - c.y) - (a.y - c.y) * (x - c.x) with he3
  have hD : e1 + e2 + e3 = (b.x - a.x) * (c.y - a.y) - (b.y - a.y) * (c.x - a.x) := by
    rw [he1, he2, he3]; ring
  have id1 : (e1 + e2 + e3) * (x - a.x) = e3 * (b.x - a.x) + e1 * (c.x - a.x) := by
    rw [he1, he2, he3]; ring
  have id2 : (e1 + e2 + e3) * (c.x - x) = e2 * (c.x - a.x) + e3 * (c.x - b.x) := by
    rw [he1, he2, he3]; ring
  have hac : a.x < c.x := by
    rcases lt_or_eq_of_le (le_trans hab hbc) with h0 | h0
    · exact h0
    · exfalso
      have hb : b.x = a.x := le_antisymm (by rw [h0]; exact hbc) hab
      have : e1 + e2 + e3 = 0 := by rw [hD, hb, ← h0]; ring
      rcases h with ⟨h1, h2, h3⟩ | ⟨h1, h2, h3⟩ <;> linarith
  have hca : 0 < c.x - a.x := by linarith
  have hba : 0 ≤ b.x - a.x := by linarith
  have hcb : 0 ≤ c.x - b.x := by linarith
  have hx1 : a.x < x := by
    rcases h with ⟨h1, h2, h3⟩ | ⟨h1, h2, h3⟩
    · have hpos : 0 < (e1 + e2 + e3) * (x - a.x) := by
        rw [id1]
        have := mul_nonneg h3.le hba
        have := mul_pos h1 hca
        linarith
      have := pos_of_mul_pos_right hpos (by linarith : 0 ≤ e1 + e2 + e3)
      linarith
    · have hpos : 0 < (-(e1 + e2 + e3)) * (x - a.x) := by
        have e : (-(e1 + e2 + e3)) * (x - a.x) = (-e3) * (b.x - a.x) + (-e1) * (c.x - a.x) := by
          linear_combination -id1
        rw [e]
        have := mul_nonneg (by linarith : 0 ≤ -e3) hba
        have := mul_pos (by linarith : 0 < -e1) hca
        linarith
      have := pos_of_mul_pos_right hpos (by linarith : 0 ≤ -(e1 + e2 + e3))
      linarith
  have hx2 : x < c.x := by
    rcases h with ⟨h1, h2, h3⟩ | ⟨h1, h2, h3⟩
    · have hpos : 0 < (e1 + e2 + e3) * (c.x - x) := by
        rw [id2]
        have := mul_pos h2 hca
        have := mul_nonneg h3.le hcb
        linarith
      have := pos_of_mul_pos_right hpos (by linarith : 0 ≤ e1 + e2 + e3)
      linarith
    · have hpos : 0 < (-(e1 + e2 + e3)) * (c.x - x) := by
        have e : (-(e1 + e2 + e3)) * (c.x - x) = (-e2) * (c.x - a.x) + (-e3) * (c.x - b.x) := by
          linear_combination -id2
        rw [e]
        have := mul_pos (by linarith : 0 < -e2) hca
        have := mul_nonneg (by linarith : 0 ≤ -e3) hcb
        linarith
      have := pos_of_mul_pos_right hpos (by linarith : 0 ≤ -(e1 + e2 + e3))
      linarith
  refine ⟨hx1, hx2, ?_⟩
  -- the long edge
  have hY2 : (c.x - a.x) * (y - getY a c x) = -e3 := by
    unfold getY
    rw [if_neg (by intro hh; rw [hh] at hca; simp at hca), he3]
    field_simp
    ring
  -- the short edge of the column
  have hY1 : ∃ d : ℚ, 0 < d ∧
      ((d * (y - (if x ≤ b.x then getY a b x else getY b c x)) = e1) ∨
       (d * (y - (if x ≤ b.x then getY a b x else getY b c x)) = e2)) := by
    by_cases hxb : x ≤ b.x
    · have hd : 0 < b.x - a.x := by linarith
      refine ⟨b.x - a.x, hd, Or.inl ?_⟩
      rw [if_pos hxb]
      unfold getY
      rw [if_neg (by intro hh; rw [hh] at hd; simp at hd), he1]
      field_simp
      ring
    · have hd : 0 < c.x - b.x := by linarith [not_le.mp hxb]
      refine ⟨c.x - b.x, hd, Or.inr ?_⟩
      rw [if_neg hxb]
      unfold getY
      rw [if_neg (by intro hh; rw [hh] at hd; simp at hd), he2]
      field_simp
      ring
  obtain ⟨d, hd, hY1⟩ := hY1
  generalize (if x ≤ b.x then getY a b x else getY b c x) = Y1 at hY1 ⊢
  generalize getY a c x = Y2 at hY2 ⊢
  rcases h with ⟨h1, h2, h3⟩ | ⟨h1, h2, h3⟩
  · -- `Y1 < y < Y2`
    have hy1 : Y1 < y := by
      have : 0 < d * (y - Y1) := by rcases hY1 with e | e <;> rw [e] <;> assumption
      have := pos_of_mul_pos_right this hd.le
      linarith
    have hy2 : y < Y2 := by
      have : 0 < (c.x - a.x) * (Y2 - y) := by
        have e : (c.x - a.x) * (Y2 - y) = e3 := by linear_combination -hY2
        rw [e]; exact h3
      have := pos_of_mul_pos_right this hca.le
      linarith
    exact ⟨lt_of_le_of_lt (min_le_left _ _) hy1, lt_of_lt_of_le hy2 (le_max_right _ _)⟩
  · -- `Y2 < y < Y1`
    have hy1 : y < Y1 := by
      have : 0 < d * (Y1 - y) := by
        rcases hY1 with e | e
        · have e' : d * (Y1 - y) = -e1 := by linear_combination -e
          rw [e']; linarith
        · have e' : d * (Y1 - y) = -e2 := by linear_combination -e
          rw [e']; linarith
      have := pos_of_mul_pos_right this hd.le
      linarith
    have hy2 : Y2 < y := by
      have : 0 < (c.x - a.x) * (y - Y2) := by rw [hY2]; linarith
      have := pos_of_mul_pos_right this hca.le
      linarith
    exact ⟨lt_of_le_of_lt (min_le_right _ _) hy2, lt_of_lt_of_le hy1 (le_max_left _ _)⟩

theorem floor_le_of_lt_sample (v d : ℚ) (n : Int) (hd : 0 < d)
    (h : v < ((n : ℚ) + 1 / 2) * d) : ⌊(v + d / 2) / d⌋ ≤ n := by
  have h1 : (v + d / 2) / d < ((n + 1 : Int) : ℚ) := by
    rw [div_lt_iff₀ hd]; push_cast; linarith
  have := Int.floor_lt.mpr h1
  omega

theorem le_floor_of_sample_le (v d : ℚ) (n : Int) (hd : 0 < d)
    (h : ((n : ℚ) + 1 / 2) * d ≤ v) : n ≤ ⌊(v - d / 2) / d⌋ := by
  apply Int.le_floor.mpr
  rw [le_div_iff₀ hd]; linarith

theorem clamp_le_of (v lo hi n : Int) (h1 : v ≤ n) (h2 : lo ≤ n) : clamp v lo hi ≤ n := by
  unfold clamp; split_ifs <;> omega

theorem le_clamp_of (v lo hi n : Int) (h1 : n ≤ v) (h2 : n ≤ hi) :
    n ≤ clamp v lo hi := by
  unfold clamp; split_ifs <;> omega

/-- A grid cell whose centre is strictly inside an unculled triangle is sampled. -/
theorem interior_cell_sampled (S : Surface) (t : Triangle) (xx yy : Int)
    (hdx : 0 < S.dx) (hdy : 0 < S.dy) (hc : culled t = false)
    (hx : 0 ≤ xx ∧ xx < S.width) (hy : 0 ≤ yy ∧ yy < S.height)
    (hin : strictlyInside t (S.sampleX xx) (S.sampleY yy)) :
    (xx, yy) ∈ S.sampledCells t := by
  obtain ⟨hab, hbc, -⟩ := sortByX_cases t.p1 t.p2 t.p3
  obtain ⟨h1, h2, h3, h4⟩ := strict_scan _ _ _ _ _ hab hbc (strictlyInside_sorted t _ _ hin)
  rw [mem_sampledCells]
  refine ⟨hc, ?_, ?_, ?_, ?_⟩
  · exact clamp_le_of _ _ _ _ (floor_le_of_lt_sample _ _ _ hdx h1) hx.1
  · exact le_clamp_of _ _ _ _ (le_floor_of_sample_le _ _ _ hdx h2.le) (by omega)
  · exact clamp_le_of _ _ _ _ (floor_le_of_lt_sample _ _ _ hdy h3) hy.1
  · exact le_clamp_of _ _ _ _ (le_floor_of_sample_le _ _ _ hdy h4.le) (by omega)

/-- The exact reading of the column scan (no rounding, no conversion to `int`). On a cleared surface (`width, height ≥ 1`, `dx, dy > 0`, `width*height`
pixels), for a triangle that passes the cull test, every grid cell whose centre lies
strictly inside the 2D triangle is sampled by the column scan and ends up holding the
glyph `c`, the material `mat_idx` and the triangle's plane depth at that centre (the
value `depthAt` of the plane through the three corners). -/
theorem interior_cells_filled (fsqrt : ℚ → ℚ) (S : Surface) (t : Triangle) (c : Char)
    (m : Int) (xx yy : Int) (hw : 1 ≤ S.width) (hh : 1 ≤ S.height)
    (hdx : 0 < S.dx) (hdy : 0 < S.dy)
    (hlen : S.pixels.length = (S.width * S.height).toNat) (hc : culled t = false)
    (hx : 0 ≤ xx ∧ xx < S.width) (hy : 0 ≤ yy ∧ yy < S.height)
    (hin : strictlyInside t (S.sampleX xx) (S.sampleY yy)) :
    (xx, yy) ∈ S.clear.sampledCells t ∧
    (drawTriangle fsqrt S.clear t c m).pixelAt xx yy
      = ⟨some (planeDepth fsqrt S t xx yy), c, m⟩ ∧
    planeDepth fsqrt S t xx yy = depthAt fsqrt t (S.sampleX xx) (S.sampleY yy) := by
  have hs : (xx, yy) ∈ S.clear.sampledCells t :=
    interior_cell_sampled S.clear t xx yy hdx hdy hc hx hy hin
  have hlc : S.clear.pixels.length = (S.clear.width * S.clear.height).toNat := by
    simpa [clear] using hlen
  refine ⟨hs, ?_, rfl⟩
  rw [pixelAt_sampled fsqrt S.clear t c m xx yy hw hh hlc hs, pixelAt_clear]
  rfl

/-- The exact reading on an example: cell `(1, 2)` of `grid4`, whose centre `(3/2, 5/2)` is strictly
inside `triNear`. -/
theorem interior_cells_filled_witness :
    (1 ≤ grid4.width ∧ 1 ≤ grid4.height ∧ 0 < grid4.dx ∧ 0 < grid4.dy ∧
      grid4.pixels.length = (grid4.width * grid4.height).toNat ∧ culled triNear = false ∧
      (0 ≤ (1 : Int) ∧ (1 : Int) < grid4.width) ∧ (0 ≤ (2 : Int) ∧ (2 : Int) < grid4.height) ∧
      strictlyInside triNear (grid4.sampleX 1) (grid4.sampleY 2)) ∧
    (1, 2) ∈ grid4.clear.sampledCells triNear ∧
    (drawTriangle Rat.sqrt grid4.clear triNear glyphA 7).pixelAt 1 2
      = ⟨some (planeDepth Rat.sqrt grid4 triNear 1 2), glyphA, 7⟩ ∧
    planeDepth Rat.sqrt grid4 triNear 1 2
      = depthAt Rat.sqrt triNear (grid4.sampleX 1) (grid4.sampleY 2) :=
  ⟨by decide!, interior_cells_filled Rat.sqrt grid4 triNear glyphA 7 1 2 (by decide!)
    (by decide!) (by decide!) (by decide!) (by decide!) (by decide!) (by decide!) (by decide!)
    (by decide!)⟩

end Surface

/-! ## `main.cpp`: the brightness glyph -/

theorem roundHalfAway_mono (p q : ℚ) (hp : 0 ≤ p) (hpq : p ≤ q) :
    roundHalfAway p ≤ roundHalfAway q := by
  unfold roundHalfAway
  rw [if_pos hp, if_pos (le_trans hp hpq)]
  exact Int.floor_mono (by linarith)

theorem clampNat_mono (a b lo hi : Nat) (hab : a ≤ b) (hlh : lo ≤ hi) :
    clampNat a lo hi ≤ clampNat b lo hi := by
  unfold clampNat; split_ifs <;> omega

theorem clampNat_bounds (a lo hi : Nat) (hlh : lo ≤ hi) :
    lo ≤ clampNat a lo hi ∧ clampNat a lo hi ≤ hi := by
  unfold clampNat; split_ifs <;> omega

theorem lumIndex_lt (len : Nat) (s : ℚ) (hlen : 0 < len) : lumIndex len s < len := by
  unfold lumIndex
  have := (clampNat_bounds (roundHalfAway (((len - 1 : Nat) : ℚ) * s)).toNat 0 (len - 1)
    (Nat.zero_le _)).2
  omega

theorem roundHalfAway_natCast (n : Nat) : roundHalfAway (n : ℚ) = n := by
  unfold roundHalfAway
  rw [if_pos (Nat.cast_nonneg n), Int.floor_eq_iff]
  constructor
  · push_cast; linarith
  · push_cast; linarith

theorem lumIndex_zero (len : Nat) : lumIndex len 0 = 0 := by
  unfold lumIndex
  rw [mul_zero]
  have : roundHalfAway (0 : ℚ) = 0 := by
    have := roundHalfAway_natCast 0
    simpa using this
  rw [this]
  unfold clampNat
  simp

theorem lumIndex_one (len : Nat) : lumIndex len 1 = len - 1 := by
  unfold lumIndex
  rw [mul_one, roundHalfAway_natCast]
  unfold clampNat
  simp

/-- C14. For every non-empty ramp and similarities `0 ≤ s1 ≤ s2 ≤ 1`, the index
`getLumChar` selects for `s1` is at most the index it selects for `s2`; both are valid
positions of the ramp, both are the rounded value `round(s * (len - 1))` (the clamp is
inactive on `[0, 1]`), and the glyph returned is the ramp entry at that index. -/
theorem lumIndex_monotone (chars : List Char) (s1 s2 : ℚ) (hne : chars ≠ [])
    (h0 : 0 ≤ s1) (h12 : s1 ≤ s2) (h1 : s2 ≤ 1) :
    lumIndex chars.length s1 ≤ lumIndex chars.length s2 ∧
    lumIndex chars.length s1 < chars.length ∧
    lumIndex chars.length s2 < chars.length ∧
    (lumIndex chars.length s1 : Int) = roundHalfAway (((chars.length - 1 : Nat) : ℚ) * s1) ∧
    (lumIndex chars.length s2 : Int) = roundHalfAway (((chars.length - 1 : Nat) : ℚ) * s2) ∧
    (∀ norm light : Vec3, chars[lumIndex chars.length (lumSim norm light)]?
      = some (getLumChar norm light chars)) := by
  have hlen : 0 < chars.length := List.length_pos.mpr hne
  have hc : (0 : ℚ) ≤ ((chars.length - 1 : Nat) : ℚ) := Nat.cast_nonneg _
  have key : ∀ s : ℚ, 0 ≤ s → s ≤ 1 →
      (lumIndex chars.length s : Int) = roundHalfAway (((chars.length - 1 : Nat) : ℚ) * s) := by
    intro s hs0 hs1
    have hlo : (0 : Int) ≤ roundHalfAway (((chars.length - 1 : Nat) : ℚ) * s) := by
      have := roundHalfAway_mono 0 _ le_rfl (mul_nonneg hc hs0)
      have h00 : roundHalfAway (0 : ℚ) = 0 := by
        have := roundHalfAway_natCast 0
        simpa using this
      rwa [h00] at this
    have hhi : roundHalfAway (((chars.length - 1 : Nat) : ℚ) * s) ≤ ((chars.length - 1 : Nat) : Int) := by
      have := roundHalfAway_mono (((chars.length - 1 : Nat) : ℚ) * s) ((chars.length - 1 : Nat) : ℚ)
        (mul_nonneg hc hs0) (by nlinarith)
      rwa [roundHalfAway_natCast] at this
    unfold lumIndex clampNat
    split_ifs <;> omega
  refine ⟨?_, lumIndex_lt _ _ hlen, lumIndex_lt _ _ hlen, key s1 h0 (le_trans h12 h1),
    key s2 (le_trans h0 h12) h1, ?_⟩
  · unfold lumIndex
    apply clampNat_mono _ _ _ _ _ (Nat.zero_le _)
    apply Int.toNat_le_toNat
    exact roundHalfAway_mono _ _ (mul_nonneg hc h0) (mul_le_mul_of_nonneg_left h12 hc)
  · intro norm light
    unfold getLumChar
    rw [List.getD_eq_getElem?_getD, List.getElem?_eq_getElem (lumIndex_lt _ _ hlen)]
    rfl

/-- Witness of C14: the default ramp of 12 glyphs (as code points) at similarities
`1/4` and `3/4`, indices 3 and 8. -/
theorem lumIndex_monotone_witness :
    (rampDefault ≠ [] ∧ (0 : ℚ) ≤ 1 / 4 ∧ (1 / 4 : ℚ) ≤ 3 / 4 ∧ (3 / 4 : ℚ) ≤ 1) ∧
    lumIndex rampDefault.length (1 / 4) = 3 ∧ lumIndex rampDefault.length (3 / 4) = 8 ∧
    lumIndex rampDefault.length (1 / 4) ≤ lumIndex rampDefault.length (3 / 4) :=
  ⟨by decide!, by decide!, by decide!,
    (lumIndex_monotone rampDefault (1 / 4) (3 / 4) (by decide!) (by decide!) (by decide!)
      (by decide!)).1⟩

/-- C15. For every non-empty ramp and unit light direction `L` (`L · L = 1`): the
inverted normal `-L` gets similarity 0 and the first ramp glyph, the inverted normal
`L` gets similarity 1 and the last ramp glyph. -/
theorem getLumChar_extremes (L : Vec3) (chars : List Char) (hne : chars ≠ [])
    (hL : L.dot L = 1) :
    lumSim (L.smul (-1)) L = 0 ∧ lumSim L L = 1 ∧
    getLumChar (L.smul (-1)) L chars = chars.getD 0 default ∧
    getLumChar L L chars = chars.getD (chars.length - 1) default ∧
    chars.head? = some (getLumChar (L.smul (-1)) L chars) ∧
    chars.getLast? = some (getLumChar L L chars) := by
  have hlen : 0 < chars.length := List.length_pos.mpr hne
  have e0 : lumSim (L.smul (-1)) L = 0 := by
    unfold lumSim
    have : (L.smul (-1)).dot L = -(L.dot L) := by
      unfold Vec3.smul Vec3.dot; ring
    rw [this, hL]; norm_num
  have e1 : lumSim L L = 1 := by
    unfold lumSim; rw [hL]; norm_num
  have g0 : getLumChar (L.smul (-1)) L chars = chars.getD 0 default := by
    unfold getLumChar; rw [e0, lumIndex_zero]
  have g1 : getLumChar L L chars = chars.getD (chars.length - 1) default := by
    unfold getLumChar; rw [e1, lumIndex_one]
  refine ⟨e0, e1, g0, g1, ?_, ?_⟩
  · rw [g0]
    cases chars with
    | nil => exact absurd rfl hne
    | cons a l => rfl
  · rw [g1, List.getLast?_eq_getElem?, List.getD_eq_getElem?_getD,
      List.getElem?_eq_getElem (by omega)]
    rfl

/-- Witness of C15: the light `(0, 3/5, 4/5)` and the default ramp, first glyph `.`
(code 46) and last glyph `@` (code 64). -/
theorem getLumChar_extremes_witness :
    (rampDefault ≠ [] ∧ (lightUnit).dot lightUnit = 1) ∧
    getLumChar (lightUnit.smul (-1)) lightUnit rampDefault = Char.ofNat 46 ∧
    getLumChar lightUnit lightUnit rampDefault = Char.ofNat 64 ∧
    rampDefault.head? = some (getLumChar (lightUnit.smul (-1)) lightUnit rampDefault) :=
  ⟨by decide!, by decide!, by decide!,
    (getLumChar_extremes lightUnit rampDefault (by decide!) (by decide!)).2.2.2.2.1⟩

/-! ## The rational square root -/

/-- The rational square root is positive on positive rationals. -/
theorem rat_sqrt_pos (s : ℚ) (hs : 0 < s) : 0 < Rat.sqrt s := by
  unfold Rat.sqrt
  rw [Rat.mkRat_eq_div]
  have hn : 0 < s.num := Rat.num_pos.mpr hs
  have h1 : 0 < Int.sqrt s.num := by
    unfold Int.sqrt
    have : 0 < Nat.sqrt s.num.toNat := Nat.sqrt_pos.mpr (by omega)
    exact_mod_cast this
  have h2 : 0 < Nat.sqrt s.den := Nat.sqrt_pos.mpr s.den_pos
  apply div_pos
  · exact_mod_cast h1
  · exact_mod_cast h2


/-! ## `vec3.hpp`: the rotations are isometries -/

theorem rotateY_dot (u v : Vec3) (c s : ℚ) (h : c * c + s * s = 1) :
    (u.rotateY c s).dot (v.rotateY c s) = u.dot v := by
  unfold Vec3.rotateY Vec3.dot
  dsimp only
  linear_combination (u.x * v.x + u.z * v.z) * h

theorem rotateX_dot (u v : Vec3) (c s : ℚ) (h : c * c + s * s = 1) :
    (u.rotateX c s).dot (v.rotateX c s) = u.dot v := by
  unfold Vec3.rotateX Vec3.dot
  dsimp only
  linear_combination (u.y * v.y + u.z * v.z) * h

theorem mag_eq_of_dot (fsqrt : ℚ → ℚ) (u v : Vec3) (h : u.dot u = v.dot v) :
    u.mag fsqrt = v.mag fsqrt := by
  unfold Vec3.mag
  unfold Vec3.dot at h
  rw [h]

theorem transform_sub (c1 s1 c2 s2 : ℚ) (u v : Vec3) :
    (transform c1 s1 c2 s2 u).sub (transform c1 s1 c2 s2 v) = transform c1 s1 c2 s2 (u.sub v) := by
  unfold transform Vec3.rotateX Vec3.rotateY Vec3.sub
  dsimp only
  congr 1 <;> ring

/-- C22. For all vectors `u`, `v` and every `(c, s)` with `c*c + s*s = 1`,
`rotateY(c, s)` and `rotateX(c, s)` preserve the dot product, hence the squared
magnitude and the magnitude; the yaw-then-pitch `transform` of `run`, built from two
such pairs, preserves dot products, magnitudes and the squared distance between any
two points. -/
theorem rotate_preserves_dot (u v : Vec3) (c s : ℚ) (h : c * c + s * s = 1) :
    (u.rotateY c s).dot (v.rotateY c s) = u.dot v ∧
    (u.rotateX c s).dot (v.rotateX c s) = u.dot v ∧
    (v.rotateY c s).dot (v.rotateY c s) = v.dot v ∧
    (v.rotateX c s).dot (v.rotateX c s) = v.dot v ∧
    (∀ fsqrt : ℚ → ℚ, (v.rotateY c s).mag fsqrt = v.mag fsqrt ∧
      (v.rotateX c s).mag fsqrt = v.mag fsqrt) ∧
    (∀ c2 s2 : ℚ, c2 * c2 + s2 * s2 = 1 →
      (transform c s c2 s2 u).dot (transform c s c2 s2 v) = u.dot v ∧
      (∀ fsqrt : ℚ → ℚ, (transform c s c2 s2 v).mag fsqrt = v.mag fsqrt) ∧
      ((transform c s c2 s2 u).sub (transform c s c2 s2 v)).dot
          ((transform c s c2 s2 u).sub (transform c s c2 s2 v))
        = (u.sub v).dot (u.sub v)) := by
  have ht : ∀ (c2 s2 : ℚ), c2 * c2 + s2 * s2 = 1 → ∀ a b : Vec3,
      (transform c s c2 s2 a).dot (transform c s c2 s2 b) = a.dot b := by
    intro c2 s2 h2 a b
    unfold transform
    rw [rotateX_dot _ _ _ _ h2, rotateY_dot _ _ _ _ h]
  refine ⟨rotateY_dot u v c s h, rotateX_dot u v c s h, rotateY_dot v v c s h,
    rotateX_dot v v c s h, fun fsqrt => ⟨mag_eq_of_dot fsqrt _ _ (rotateY_dot v v c s h),
      mag_eq_of_dot fsqrt _ _ (rotateX_dot v v c s h)⟩, ?_⟩
  intro c2 s2 h2
  refine ⟨ht c2 s2 h2 u v, fun fsqrt => mag_eq_of_dot fsqrt _ _ (ht c2 s2 h2 v v), ?_⟩
  rw [transform_sub, ht c2 s2 h2]

/-- Witness of C22: the pair `(3/5, 4/5)` and the vectors `(1, 2, 3)`, `(4, 5, 6)`, of
dot product 32. -/
theorem rotate_preserves_dot_witness :
    ((3 / 5 : ℚ) * (3 / 5) + (4 / 5) * (4 / 5) = 1) ∧
    (Vec3.rotateY ⟨1, 2, 3⟩ (3 / 5) (4 / 5)) = ⟨-9 / 5, 2, 13 / 5⟩ ∧
    (Vec3.rotateY ⟨1, 2, 3⟩ (3 / 5) (4 / 5)).dot (Vec3.rotateY ⟨4, 5, 6⟩ (3 / 5) (4 / 5))
      = Vec3.dot ⟨1, 2, 3⟩ ⟨4, 5, 6⟩ :=
  ⟨by decide!, by decide!,
    (rotate_preserves_dot ⟨1, 2, 3⟩ ⟨4, 5, 6⟩ (3 / 5) (4 / 5) (by decide!)).1⟩
/-! ## Binary32 arithmetic: the facts used below -/

theorem ilog2Aux_spec : ∀ (f n : Nat), n ≤ f → 1 ≤ n →
    2 ^ ilog2Aux f n ≤ n ∧ n < 2 ^ (ilog2Aux f n + 1)
  | 0, n, h, h1 => by omega
  | f + 1, n, h, h1 => by
    unfold ilog2Aux
    split_ifs with h2
    · constructor
      · simpa using h1
      · simpa using h2
    · obtain ⟨a, b⟩ := ilog2Aux_spec f (n / 2) (by omega) (by omega)
      generalize ilog2Aux f (n / 2) = k at a b
      rw [pow_succ, pow_succ]
      rw [pow_succ] at b
      constructor <;> omega

theorem ilog2_spec (n : Nat) (h : 1 ≤ n) : 2 ^ ilog2 n ≤ n ∧ n < 2 ^ (ilog2 n + 1) :=
  ilog2Aux_spec n n le_rfl h

/-- The exponent of a non-zero rational is a lower bound of its binary logarithm. -/
theorem expOf_le (q : ℚ) (hq : q ≠ 0) : (2 : ℚ) ^ expOf q ≤ |q| := by
  unfold expOf
  split_ifs with h
  · have hn : 1 ≤ q.num.natAbs := by
      have : q.num ≠ 0 := Rat.num_ne_zero.mpr hq
      omega
    have hd : 1 ≤ q.den := q.den_pos
    obtain ⟨a1, -⟩ := ilog2_spec _ hn
    obtain ⟨-, b2⟩ := ilog2_spec _ hd
    generalize ilog2 q.num.natAbs = a at a1 ⊢
    generalize ilog2 q.den = b at b2 ⊢
    have habs : |q| = (q.num.natAbs : ℚ) / (q.den : ℚ) := by
      conv_lhs => rw [← Rat.num_div_den q]
      rw [abs_div, Nat.abs_cast, Nat.cast_natAbs, Int.cast_abs]
    rw [habs]
    have e : ((a : Int) - (b : Int) - 1) = (a : Int) - ((b + 1 : Nat) : Int) := by push_cast; ring
    rw [e, zpow_sub₀ (by norm_num), zpow_natCast, zpow_natCast]
    have a1' : ((2 : ℚ) ^ a) ≤ (q.num.natAbs : ℚ) := by exact_mod_cast a1
    have b2' : (q.den : ℚ) ≤ (2 : ℚ) ^ (b + 1) := by exact_mod_cast b2.le
    have hdq : (0 : ℚ) < q.den := by exact_mod_cast hd
    exact div_le_div₀ (Nat.cast_nonneg _) a1' hdq b2'
  · exact not_lt.mp h

theorem roundEven_ge_floor (q : ℚ) : ⌊q⌋ ≤ roundEven q := by
  unfold roundEven
  split_ifs <;> omega

theorem round32_zero : round32 0 = 0 := by
  unfold round32
  rw [if_pos rfl]

/-- Rounding keeps the sign of a non-negative value. -/
theorem round32_nonneg (q : ℚ) (h : 0 ≤ q) : 0 ≤ round32 q := by
  unfold round32
  split_ifs with h0
  · exact le_rfl
  · have hu : (0 : ℚ) < 2 ^ (max (expOf q) (-126) - 23) := zpow_pos (by norm_num) _
    have h1 : (0 : Int) ≤ ⌊q / 2 ^ (max (expOf q) (-126) - 23)⌋ :=
      Int.floor_nonneg.mpr (div_nonneg h hu.le)
    have h2 := roundEven_ge_floor (q / 2 ^ (max (expOf q) (-126) - 23))
    have h3 : (0 : ℚ) ≤ (roundEven (q / 2 ^ (max (expOf q) (-126) - 23)) : ℚ) := by
      exact_mod_cast h1.trans h2
    exact mul_nonneg h3 hu.le

/-- A value that is at least the least positive binary32 value `2^-149` is rounded to
a value that is at least `2^-149`: it does not underflow to zero. -/
theorem round32_ge_min (q : ℚ) (h : 1 / 2 ^ 149 ≤ q) : 1 / 2 ^ 149 ≤ round32 q := by
  have hq : 0 < q := lt_of_lt_of_le (by norm_num) h
  unfold round32
  rw [if_neg hq.ne.symm]
  have hu : (0 : ℚ) < 2 ^ (max (expOf q) (-126) - 23) := zpow_pos (by norm_num) _
  have hmin : (1 : ℚ) / 2 ^ 149 ≤ 2 ^ (max (expOf q) (-126) - 23) := by
    have : (1 : ℚ) / 2 ^ 149 = 2 ^ (-149 : Int) := by norm_num [zpow_neg]
    rw [this]
    exact zpow_le_zpow_right₀ (by norm_num) (by have := le_max_right (expOf q) (-126); omega)
  have hle : (2 : ℚ) ^ (max (expOf q) (-126) - 23) ≤ q := by
    rcases le_total (expOf q) (-126) with hc | hc
    · rw [max_eq_right hc]
      have : (2 : ℚ) ^ ((-126 : Int) - 23) = 1 / 2 ^ 149 := by norm_num [zpow_neg]
      rw [this]; exact h
    · rw [max_eq_left hc]
      have h1 := expOf_le q hq.ne.symm
      rw [abs_of_pos hq] at h1
      refine le_trans ?_ h1
      exact zpow_le_zpow_right₀ (by norm_num) (by omega)
  have h1 : (1 : Int) ≤ ⌊q / 2 ^ (max (expOf q) (-126) - 23)⌋ := by
    apply Int.le_floor.mpr
    rw [le_div_iff₀ hu]
    simpa using hle
  have h2 := roundEven_ge_floor (q / 2 ^ (max (expOf q) (-126) - 23))
  have h3 : (1 : ℚ) ≤ (roundEven (q / 2 ^ (max (expOf q) (-126) - 23)) : ℚ) := by
    exact_mod_cast h1.trans h2
  calc (1 : ℚ) / 2 ^ 149 ≤ 2 ^ (max (expOf q) (-126) - 23) := hmin
    _ = 1 * 2 ^ (max (expOf q) (-126) - 23) := (one_mul _).symm
    _ ≤ _ := mul_le_mul_of_nonneg_right h3 hu.le

theorem sqrt32_zero : sqrt32 0 = 0 := by
  unfold sqrt32
  rw [if_pos le_rfl]

/-- The binary32 square root of a positive value is positive. -/
theorem sqrt32_pos (s : ℚ) (h : 0 < s) : 0 < sqrt32 s := by
  unfold sqrt32
  rw [if_neg (not_le.mpr h)]
  dsimp only
  have hc : (0 : ℚ) < 1 / 2 ^ 149 := by norm_num
  refine lt_of_lt_of_le hc (round32_ge_min _ ?_)
  have ht : (0 : ℚ) ≤ (isqrt ⌊s * 4 ^ 100⌋₊ : ℚ) / 2 ^ 100 := by positivity
  split_ifs with he
  · rcases Nat.eq_zero_or_pos (isqrt ⌊s * 4 ^ 100⌋₊) with h0 | h0
    · rw [h0] at he
      simp only [Nat.cast_zero, zero_div, mul_zero] at he
      exact absurd he.symm h.ne.symm
    · have h1 : (1 : ℚ) ≤ (isqrt ⌊s * 4 ^ 100⌋₊ : ℚ) := by exact_mod_cast h0
      calc (1 : ℚ) / 2 ^ 149 ≤ 1 / 2 ^ 100 := by norm_num
        _ ≤ _ := div_le_div_of_nonneg_right h1 (by positivity)
  · calc (1 : ℚ) / 2 ^ 149 ≤ 0 + 1 / 2 ^ 101 := by norm_num
      _ ≤ _ := by linarith

/-! ## The rounded functions at `rnd = id` are the exact ones -/

theorem Fl.sub_id (v o : Vec3) : Fl.sub id v o = v.sub o := rfl

theorem Fl.cross_id (v o : Vec3) : Fl.cross id v o = v.cross o := rfl

theorem Fl.mag_id (fsqrt : ℚ → ℚ) (v : Vec3) : Fl.mag id fsqrt v = v.mag fsqrt := rfl

theorem Fl.normalize_id (fsqrt : ℚ → ℚ) (v : Vec3) :
    Fl.normalize id fsqrt v = v.normalize fsqrt := rfl

theorem Fl.culled_id (t : Triangle) : Fl.culled id t = Surface.culled t := rfl

theorem Fl.planeNormal_id (fsqrt : ℚ → ℚ) (t : Triangle) :
    Fl.planeNormal id fsqrt t = Surface.planeNormal fsqrt t := rfl

theorem Fl.getY_id (pA pB : Vec3) (x : ℚ) : Fl.getY id pA pB x = Voxcii.getY pA pB x := rfl

theorem Fl.sampleX_id (S : Surface) (xx : Int) : Fl.sampleX id S xx = S.sampleX xx := rfl

theorem Fl.sampleY_id (S : Surface) (yy : Int) : Fl.sampleY id S yy = S.sampleY yy := rfl

theorem Fl.depthAt_id (fsqrt : ℚ → ℚ) (t : Triangle) (x y : ℚ) :
    Fl.depthAt id fsqrt t x y = Surface.depthAt fsqrt t x y := rfl

theorem Fl.planeDepth_id (fsqrt : ℚ → ℚ) (S : Surface) (t : Triangle) (xx yy : Int) :
    Fl.planeDepth id fsqrt S t xx yy = Surface.planeDepth fsqrt S t xx yy := rfl

theorem toInt32_of_range (v : Int) (h1 : -2 ^ 31 ≤ v) (h2 : v < 2 ^ 31) : toInt32 v = v := by
  unfold toInt32
  rw [if_pos ⟨h1, h2⟩]

/-- Where the floor fits in `int`, the cast is the identity and `idxX` is the exact one. -/
theorem Fl.idxX_id (S : Surface) (x : ℚ) (h1 : -2 ^ 31 ≤ ⌊x / S.dx⌋)
    (h2 : ⌊x / S.dx⌋ < 2 ^ 31) : Fl.idxX id S x = S.idxX x := by
  unfold Fl.idxX Surface.idxX
  rw [id, toInt32_of_range _ h1 h2]

/-- Where the floor fits in `int`, the cast is the identity and `idxY` is the exact one. -/
theorem Fl.idxY_id (S : Surface) (y : ℚ) (h1 : -2 ^ 31 ≤ ⌊y / S.dy⌋)
    (h2 : ⌊y / S.dy⌋ < 2 ^ 31) : Fl.idxY id S y = S.idxY y := by
  unfold Fl.idxY Surface.idxY
  rw [id, toInt32_of_range _ h1 h2]
/-! ## `vec3.hpp`: normalisation, exact and in binary32 -/

/-- C17, as stated, fails in binary32: the non-zero vector `(2^-80, 0, 0)` is a
binary32 value, its square `2^-160` rounds to zero, the computed magnitude is `0` and
`normalize` returns the zero vector. -/
theorem normalize_underflow :
    vecTiny ≠ ⟨0, 0, 0⟩ ∧ round32 vecTiny.x = vecTiny.x ∧
    round32 (vecTiny.x * vecTiny.x) = 0 ∧
    Fl.mag round32 sqrt32 vecTiny = 0 ∧
    Fl.normalize round32 sqrt32 vecTiny = ⟨0, 0, 0⟩ := by
  decide!

theorem Fl.mag_pos (rnd fsqrt : ℚ → ℚ) (v : Vec3)
    (hrn : ∀ q : ℚ, 0 ≤ q → 0 ≤ rnd q)
    (hrp : ∀ q : ℚ, 1 / 2 ^ 149 ≤ q → 1 / 2 ^ 149 ≤ rnd q)
    (hsp : ∀ s : ℚ, 0 < s → 0 < fsqrt s)
    (h : 1 / 2 ^ 149 ≤ v.x * v.x ∨ 1 / 2 ^ 149 ≤ v.y * v.y ∨ 1 / 2 ^ 149 ≤ v.z * v.z) :
    0 < Fl.mag rnd fsqrt v := by
  unfold Fl.mag
  apply hsp
  have hc : (0 : ℚ) < 1 / 2 ^ 149 := by norm_num
  have ha : 0 ≤ rnd (v.x * v.x) := hrn _ (mul_self_nonneg _)
  have hb : 0 ≤ rnd (v.y * v.y) := hrn _ (mul_self_nonneg _)
  have hcz : 0 ≤ rnd (v.z * v.z) := hrn _ (mul_self_nonneg _)
  refine lt_of_lt_of_le hc (hrp _ ?_)
  rcases h with h | h | h
  · have := hrp _ h
    have := hrp (rnd (v.x * v.x) + rnd (v.y * v.y)) (by linarith)
    linarith
  · have := hrp _ h
    have := hrp (rnd (v.x * v.x) + rnd (v.y * v.y)) (by linarith)
    linarith
  · have := hrp _ h
    have := hrn (rnd (v.x * v.x) + rnd (v.y * v.y)) (by linarith)
    linarith

theorem Vec3.sq_pos_of_ne (v : Vec3) (hv : v ≠ ⟨0, 0, 0⟩) :
    0 < v.x * v.x + v.y * v.y + v.z * v.z := by
  have h0 : 0 ≤ v.x * v.x + v.y * v.y + v.z * v.z := by
    nlinarith [mul_self_nonneg v.x, mul_self_nonneg v.y, mul_self_nonneg v.z]
  rcases lt_or_eq_of_le h0 with h | h
  · exact h
  · exfalso
    apply hv
    have hx : v.x = 0 := by nlinarith [mul_self_nonneg v.x, mul_self_nonneg v.y, mul_self_nonneg v.z]
    have hy : v.y = 0 := by nlinarith [mul_self_nonneg v.x, mul_self_nonneg v.y, mul_self_nonneg v.z]
    have hzz : v.z = 0 := by nlinarith [mul_self_nonneg v.x, mul_self_nonneg v.y, mul_self_nonneg v.z]
    cases v
    simp only at hx hy hzz
    rw [hx, hy, hzz]

/-- C17, amended. With any rounding `rnd` that maps 0 to 0, keeps non-negative values
non-negative and does not round a value of at least `2^-149` below `2^-149`, and any
square root positive on positive values (binary32 is such a pair): `normalize` returns
the zero vector on the zero vector and whenever the computed magnitude `m` is 0, and
`(x/m, y/m, z/m)` otherwise; `m` is positive as soon as one component has a square of at
least `2^-149`. In exact arithmetic, for every non-zero `v`, `m` is positive, the result
is `v` scaled by `1/m`, its squared length times `m²` is `|v|²`, so it is within `ε` of 1
when `m²` is within `ε·m²` of `|v|²`, and equal to 1 (with magnitude 1 when the root of 1
is 1) when `m` is the exact magnitude. -/
theorem normalize_spec (rnd fsqrt : ℚ → ℚ) (v : Vec3) (hr0 : rnd 0 = 0)
    (hrn : ∀ q : ℚ, 0 ≤ q → 0 ≤ rnd q)
    (hrp : ∀ q : ℚ, 1 / 2 ^ 149 ≤ q → 1 / 2 ^ 149 ≤ rnd q)
    (hsp : ∀ s : ℚ, 0 < s → 0 < fsqrt s) :
    Fl.normalize rnd fsqrt ⟨0, 0, 0⟩ = ⟨0, 0, 0⟩ ∧
    (Fl.mag rnd fsqrt v = 0 → Fl.normalize rnd fsqrt v = ⟨0, 0, 0⟩) ∧
    (Fl.mag rnd fsqrt v ≠ 0 → Fl.normalize rnd fsqrt v
      = ⟨rnd (v.x / Fl.mag rnd fsqrt v), rnd (v.y / Fl.mag rnd fsqrt v),
          rnd (v.z / Fl.mag rnd fsqrt v)⟩) ∧
    ((1 / 2 ^ 149 ≤ v.x * v.x ∨ 1 / 2 ^ 149 ≤ v.y * v.y ∨ 1 / 2 ^ 149 ≤ v.z * v.z) →
      0 < Fl.mag rnd fsqrt v) ∧
    (v ≠ ⟨0, 0, 0⟩ →
      0 < v.mag fsqrt ∧
      v.normalize fsqrt = v.smul (1 / v.mag fsqrt) ∧
      (v.normalize fsqrt).dot (v.normalize fsqrt) * (v.mag fsqrt * v.mag fsqrt) = v.dot v ∧
      (∀ ε : ℚ, |v.mag fsqrt * v.mag fsqrt - v.dot v| ≤ ε * (v.mag fsqrt * v.mag fsqrt) →
        |(v.normalize fsqrt).dot (v.normalize fsqrt) - 1| ≤ ε) ∧
      (v.mag fsqrt * v.mag fsqrt = v.dot v →
        (v.normalize fsqrt).dot (v.normalize fsqrt) = 1 ∧
        (fsqrt 1 = 1 → (v.normalize fsqrt).mag fsqrt = 1))) := by
  refine ⟨?_, ?_, ?_, Fl.mag_pos rnd fsqrt v hrn hrp hsp, ?_⟩
  · unfold Fl.normalize
    dsimp only
    split_ifs
    · rfl
    · simp [hr0]
  · intro h
    unfold Fl.normalize
    dsimp only
    rw [if_pos h]
  · intro h
    unfold Fl.normalize
    dsimp only
    rw [if_neg h]
  · intro hv
    have hpos := Vec3.sq_pos_of_ne v hv
    have hm : 0 < v.mag fsqrt := hsp _ hpos
    have hn : v.normalize fsqrt = ⟨v.x / v.mag fsqrt, v.y / v.mag fsqrt, v.z / v.mag fsqrt⟩ := by
      unfold Vec3.normalize
      dsimp only
      rw [if_neg hm.ne.symm]
    have hdot : (v.normalize fsqrt).dot (v.normalize fsqrt) * (v.mag fsqrt * v.mag fsqrt)
        = v.dot v := by
      rw [hn]
      unfold Vec3.dot
      dsimp only
      field_simp
    have hmm : 0 < v.mag fsqrt * v.mag fsqrt := mul_pos hm hm
    refine ⟨hm, ?_, hdot, ?_, ?_⟩
    · rw [hn]
      unfold Vec3.smul
      congr 1 <;> field_simp
    · intro ε hε
      rw [← hdot] at hε
      have e : v.mag fsqrt * v.mag fsqrt
          - (v.normalize fsqrt).dot (v.normalize fsqrt) * (v.mag fsqrt * v.mag fsqrt)
          = -((v.normalize fsqrt).dot (v.normalize fsqrt) - 1) * (v.mag fsqrt * v.mag fsqrt) := by
        ring
      rw [e, abs_mul, abs_neg, abs_of_pos hmm] at hε
      exact le_of_mul_le_mul_right hε hmm
    · intro he
      have h1 : (v.normalize fsqrt).dot (v.normalize fsqrt) = 1 := by
        have := hdot
        rw [← he] at this
        exact mul_right_cancel₀ hmm.ne.symm (this.trans (one_mul _).symm)
      refine ⟨h1, fun hs1 => ?_⟩
      unfold Vec3.mag
      unfold Vec3.dot at h1
      rw [h1, hs1]

/-- Witness of the amended C17 in binary32 on `(1, -1, 0)`: the computed magnitude is
`11863283 / 2^23`, the rounded root of 2, and the result is `(x/m, y/m, z/m)`. -/
theorem normalize_spec_witness :
    (round32 0 = 0 ∧ (∀ q : ℚ, 0 ≤ q → 0 ≤ round32 q) ∧
      (∀ q : ℚ, 1 / 2 ^ 149 ≤ q → 1 / 2 ^ 149 ≤ round32 q) ∧
      (∀ s : ℚ, 0 < s → 0 < sqrt32 s)) ∧
    Fl.mag round32 sqrt32 vecDiag = 11863283 / 2 ^ 23 ∧
    Fl.normalize round32 sqrt32 vecDiag = ⟨11863283 / 2 ^ 24, -11863283 / 2 ^ 24, 0⟩ ∧
    0 < Fl.mag round32 sqrt32 vecDiag :=
  ⟨⟨round32_zero, round32_nonneg, round32_ge_min, sqrt32_pos⟩, by decide!, by decide!,
    (normalize_spec round32 sqrt32 vecDiag round32_zero round32_nonneg round32_ge_min
      sqrt32_pos).2.2.2.1 (Or.inl (by decide!))⟩

/-! ## The rasterizer in binary32: the divisor of the depth formula -/

/-- C21, as stated, fails in binary32. The triangle `triEdgeOn`, of ordinary size, has
binary32 coordinates and passes the cull test, in binary32 as in exact arithmetic; its
exact cross product has `z = -1/2048`, but the two products of the `z` component both
round to `33583108 / 4096`, so the computed `z` is 0, the normalised normal has `z = 0`
and the substitution of `0.0001f` is taken. The triangle `triTiny` passes the cull test
with the computed `z = -2^-80`, the squared length underflows, `normalize` returns the
zero vector and the substitution is taken as well. -/
theorem epsilon_branch_taken :
    (round32 (4099 / 64) = 4099 / 64 ∧ round32 (4097 / 64) = 4097 / 64 ∧
      round32 (8197 / 64) = 8197 / 64 ∧ round32 (8193 / 64) = 8193 / 64 ∧
      Fl.culled round32 triEdgeOn = false ∧ Surface.culled triEdgeOn = false ∧
      ((triEdgeOn.p2.sub triEdgeOn.p1).cross (triEdgeOn.p3.sub triEdgeOn.p1)).z = -1 / 2048 ∧
      round32 ((4099 / 64) * (8193 / 64)) = 33583108 / 4096 ∧
      round32 ((4097 / 64) * (8197 / 64)) = 33583108 / 4096 ∧
      Fl.cross round32 (Fl.sub round32 triEdgeOn.p2 triEdgeOn.p1)
        (Fl.sub round32 triEdgeOn.p3 triEdgeOn.p1) = ⟨1 / 64, -1 / 64, 0⟩ ∧
      Fl.normalize round32 sqrt32 (Fl.cross round32 (Fl.sub round32 triEdgeOn.p2 triEdgeOn.p1)
        (Fl.sub round32 triEdgeOn.p3 triEdgeOn.p1))
        = ⟨11863283 / 2 ^ 24, -11863283 / 2 ^ 24, 0⟩ ∧
      Fl.planeNormal round32 sqrt32 triEdgeOn
        = ⟨11863283 / 2 ^ 24, -11863283 / 2 ^ 24, round32 (1 / 10000)⟩) ∧
    (round32 (1 / 2 ^ 40) = 1 / 2 ^ 40 ∧
      Fl.culled round32 triTiny = false ∧ Surface.culled triTiny = false ∧
      Fl.cross round32 (Fl.sub round32 triTiny.p2 triTiny.p1)
        (Fl.sub round32 triTiny.p3 triTiny.p1) = ⟨0, 1 / 2 ^ 80, -1 / 2 ^ 80⟩ ∧
      Fl.mag round32 sqrt32 (Fl.cross round32 (Fl.sub round32 triTiny.p2 triTiny.p1)
        (Fl.sub round32 triTiny.p3 triTiny.p1)) = 0 ∧
      Fl.normalize round32 sqrt32 (Fl.cross round32 (Fl.sub round32 triTiny.p2 triTiny.p1)
        (Fl.sub round32 triTiny.p3 triTiny.p1)) = ⟨0, 0, 0⟩ ∧
      Fl.planeNormal round32 sqrt32 triTiny = ⟨0, 0, round32 (1 / 10000)⟩) := by
  decide!

/-- C21, amended. For every rounding under which `0.0001f` is not zero, every square
root and every triangle, culled or not, the divisor `normal.z` of the depth formula is
non-zero: when the normalised normal has `z = 0` the substitution replaces it by
`0.0001f`, and otherwise the plane normal is the normalised cross product. In exact
arithmetic (`rnd = id`, where the rounded functions are the exact ones) with a square root
positive on positive values, a triangle that passes the cull test has a cross product
with `z < 0`, its normalised normal has `z < 0` and the substitution is not taken. -/
theorem planeNormal_z_ne_zero (rnd fsqrt : ℚ → ℚ) (t : Triangle)
    (he : rnd (1 / 10000) ≠ 0) :
    (Fl.planeNormal rnd fsqrt t).z ≠ 0 ∧
    ((Fl.normalize rnd fsqrt (Fl.cross rnd (Fl.sub rnd t.p2 t.p1) (Fl.sub rnd t.p3 t.p1))).z = 0 →
      Fl.planeNormal rnd fsqrt t
        = { Fl.normalize rnd fsqrt (Fl.cross rnd (Fl.sub rnd t.p2 t.p1) (Fl.sub rnd t.p3 t.p1))
            with z := rnd (1 / 10000) }) ∧
    ((Fl.normalize rnd fsqrt (Fl.cross rnd (Fl.sub rnd t.p2 t.p1) (Fl.sub rnd t.p3 t.p1))).z ≠ 0 →
      Fl.planeNormal rnd fsqrt t
        = Fl.normalize rnd fsqrt (Fl.cross rnd (Fl.sub rnd t.p2 t.p1) (Fl.sub rnd t.p3 t.p1))) ∧
    (Fl.culled id t = Surface.culled t ∧
      Fl.planeNormal id fsqrt t = Surface.planeNormal fsqrt t) ∧
    ((∀ s : ℚ, 0 < s → 0 < fsqrt s) → Fl.culled id t = false →
      ((t.p2.sub t.p1).cross (t.p3.sub t.p1)).z < 0 ∧
      (((t.p2.sub t.p1).cross (t.p3.sub t.p1)).normalize fsqrt).z < 0 ∧
      Fl.planeNormal id fsqrt t = ((t.p2.sub t.p1).cross (t.p3.sub t.p1)).normalize fsqrt) := by
  have hp : Fl.planeNormal rnd fsqrt t
      = if (Fl.normalize rnd fsqrt (Fl.cross rnd (Fl.sub rnd t.p2 t.p1)
            (Fl.sub rnd t.p3 t.p1))).z = 0
        then { Fl.normalize rnd fsqrt (Fl.cross rnd (Fl.sub rnd t.p2 t.p1) (Fl.sub rnd t.p3 t.p1))
            with z := rnd (1 / 10000) }
        else Fl.normalize rnd fsqrt (Fl.cross rnd (Fl.sub rnd t.p2 t.p1)
            (Fl.sub rnd t.p3 t.p1)) := rfl
  refine ⟨?_, ?_, ?_, ⟨rfl, rfl⟩, ?_⟩
  · rw [hp]
    split_ifs with h
    · exact he
    · exact h
  · intro h
    rw [hp, if_pos h]
  · intro h
    rw [hp, if_neg h]
  · intro hf hc
    obtain ⟨h1, -, h3, h4⟩ := Surface.cull_normal_exact fsqrt t hf hc
    exact ⟨h1, h3, h4⟩

/-- Witness of the amended C21 in binary32: `0.0001f` is `13743895 / 2^37`, and the
divisor used for `triEdgeOn` is that value. -/
theorem planeNormal_z_ne_zero_witness :
    round32 (1 / 10000) ≠ 0 ∧ round32 (1 / 10000) = 13743895 / 2 ^ 37 ∧
    (Fl.planeNormal round32 sqrt32 triEdgeOn).z = 13743895 / 2 ^ 37 ∧
    (Fl.planeNormal round32 sqrt32 triEdgeOn).z ≠ 0 :=
  ⟨by decide!, by decide!, by decide!,
    (planeNormal_z_ne_zero round32 sqrt32 triEdgeOn (by decide!)).1⟩

/-! ## The rasterizer in binary32: the depth of a sample -/

/-- C20 fails on the program. `triHuge` has binary32 coordinates and passes the cull
test; the centres of all sixteen cells of the cleared 4x4 grid `grid4` are strictly
inside it. The last column is computed from `xf = 3e9 - 0.5`, which rounds to `3e9`;
its floor does not fit in `int`, the conversion yields `INT_MIN` and the clamp yields 0:
the scan covers column 0 only, and the twelve cells of columns 1 to 3 keep the cleared
pixel, for instance cell `(1, 0)` with the interior centre `(3/2, 1/2)`. The exact
reading without the conversion has `x_end = 3` and fills all sixteen cells. -/
theorem scan_overflow_skips_cells :
    (round32 3000000000 = 3000000000 ∧ Fl.culled round32 triHuge = false ∧
      Surface.culled triHuge = false) ∧
    (∀ xx ∈ [0, 1, 2, 3], ∀ yy ∈ [0, 1, 2, 3],
      Surface.strictlyInside triHuge (Fl.sampleX round32 grid4 xx)
        (Fl.sampleY round32 grid4 yy)) ∧
    (round32 (3000000000 - round32 (1 / 2)) = 3000000000 ∧
      toInt32 ⌊round32 (3000000000 / grid4.dx)⌋ = -2 ^ 31 ∧
      Fl.xStart round32 grid4 triHuge = 0 ∧ Fl.xEnd round32 grid4 triHuge = 0 ∧
      Surface.xEnd grid4 triHuge = 3) ∧
    ((Fl.drawTriangle round32 sqrt32 grid4 triHuge glyphA 7).pixels.map
        (fun (p : Pixel) => p.material)
      = [7, -1, -1, -1, 7, -1, -1, -1, 7, -1, -1, -1, 7, -1, -1, -1]) ∧
    (Fl.sampleX round32 grid4 1 = 3 / 2 ∧ Fl.sampleY round32 grid4 0 = 1 / 2 ∧
      (Fl.drawTriangle round32 sqrt32 grid4 triHuge glyphA 7).pixelAt 1 0 = {} ∧
      (Surface.drawTriangle sqrt32 grid4 triHuge glyphA 7).pixelAt 1 0
        = ⟨some 1, glyphA, 7⟩) := by
  decide!

/-- Rounding alone also makes the scan skip interior centres, at ordinary coordinates.
`triSliver` has binary32 coordinates and passes the cull test; the centres of the four
cells of column 0 of `grid4` are strictly inside it. The first column is computed from
`xi = (1/2 - 2^-25) + 1/2`, which rounds to 1 (a tie, resolved to even), so the scan
starts at column 1 and the four cells keep the cleared pixel; the exact reading starts
at column 0 and fills them. -/
theorem scan_rounding_skips_cells :
    (round32 (16777215 / 2 ^ 25) = 16777215 / 2 ^ 25 ∧
      Fl.culled round32 triSliver = false ∧ Surface.culled triSliver = false) ∧
    (∀ yy ∈ [0, 1, 2, 3],
      Surface.strictlyInside triSliver (Fl.sampleX round32 grid4 0)
        (Fl.sampleY round32 grid4 yy)) ∧
    (round32 (16777215 / 2 ^ 25 + round32 (1 / 2)) = 1 ∧
      Fl.xStart round32 grid4 triSliver = 1 ∧ Surface.xStart grid4 triSliver = 0) ∧
    ((Fl.drawTriangle round32 sqrt32 grid4 triSliver glyphA 7).pixels.map
        (fun (p : Pixel) => p.material)
      = [-1, -1, -1, -1, -1, 7, -1, -1, -1, 7, -1, -1, -1, -1, -1, -1]) ∧
    ((Surface.drawTriangle sqrt32 grid4 triSliver glyphA 7).pixels.map
        (fun (p : Pixel) => p.material)
      = [7, -1, -1, -1, 7, 7, -1, -1, 7, 7, -1, -1, 7, -1, -1, -1]) := by
  decide!
/-! ## The rounded rasterizer: the frame-buffer properties hold for every rounding

The properties of the exact `drawTriangle` that do not depend on which cells the scan
visits are proved here for `Fl.drawTriangle`, for every rounding `rnd` and every square
root, hence for the binary32 evaluation with the conversion to `int`. -/

namespace Fl

theorem drawTriangle_eq_fl (rnd fsqrt : ℚ → ℚ) (S : Surface) (t : Triangle) (c : Char)
    (m : Int) :
    drawTriangle rnd fsqrt S t c m
      = { S with pixels := drawPixels rnd fsqrt S t c m S.pixels } := by
  unfold drawTriangle drawPixels sampledCells
  by_cases h : culled rnd t = true
  · simp [h]
  · simp only [h, if_false, Bool.false_eq_true]
    rw [Surface.foldl_flatMap_eq]
    simp only [List.foldl_map]
    rfl

theorem plot_length_fl (rnd fsqrt : ℚ → ℚ) (S : Surface) (t : Triangle) (c : Char) (m : Int)
    (xx : Int) (px : List Pixel) (yy : Int) :
    (plot rnd fsqrt S t c m xx px yy).length = px.length := by
  unfold plot; split_ifs <;> simp

theorem plot_getD_fl (rnd fsqrt : ℚ → ℚ) (S : Surface) (t : Triangle) (c : Char) (m : Int)
    (xx : Int) (px : List Pixel) (yy : Int) (j : Nat) (hj : j < px.length) :
    (plot rnd fsqrt S t c m xx px yy).getD j default
      = if 0 ≤ yy * S.width + xx ∧ (yy * S.width + xx).toNat = j then
          Surface.testPixel (px.getD j default) (planeDepth rnd fsqrt S t xx yy) c m
        else px.getD j default := by
  unfold plot
  by_cases h0 : 0 ≤ yy * S.width + xx
  · by_cases h1 : (yy * S.width + xx).toNat = j
    · simp [h0, h1, List.getD_eq_getElem?_getD, List.getElem?_set, hj]
    · simp [h0, h1, List.getD_eq_getElem?_getD, List.getElem?_set]
  · simp [h0]

theorem foldl_plot_length_fl (rnd fsqrt : ℚ → ℚ) (S : Surface) (t : Triangle) (c : Char)
    (m : Int) (L : List (Int × Int)) : ∀ px : List Pixel,
    (L.foldl (fun px cell => plot rnd fsqrt S t c m cell.1 px cell.2) px).length
      = px.length := by
  induction L with
  | nil => intro px; rfl
  | cons a L ih => intro px; rw [List.foldl_cons, ih, plot_length_fl]

/-- Locality of the rounded loops: pixel `j` after the loops is pixel `j` before, put
through the depth tests of exactly those sampled cells whose index is `j`. -/
theorem foldl_plot_getD_fl (rnd fsqrt : ℚ → ℚ) (S : Surface) (t : Triangle) (c : Char)
    (m : Int) (j : Nat) (L : List (Int × Int)) : ∀ px : List Pixel, j < px.length →
    (L.foldl (fun px cell => plot rnd fsqrt S t c m cell.1 px cell.2) px).getD j default
      = ((L.filter (fun cell => decide (0 ≤ cell.2 * S.width + cell.1 ∧
            (cell.2 * S.width + cell.1).toNat = j))).map
          (fun cell => planeDepth rnd fsqrt S t cell.1 cell.2)).foldl
          (fun q e => Surface.testPixel q e c m) (px.getD j default) := by
  induction L with
  | nil => intro px _; rfl
  | cons a L ih =>
    intro px hj
    rw [List.foldl_cons, ih _ (by rw [plot_length_fl]; exact hj),
      plot_getD_fl _ _ _ _ _ _ _ _ _ _ hj]
    by_cases h : 0 ≤ a.2 * S.width + a.1 ∧ (a.2 * S.width + a.1).toNat = j
    · rw [if_pos h, List.filter_cons_of_pos (by simpa using h)]
      rfl
    · rw [if_neg h, List.filter_cons_of_neg (by simp [h])]

theorem drawPixels_length_fl (rnd fsqrt : ℚ → ℚ) (S : Surface) (t : Triangle) (c : Char)
    (m : Int) (px : List Pixel) : (drawPixels rnd fsqrt S t c m px).length = px.length :=
  foldl_plot_length_fl rnd fsqrt S t c m _ px

theorem idxX_bounds (rnd : ℚ → ℚ) (S : Surface) (hw : 1 ≤ S.width) (x : ℚ) :
    0 ≤ idxX rnd S x ∧ idxX rnd S x ≤ S.width - 1 :=
  Surface.clamp_bounds _ 0 _ (by omega)

theorem idxY_bounds (rnd : ℚ → ℚ) (S : Surface) (hh : 1 ≤ S.height) (y : ℚ) :
    0 ≤ idxY rnd S y ∧ idxY rnd S y ≤ S.height - 1 :=
  Surface.clamp_bounds _ 0 _ (by omega)

theorem mem_sampledCells_fl (rnd : ℚ → ℚ) (S : Surface) (t : Triangle) (xx yy : Int) :
    (xx, yy) ∈ sampledCells rnd S t ↔
      culled rnd t = false ∧ xStart rnd S t ≤ xx ∧ xx ≤ xEnd rnd S t ∧
        yStart rnd S t xx ≤ yy ∧ yy ≤ yEnd rnd S t xx := by
  unfold sampledCells
  by_cases h : culled rnd t = true
  · simp [h]
  · simp only [h, if_false, Bool.false_eq_true, List.mem_flatMap, List.mem_map, Prod.mk.injEq,
      Surface.mem_intRange]
    constructor
    · rintro ⟨a, ⟨h1, h2⟩, b, ⟨h3, h4⟩, rfl, rfl⟩
      exact ⟨by simp [h], h1, h2, h3, h4⟩
    · rintro ⟨-, h1, h2, h3, h4⟩
      exact ⟨xx, ⟨h1, h2⟩, yy, ⟨h3, h4⟩, rfl, rfl⟩

/-- A cell sampled by the rounded scan lies on the grid. -/
theorem sampledCells_on_grid_fl (rnd : ℚ → ℚ) (S : Surface) (t : Triangle) (xx yy : Int)
    (hw : 1 ≤ S.width) (hh : 1 ≤ S.height) (h : (xx, yy) ∈ sampledCells rnd S t) :
    0 ≤ xx ∧ xx < S.width ∧ 0 ≤ yy ∧ yy < S.height := by
  obtain ⟨-, h1, h2, h3, h4⟩ := (mem_sampledCells_fl rnd S t xx yy).mp h
  have a1 := idxX_bounds rnd S hw (rnd ((sortByX t.p1 t.p2 t.p3).1.x + rnd (S.dx / 2)))
  have a2 := idxX_bounds rnd S hw (rnd ((sortByX t.p1 t.p2 t.p3).2.2.x - rnd (S.dx / 2)))
  have a3 := idxY_bounds rnd S hh
    (rnd (min (scanY1 rnd S t xx) (scanY2 rnd S t xx) + rnd (S.dy / 2)))
  have a4 := idxY_bounds rnd S hh
    (rnd (max (scanY1 rnd S t xx) (scanY2 rnd S t xx) - rnd (S.dy / 2)))
  unfold xStart at h1
  unfold xEnd at h2
  unfold yStart at h3
  unfold yEnd at h4
  omega

theorem filter_cells_eq_fl (rnd : ℚ → ℚ) (S : Surface) (t : Triangle) (xx yy : Int)
    (hw : 1 ≤ S.width) (hh : 1 ≤ S.height)
    (hx : 0 ≤ xx ∧ xx < S.width) (h0 : 0 ≤ yy * S.width + xx) (cell : Int × Int)
    (hc : cell ∈ (sampledCells rnd S t).filter (fun cell =>
      decide (0 ≤ cell.2 * S.width + cell.1 ∧
        (cell.2 * S.width + cell.1).toNat = (yy * S.width + xx).toNat))) :
    cell = (xx, yy) := by
  obtain ⟨hm, hp⟩ := List.mem_filter.mp hc
  simp only [decide_eq_true_eq] at hp
  obtain ⟨a, b⟩ := cell
  obtain ⟨c1, c2, -, -⟩ := sampledCells_on_grid_fl rnd S t a b hw hh hm
  have := Surface.cell_index_inj S.width a b xx yy ⟨c1, c2⟩ hx (by simp only at hp; omega)
  rw [this.1, this.2]

/-- The index bounds for the rounded scan: with `width, height ≥ 1`, for every rounding,
`idxX` and `idxY` (with the conversion to `int`) return a column in `[0, width-1]` and a
row in `[0, height-1]`, and every pixel index the rounded `drawTriangle` accesses
satisfies `0 ≤ yy*width+xx < width*height`. -/
theorem index_in_bounds_fl (rnd : ℚ → ℚ) (S : Surface) (hw : 1 ≤ S.width)
    (hh : 1 ≤ S.height) :
    (∀ x : ℚ, 0 ≤ idxX rnd S x ∧ idxX rnd S x ≤ S.width - 1) ∧
    (∀ y : ℚ, 0 ≤ idxY rnd S y ∧ idxY rnd S y ≤ S.height - 1) ∧
    (∀ (t : Triangle) (xx yy : Int), (xx, yy) ∈ sampledCells rnd S t →
      0 ≤ yy * S.width + xx ∧ yy * S.width + xx < S.width * S.height ∧
      (S.pixels.length = (S.width * S.height).toNat →
        (yy * S.width + xx).toNat < S.pixels.length)) := by
  refine ⟨idxX_bounds rnd S hw, idxY_bounds rnd S hh, fun t xx yy hs => ?_⟩
  obtain ⟨hx0, hx1, hy0, hy1⟩ := sampledCells_on_grid_fl rnd S t xx yy hw hh hs
  have h0 : 0 ≤ yy * S.width := Int.mul_nonneg hy0 (by omega)
  have h1 : (yy + 1) * S.width ≤ S.height * S.width :=
    Int.mul_le_mul_of_nonneg_right (by omega) (by omega)
  rw [Int.add_mul] at h1
  have h2 : S.width * S.height = S.height * S.width := Int.mul_comm _ _
  refine ⟨by omega, by omega, fun hlen => ?_⟩
  rw [hlen]; omega

/-- Culling in the rounded `drawTriangle`: a triangle rejected by the rounded
cull test leaves the surface unchanged. -/
theorem drawTriangle_culled_fl (rnd fsqrt : ℚ → ℚ) (S : Surface) (t : Triangle) (c : Char)
    (m : Int)
    (h : rnd (rnd (t.p2.x - t.p1.x) * rnd (t.p3.y - t.p2.y))
      ≥ rnd (rnd (t.p3.x - t.p2.x) * rnd (t.p2.y - t.p1.y))) :
    drawTriangle rnd fsqrt S t c m = S := by
  unfold drawTriangle
  rw [if_pos (by unfold culled; exact decide_eq_true h)]

/-- Idempotence of the rounded `drawTriangle`: drawing the same triangle twice in
a row yields the surface obtained by drawing it once, for every rounding. -/
theorem drawTriangle_idempotent_fl (rnd fsqrt : ℚ → ℚ) (S : Surface) (t : Triangle)
    (c : Char) (m : Int) :
    drawTriangle rnd fsqrt (drawTriangle rnd fsqrt S t c m) t c m
      = drawTriangle rnd fsqrt S t c m := by
  rw [drawTriangle_eq_fl rnd fsqrt S, drawTriangle_eq_fl rnd fsqrt]
  have key : drawPixels rnd fsqrt S t c m (drawPixels rnd fsqrt S t c m S.pixels)
      = drawPixels rnd fsqrt S t c m S.pixels := by
    apply Surface.ext_getD default
    · rw [drawPixels_length_fl]
    · intro j hj
      rw [drawPixels_length_fl, drawPixels_length_fl] at hj
      unfold drawPixels
      rw [foldl_plot_getD_fl _ _ _ _ _ _ _ _ _ (by rw [foldl_plot_length_fl]; exact hj),
        foldl_plot_getD_fl _ _ _ _ _ _ _ _ _ hj]
      exact Surface.foldl_testPixel_idem c m _ _
  show ({ S with pixels := drawPixels rnd fsqrt S t c m (drawPixels rnd fsqrt S t c m S.pixels) }
      : Surface) = _
  rw [key]

theorem pixelAt_drawTriangle_fl (rnd fsqrt : ℚ → ℚ) (S : Surface) (t : Triangle) (c : Char)
    (m : Int) (xx yy : Int) (hj : (yy * S.width + xx).toNat < S.pixels.length) :
    (drawTriangle rnd fsqrt S t c m).pixelAt xx yy
      = (((sampledCells rnd S t).filter (fun cell =>
            decide (0 ≤ cell.2 * S.width + cell.1 ∧
              (cell.2 * S.width + cell.1).toNat = (yy * S.width + xx).toNat))).map
          (fun cell => planeDepth rnd fsqrt S t cell.1 cell.2)).foldl
          (fun q e => Surface.testPixel q e c m) (S.pixelAt xx yy) := by
  rw [drawTriangle_eq_fl]
  exact foldl_plot_getD_fl rnd fsqrt S t c m _ _ _ hj

/-- The effect of the rounded `drawTriangle` on one cell, for every rounding: a cell of the
grid is unchanged, or it is a sampled cell that now holds the rounded depth `d` of its
sample, the glyph and the material, `d` being strictly less than the depth stored
before; the dimensions do not change. -/
theorem drawTriangle_cell_fl (rnd fsqrt : ℚ → ℚ) (S : Surface) (t : Triangle) (c : Char)
    (m : Int) (xx yy : Int) (hw : 1 ≤ S.width) (hh : 1 ≤ S.height)
    (hx : 0 ≤ xx ∧ xx < S.width) (hy : 0 ≤ yy) :
    (drawTriangle rnd fsqrt S t c m).width = S.width ∧
    (drawTriangle rnd fsqrt S t c m).height = S.height ∧
    (drawTriangle rnd fsqrt S t c m).dx = S.dx ∧
    (drawTriangle rnd fsqrt S t c m).dy = S.dy ∧
    (drawTriangle rnd fsqrt S t c m).pixels.length = S.pixels.length ∧
    ((drawTriangle rnd fsqrt S t c m).pixelAt xx yy = S.pixelAt xx yy ∨
      ((xx, yy) ∈ sampledCells rnd S t ∧
        (drawTriangle rnd fsqrt S t c m).pixelAt xx yy
          = ⟨some (planeDepth rnd fsqrt S t xx yy), c, m⟩ ∧
        depthLess (planeDepth rnd fsqrt S t xx yy) (S.pixelAt xx yy).z = true)) := by
  refine ⟨?_, ?_, ?_, ?_, ?_, ?_⟩
  · rw [drawTriangle_eq_fl]
  · rw [drawTriangle_eq_fl]
  · rw [drawTriangle_eq_fl]
  · rw [drawTriangle_eq_fl]
  · rw [drawTriangle_eq_fl]; exact drawPixels_length_fl _ _ _ _ _ _ _
  have h0 : 0 ≤ yy * S.width + xx := by
    have := Int.mul_nonneg hy (by omega : (0 : Int) ≤ S.width)
    omega
  by_cases hj : (yy * S.width + xx).toNat < S.pixels.length
  · rw [pixelAt_drawTriangle_fl rnd fsqrt S t c m xx yy hj]
    rcases Surface.foldl_testPixel_cases c m
      (((sampledCells rnd S t).filter (fun cell => decide (0 ≤ cell.2 * S.width + cell.1 ∧
        (cell.2 * S.width + cell.1).toNat = (yy * S.width + xx).toNat))).map
        (fun cell => planeDepth rnd fsqrt S t cell.1 cell.2)) (S.pixelAt xx yy)
      with h | ⟨d, hd, h1, h2⟩
    · left; exact h
    · right
      obtain ⟨cell, hc, rfl⟩ := List.mem_map.mp hd
      have := filter_cells_eq_fl rnd S t xx yy hw hh hx h0 cell hc
      subst this
      exact ⟨(List.mem_filter.mp hc).1, h1, h2⟩
  · left
    rw [drawTriangle_eq_fl]
    show (drawPixels rnd fsqrt S t c m S.pixels).getD (yy * S.width + xx).toNat default
      = S.pixels.getD (yy * S.width + xx).toNat default
    rw [List.getD_eq_default _ _ (by rw [drawPixels_length_fl]; omega),
      List.getD_eq_default _ _ (by omega)]

theorem pixelAt_sampled_fl (rnd fsqrt : ℚ → ℚ) (S : Surface) (t : Triangle) (c : Char)
    (m : Int) (xx yy : Int) (hw : 1 ≤ S.width) (hh : 1 ≤ S.height)
    (hlen : S.pixels.length = (S.width * S.height).toNat)
    (hs : (xx, yy) ∈ sampledCells rnd S t) :
    (drawTriangle rnd fsqrt S t c m).pixelAt xx yy
      = Surface.testPixel (S.pixelAt xx yy) (planeDepth rnd fsqrt S t xx yy) c m := by
  obtain ⟨hx0, hx1, hy0, hy1⟩ := sampledCells_on_grid_fl rnd S t xx yy hw hh hs
  have h0 : 0 ≤ yy * S.width + xx := by
    have := Int.mul_nonneg hy0 (by omega : (0 : Int) ≤ S.width)
    omega
  have hj : (yy * S.width + xx).toNat < S.pixels.length := by
    rw [hlen]
    have h1 : (yy + 1) * S.width ≤ S.height * S.width :=
      Int.mul_le_mul_of_nonneg_right (by omega) (by omega)
    rw [Int.add_mul] at h1
    have h2 : S.width * S.height = S.height * S.width := Int.mul_comm _ _
    omega
  rw [pixelAt_drawTriangle_fl rnd fsqrt S t c m xx yy hj]
  apply Surface.foldl_testPixel_const
  · intro hnil
    have hmem : (xx, yy) ∈ (sampledCells rnd S t).filter
        (fun cell => decide (0 ≤ cell.2 * S.width + cell.1 ∧
          (cell.2 * S.width + cell.1).toNat = (yy * S.width + xx).toNat)) :=
      List.mem_filter.mpr ⟨hs, by simpa using h0⟩
    have := List.mem_map_of_mem
      (fun cell : Int × Int => planeDepth rnd fsqrt S t cell.1 cell.2) hmem
    rw [hnil] at this
    simp at this
  · intro e he
    obtain ⟨cell, hc, rfl⟩ := List.mem_map.mp he
    rw [filter_cells_eq_fl rnd S t xx yy hw hh ⟨hx0, hx1⟩ h0 cell hc]

/-- Nearest wins for the rounded `drawTriangle`, for every rounding: on a cleared,
well-formed surface, for a cell sampled by both triangles where the rounded depth of `A`
is strictly less than that of `B`, the cell holds `A`'s depth, glyph and material in both
drawing orders. -/
theorem nearest_wins_fl (rnd fsqrt : ℚ → ℚ) (S : Surface) (A B : Triangle) (cA cB : Char)
    (mA mB : Int) (xx yy : Int) (hw : 1 ≤ S.width) (hh : 1 ≤ S.height)
    (hlen : S.pixels.length = (S.width * S.height).toNat)
    (hA : (xx, yy) ∈ sampledCells rnd S.clear A) (hB : (xx, yy) ∈ sampledCells rnd S.clear B)
    (hd : planeDepth rnd fsqrt S A xx yy < planeDepth rnd fsqrt S B xx yy) :
    (drawTriangle rnd fsqrt (drawTriangle rnd fsqrt S.clear A cA mA) B cB mB).pixelAt xx yy
      = ⟨some (planeDepth rnd fsqrt S A xx yy), cA, mA⟩ ∧
    (drawTriangle rnd fsqrt (drawTriangle rnd fsqrt S.clear B cB mB) A cA mA).pixelAt xx yy
      = ⟨some (planeDepth rnd fsqrt S A xx yy), cA, mA⟩ := by
  have hlc : S.clear.pixels.length = (S.clear.width * S.clear.height).toNat := by
    simpa [Surface.clear] using hlen
  have geo : ∀ (T : Triangle) (c : Char) (m : Int),
      (drawTriangle rnd fsqrt S.clear T c m).width = S.width ∧
      (drawTriangle rnd fsqrt S.clear T c m).height = S.height ∧
      (drawTriangle rnd fsqrt S.clear T c m).pixels.length
        = ((drawTriangle rnd fsqrt S.clear T c m).width
          * (drawTriangle rnd fsqrt S.clear T c m).height).toNat ∧
      (∀ U, sampledCells rnd (drawTriangle rnd fsqrt S.clear T c m) U
        = sampledCells rnd S.clear U) ∧
      (∀ U, planeDepth rnd fsqrt (drawTriangle rnd fsqrt S.clear T c m) U xx yy
        = planeDepth rnd fsqrt S U xx yy) := by
    intro T c m
    rw [drawTriangle_eq_fl]
    exact ⟨rfl, rfl, by rw [drawPixels_length_fl]; exact hlc, fun _ => rfl, fun _ => rfl⟩
  have hpA : (drawTriangle rnd fsqrt S.clear A cA mA).pixelAt xx yy
      = ⟨some (planeDepth rnd fsqrt S A xx yy), cA, mA⟩ := by
    rw [pixelAt_sampled_fl rnd fsqrt S.clear A cA mA xx yy hw hh hlc hA, Surface.pixelAt_clear]
    rfl
  have hpB : (drawTriangle rnd fsqrt S.clear B cB mB).pixelAt xx yy
      = ⟨some (planeDepth rnd fsqrt S B xx yy), cB, mB⟩ := by
    rw [pixelAt_sampled_fl rnd fsqrt S.clear B cB mB xx yy hw hh hlc hB, Surface.pixelAt_clear]
    rfl
  constructor
  · obtain ⟨g1, g2, g3, g4, g5⟩ := geo A cA mA
    rw [pixelAt_sampled_fl rnd fsqrt _ B cB mB xx yy (by rw [g1]; exact hw) (by rw [g2]; exact hh)
      g3 (by rw [g4]; exact hB), hpA, g5]
    unfold Surface.testPixel
    rw [if_neg]
    simp only [depthLess, decide_eq_true_eq, not_lt]
    exact hd.le
  · obtain ⟨g1, g2, g3, g4, g5⟩ := geo B cB mB
    rw [pixelAt_sampled_fl rnd fsqrt _ A cA mA xx yy (by rw [g1]; exact hw) (by rw [g2]; exact hh)
      g3 (by rw [g4]; exact hA), hpB, g5]
    unfold Surface.testPixel
    rw [if_pos]
    simp only [depthLess, decide_eq_true_eq]
    exact hd

end Fl
/-! ## The column scan with the conversion to `int`, in exact arithmetic -/

namespace Fl

theorem scanY1_id (S : Surface) (t : Triangle) (xx : Int) :
    scanY1 id S t xx = S.scanY1 t xx := rfl

theorem scanY2_id (S : Surface) (t : Triangle) (xx : Int) :
    scanY2 id S t xx = S.scanY2 t xx := rfl

/-- In exact arithmetic the conversion to `int` is the only difference between the two
readings of the scan: on a cleared surface, for a triangle that passes the cull test, a
cell of the grid whose centre is strictly inside the triangle is sampled and filled by
`Fl.drawTriangle id` as soon as the four floors of its column scan fit in `int`. -/
theorem interior_cells_filled_of_range (fsqrt : ℚ → ℚ) (S : Surface) (t : Triangle)
    (c : Char) (m : Int) (xx yy : Int) (hw : 1 ≤ S.width) (hh : 1 ≤ S.height)
    (hdx : 0 < S.dx) (hdy : 0 < S.dy)
    (hlen : S.pixels.length = (S.width * S.height).toNat)
    (hc : Surface.culled t = false)
    (hx : 0 ≤ xx ∧ xx < S.width) (hy : 0 ≤ yy ∧ yy < S.height)
    (hin : Surface.strictlyInside t (S.sampleX xx) (S.sampleY yy))
    (r1 : -2 ^ 31 ≤ S.rawXStart t ∧ S.rawXStart t < 2 ^ 31)
    (r2 : -2 ^ 31 ≤ S.rawXEnd t ∧ S.rawXEnd t < 2 ^ 31)
    (r3 : -2 ^ 31 ≤ S.rawYStart t xx ∧ S.rawYStart t xx < 2 ^ 31)
    (r4 : -2 ^ 31 ≤ S.rawYEnd t xx ∧ S.rawYEnd t xx < 2 ^ 31) :
    (xx, yy) ∈ sampledCells id S.clear t ∧
    (drawTriangle id fsqrt S.clear t c m).pixelAt xx yy
      = ⟨some (Surface.planeDepth fsqrt S t xx yy), c, m⟩ := by
  have hs := Surface.interior_cell_sampled S.clear t xx yy hdx hdy hc hx hy hin
  obtain ⟨-, h1, h2, h3, h4⟩ := (Surface.mem_sampledCells S.clear t xx yy).mp hs
  have e1 : xStart id S.clear t = S.clear.xStart t := idxX_id S.clear _ r1.1 r1.2
  have e2 : xEnd id S.clear t = S.clear.xEnd t := idxX_id S.clear _ r2.1 r2.2
  have e3 : yStart id S.clear t xx = S.clear.yStart t xx := idxY_id S.clear _ r3.1 r3.2
  have e4 : yEnd id S.clear t xx = S.clear.yEnd t xx := idxY_id S.clear _ r4.1 r4.2
  have hs2 : (xx, yy) ∈ sampledCells id S.clear t := by
    rw [mem_sampledCells_fl]
    exact ⟨hc, by rw [e1]; exact h1, by rw [e2]; exact h2, by rw [e3]; exact h3,
      by rw [e4]; exact h4⟩
  have hlc : S.clear.pixels.length = (S.clear.width * S.clear.height).toNat := by
    simpa [Surface.clear] using hlen
  refine ⟨hs2, ?_⟩
  rw [pixelAt_sampled_fl id fsqrt S.clear t c m xx yy hw hh hlc hs2, Surface.pixelAt_clear]
  rfl

end Fl
/-! ## The triangulator: what the convexity test guarantees -/

/-- The cross product of the convexity test is twice the signed area of the candidate
ear `(prev, cur, next)`. -/
theorem convex_cp_eq (v1 v2 v3 : Vec3) :
    ((v3.sub v2).cross (v1.sub v2)).z = 2 * triSigned v1 v2 v3 := by
  unfold Vec3.cross Vec3.sub triSigned
  dsimp only
  ring

/-- The ear search stops at a corner that passed the convexity test whenever some corner
passes it; the candidate ear `(prev, cur, next)` then has a signed area that is zero or of
the sign selected by the orientation flag: non-negative for `orient = false` (a
counter-clockwise polygon), non-positive for `orient = true`. For the flag that
`loadFromObj` computes from a polygon, that is zero or the sign of the polygon's signed
area. -/
theorem findEar_sign (vecs : List Vec3) (orient : Bool)
    (h : ∃ t, t < vecs.length ∧ isConvexAt vecs orient t = true) :
    (orient = false →
      0 ≤ triSigned (vecs.getD (findEar vecs orient).1 default)
        (vecs.getD (findEar vecs orient).2.1 default)
        (vecs.getD (findEar vecs orient).2.2 default)) ∧
    (orient = true →
      triSigned (vecs.getD (findEar vecs orient).1 default)
        (vecs.getD (findEar vecs orient).2.1 default)
        (vecs.getD (findEar vecs orient).2.2 default) ≤ 0) ∧
    (orient = decide (orientationSum vecs ≥ 0) →
      0 ≤ polygonSigned vecs *
        triSigned (vecs.getD (findEar vecs orient).1 default)
          (vecs.getD (findEar vecs orient).2.1 default)
          (vecs.getD (findEar vecs orient).2.2 default)) := by
  obtain ⟨t, ht, hc⟩ := h
  have hfind : ∃ t0, (List.range vecs.length).find? (isConvexAt vecs orient) = some t0 := by
    cases hf : (List.range vecs.length).find? (isConvexAt vecs orient) with
    | some t0 => exact ⟨t0, rfl⟩
    | none =>
      rw [List.find?_eq_none] at hf
      exact absurd hc (hf t (List.mem_range.mpr ht))
  obtain ⟨t0, h0⟩ := hfind
  have hconv : isConvexAt vecs orient t0 = true := List.find?_some h0
  have he : findEar vecs orient = earCorner vecs.length t0 := by
    unfold findEar
    rw [h0]
    rfl
  rw [he]
  unfold isConvexAt at hconv
  dsimp only at hconv
  rw [convex_cp_eq] at hconv
  generalize triSigned (vecs.getD (earCorner vecs.length t0).1 default)
    (vecs.getD (earCorner vecs.length t0).2.1 default)
    (vecs.getD (earCorner vecs.length t0).2.2 default) = s at hconv ⊢
  have key : (orient = false → 0 ≤ s) ∧ (orient = true → s ≤ 0) := by
    cases orient
    · simp only [Bool.or_eq_true, decide_eq_true_eq, bne_iff_ne, ne_eq, decide_eq_false_iff_not,
        not_not, Bool.bne_false] at hconv
      refine ⟨fun _ => ?_, fun h => absurd h (by simp)⟩
      rcases hconv with h | h <;> linarith
    · simp only [Bool.or_eq_true, decide_eq_true_eq, bne_iff_ne, ne_eq, Bool.bne_true,
        Bool.not_eq_true', decide_eq_false_iff_not, not_lt] at hconv
      refine ⟨fun h => absurd h (by simp), fun _ => ?_⟩
      rcases hconv with h | h <;> linarith
  refine ⟨key.1, key.2, fun ho => ?_⟩
  unfold polygonSigned
  by_cases hs : orientationSum vecs ≥ 0
  · have : orient = true := by rw [ho]; exact decide_eq_true hs
    have := key.2 this
    have h1 : -(orientationSum vecs) / 2 ≤ 0 := by linarith
    exact mul_nonneg_of_nonpos_of_nonpos h1 this
  · have : orient = false := by rw [ho]; exact decide_eq_false hs
    have := key.1 this
    have h1 : 0 ≤ -(orientationSum vecs) / 2 := by linarith [not_le.mp hs]
    exact mul_nonneg h1 this

end Voxcii
